import Mathlib

/-!
# MADlib aggregates: linear regression and Cox proportional hazards

A shallow embedding of `src/modules/regress/linear.cpp` and
`src/modules/stats/cox_prop_hazards.cpp`.

* A C++ `double` is a value of `Double`: a rational number (arithmetic on
  finite values is exact, there is no rounding and no signed zero) or one of
  the three non-finite values, which propagate as in IEEE 754.
* Where the rounding of binary64 arithmetic decides a property, the code is
  read once more with every operation rounded (`Double.round64`, `Rounded`).
* A transition state is the `DOUBLE PRECISION` array the database sees
  (`mStorage`, a `List Double`); the scalar, vector and matrix members of the
  C++ state classes are views into that array at the offsets `rebind` gives
  them.
* A function that can throw returns `Except Error`.
-/

set_option autoImplicit false

namespace madlib

/-! ## Exceptions -/

/-- The exceptions the aggregate functions raise. -/
inductive Error where
  /-- The C++ `std::invalid_argument` (InvalidInput in the specification). -/
  | invalid_argument
  /-- The C++ `std::domain_error` (DomainError). -/
  | domain_error
  /-- The C++ `std::logic_error` (IncompatibleState). -/
  | logic_error
  /-- The C++ `NoSolutionFoundException` (NoSolutionFound). -/
  | no_solution_found
  /-- An Eigen operation on operands of different dimensions (an assertion of
  the linear-algebra library; no state is returned). -/
  | dimension_mismatch
  deriving DecidableEq

deriving instance DecidableEq for Except

/-! ## Doubles in exact arithmetic -/

/-- A C++ `double`: a finite value, held exactly, or a non-finite one. -/
inductive Double where
  | finite (q : ℚ)
  | posInf
  | negInf
  | nan
  deriving DecidableEq

namespace Double

/-- The C++ `std::isfinite`. -/
def isFinite : Double → Bool
  | finite _ => true
  | _ => false

/-- Addition of doubles. -/
def add : Double → Double → Double
  | finite a, finite b => finite (a + b)
  | finite _, posInf => posInf
  | finite _, negInf => negInf
  | posInf, finite _ => posInf
  | posInf, posInf => posInf
  | posInf, negInf => nan
  | negInf, finite _ => negInf
  | negInf, posInf => nan
  | negInf, negInf => negInf
  | nan, _ => nan
  | finite _, nan => nan
  | posInf, nan => nan
  | negInf, nan => nan

/-- Negation of doubles. -/
def neg : Double → Double
  | finite a => finite (-a)
  | posInf => negInf
  | negInf => posInf
  | nan => nan

/-- The product of the finite value `q` and an infinity (the positive one when
`positive` is true): the infinity with the product's sign, `nan` when `q = 0`. -/
def signedInf (q : ℚ) (positive : Bool) : Double :=
  if q = 0 then nan else if decide (0 < q) == positive then posInf else negInf

/-- Multiplication of doubles. -/
def mul : Double → Double → Double
  | finite a, finite b => finite (a * b)
  | finite a, posInf => signedInf a true
  | finite a, negInf => signedInf a false
  | posInf, finite b => signedInf b true
  | negInf, finite b => signedInf b false
  | posInf, posInf => posInf
  | posInf, negInf => negInf
  | negInf, posInf => negInf
  | negInf, negInf => posInf
  | nan, _ => nan
  | finite _, nan => nan
  | posInf, nan => nan
  | negInf, nan => nan

/-- Division of doubles; a zero divisor counts as positive zero. -/
def div : Double → Double → Double
  | finite a, finite b =>
      if b = 0 then (if a = 0 then nan else if 0 < a then posInf else negInf)
      else finite (a / b)
  | finite _, posInf => finite 0
  | finite _, negInf => finite 0
  | posInf, finite b => if b < 0 then negInf else posInf
  | negInf, finite b => if b < 0 then posInf else negInf
  | posInf, posInf => nan
  | posInf, negInf => nan
  | negInf, posInf => nan
  | negInf, negInf => nan
  | nan, _ => nan
  | finite _, nan => nan
  | posInf, nan => nan
  | negInf, nan => nan

/-- The C++ `<` on doubles: false as soon as one side is `nan`. -/
def lt : Double → Double → Bool
  | finite a, finite b => decide (a < b)
  | finite _, posInf => true
  | negInf, finite _ => true
  | negInf, posInf => true
  | _, _ => false

/-- The C++ `==` on doubles: `nan` equals nothing. -/
def eq : Double → Double → Bool
  | finite a, finite b => decide (a = b)
  | posInf, posInf => true
  | negInf, negInf => true
  | _, _ => false

/-- Modelled from the spec: the member types `Reference<double, uint64_t>` and
`Reference<double, uint16_t>`, through which `numRows` and `widthOfX` are read,
are declared outside the two source files; the specification makes entry `0`
an unsigned count and entry `1` the number of features. This is the value the
C++ conversion of a double to an unsigned integer type that can hold it gives:
the fraction is dropped. (A conversion of a negative, too large or non-finite
value is undefined in C++; it reads 0 or the unreduced integer part here.) -/
def toNat : Double → ℕ
  | finite q => ⌊q⌋₊
  | _ => 0

instance : Zero Double := ⟨finite 0⟩
instance : One Double := ⟨finite 1⟩
instance : NatCast Double := ⟨fun n => finite n⟩
instance : Add Double := ⟨add⟩
instance : Neg Double := ⟨neg⟩
instance : Sub Double := ⟨fun a b => add a (neg b)⟩
instance : Mul Double := ⟨mul⟩
instance : Div Double := ⟨div⟩

instance : AddCommMonoid Double where
  add := (· + ·)
  zero := 0
  nsmul := nsmulRec
  add_assoc a b c := by
    cases a <;> cases b <;> cases c <;> first | rfl | exact congrArg finite (add_assoc _ _ _)
  zero_add a := by
    cases a <;> first | rfl | exact congrArg finite (zero_add _)
  add_zero a := by
    cases a <;> first | rfl | exact congrArg finite (add_zero _)
  add_comm a b := by
    cases a <;> cases b <;> first | rfl | exact congrArg finite (add_comm _ _)

end Double

/-- Modelled from the spec: the helper `isfinite` on a vector or matrix is
declared outside the two source files; by the specification the check rejects a
vector with a component that is NaN or infinite, so it holds when every entry is
finite. -/
def isfinite (x : List Double) : Bool := x.all Double.isFinite

/-! ## Arrays of doubles -/

/-- Entry-wise sum of two arrays. -/
def vadd (a b : List Double) : List Double := List.zipWith (· + ·) a b

/-- The update `view += v` where `view` is the block of `v.length` entries of
`s` that starts at `off`: `v` is added to that block and the other entries of `s`
keep their value (zero is added to them). -/
def addBlock (s : List Double) (off : ℕ) (v : List Double) : List Double :=
  vadd s (List.replicate off 0 ++ v ++ List.replicate (s.length - (off + v.length)) 0)

/-- The product `x * trans(x)`, stored column by column as Eigen does: entry
`(i, j)`, the product of `x(i)` and `x(j)`, is at position `i + j * x.size()`. -/
def outer (x : List Double) : List Double :=
  (List.range (x.length * x.length)).map
    (fun k => x.getD (k % x.length) 0 * x.getD (k / x.length) 0)

/-- The product `x * y` of a vector and a scalar. -/
def scale (x : List Double) (y : Double) : List Double := x.map (· * y)

/-! ## Linear regression: the transition state -/

/-- The C++ `LinRegrTransitionState`: the storage array and the width the vector
and matrix views were bound with by the last `rebind`. Array layout:
`0` numRows, `1` widthOfX, `2` y_sum, `3` y_square_sum, `4` X_transp_Y,
`4 + widthOfX + widthOfX % 2` X_transp_X. -/
structure LinRegrTransitionState where
  mStorage : List Double
  boundWidth : ℕ

namespace LinRegrTransitionState

/-- The constructor: bind to the array and `rebind(mStorage[1])`. -/
def ofArray (inArray : List Double) : LinRegrTransitionState :=
  { mStorage := inArray, boundWidth := (inArray.getD 1 0).toNat }

/-- Entry `0` read as `uint64_t`. The slot is a double that counts rows one at
a time (`numRows++` adds 1 to it), so the count is read back without a wrap at
`2 ^ 64`. -/
def numRows (state : LinRegrTransitionState) : ℕ := (state.mStorage.getD 0 0).toNat

/-- Entry `1` read as `uint16_t`. -/
def widthOfX (state : LinRegrTransitionState) : ℕ := (state.mStorage.getD 1 0).toNat

/-- Entry `2`. -/
def y_sum (state : LinRegrTransitionState) : Double := state.mStorage.getD 2 0

/-- Entry `3`. -/
def y_square_sum (state : LinRegrTransitionState) : Double := state.mStorage.getD 3 0

/-- The vector view: `boundWidth` entries from position `4`. -/
def X_transp_Y (state : LinRegrTransitionState) : List Double :=
  (state.mStorage.drop 4).take state.boundWidth

/-- The matrix view, column by column: `boundWidth * boundWidth` entries from
position `4 + boundWidth + boundWidth % 2`. -/
def X_transp_X (state : LinRegrTransitionState) : List Double :=
  (state.mStorage.drop (4 + state.boundWidth + state.boundWidth % 2)).take
    (state.boundWidth * state.boundWidth)

/-- The C++ `arraySize`: the sum, computed on the promoted `uint16_t` width, is
returned as a `uint32_t`, that is modulo `2 ^ 32`. -/
def arraySize (inWidthOfX : ℕ) : ℕ :=
  (4 + inWidthOfX + inWidthOfX % 2 + inWidthOfX * inWidthOfX) % 2 ^ 32

/-- The C++ `LinRegrTransitionState::initialize` (the word is reserved in
Lean): a fresh array of `arraySize(inWidthOfX)` entries, which the allocator
"must fill with zeros", replaces the storage (the old array is dropped), the
views are bound with `inWidthOfX`, and `widthOfX = inWidthOfX`. -/
def initializeState (inWidthOfX : ℕ) : LinRegrTransitionState :=
  { mStorage := (List.replicate (arraySize inWidthOfX) (0 : Double)).set 1 (inWidthOfX : Double)
    boundWidth := inWidthOfX }

/-- The C++ `operator+=`: the storage sizes must agree; every entry of the
other array is added (entries `0` and `1` too); then `widthOfX` is set to the
other state's `widthOfX`. -/
def add (state inOtherState : LinRegrTransitionState) : Except Error LinRegrTransitionState :=
  if state.mStorage.length ≠ inOtherState.mStorage.length then
    .error .logic_error
  else
    .ok { state with
          mStorage := (vadd state.mStorage inOtherState.mStorage).set 1
            (inOtherState.widthOfX : Double) }

/-- The five update statements of `linregr_transition::run`:
`state.numRows++`, `state.y_sum += y`, `state.y_square_sum += y * y`,
`state.X_transp_Y += x * y` and `state.X_transp_X += x * trans(x)`. -/
def accumulate (state : LinRegrTransitionState) (y : Double) (x : List Double) :
    LinRegrTransitionState :=
  let w := state.boundWidth
  let m := addBlock state.mStorage 0 [1]
  let m := addBlock m 2 [y]
  let m := addBlock m 3 [y * y]
  let m := addBlock m 4 (scale x y)
  let m := addBlock m (4 + w + w % 2) (outer x)
  { state with mStorage := m }

/-- Coefficient `X_transp_Y(i)` (zero outside the view). -/
def X_transp_Y_at (state : LinRegrTransitionState) (i : ℕ) : Double :=
  state.X_transp_Y.getD i 0

/-- Coefficient `X_transp_X(i, j)` (zero outside the view). -/
def X_transp_X_at (state : LinRegrTransitionState) (i j : ℕ) : Double :=
  state.X_transp_X.getD (i + j * state.boundWidth) 0

end LinRegrTransitionState

open LinRegrTransitionState in
/-- The C++ `linregr_transition::run`: `args0` is the state array, `y` the
dependent variable, `x` the row of independent variables. -/
def linregr_transition (args0 : List Double) (y : Double) (x : List Double) :
    Except Error (List Double) :=
  let state := ofArray args0
  if !y.isFinite then .error .invalid_argument
  else if !isfinite x then .error .invalid_argument
  else do
    let state ←
      if state.numRows = 0 then
        if x.length > 65535 then .error .domain_error
        else pure (initializeState (x.length % 65536))
      else pure state
    -- the two Eigen updates below need `x.size()` to be the size of the views
    if x.length ≠ state.boundWidth then .error .dimension_mismatch
    else pure (state.accumulate y x).mStorage

open LinRegrTransitionState in
/-- The C++ `linregr_merge_states::run`. -/
def linregr_merge_states (args0 args1 : List Double) : Except Error (List Double) :=
  let stateLeft := ofArray args0
  let stateRight := ofArray args1
  if stateLeft.numRows = 0 then .ok stateRight.mStorage
  else if stateRight.numRows = 0 then .ok stateLeft.mStorage
  else (stateLeft.add stateRight).map (fun s => s.mStorage)

/-- The aggregate over a list of rows `(y, x)`: the host calls the transition
function once per row, threading the state. -/
def linregr_fold (init : List Double) (rows : List (Double × List Double)) :
    Except Error (List Double) :=
  rows.foldlM (fun state row => linregr_transition state row.1 row.2) init


/-! ## Linear regression: the final function -/

/-- The tuple `linregr_final::run` returns (`coef`, `r2`, `stdErr`, `tStats`,
`pValues`, the condition number), together with the locals `ess`, `tss`, `rss`
and `variance` it is computed from. -/
structure LinRegrResult where
  coef : List Double
  r2 : Double
  stdErr : List Double
  tStats : List Double
  pValues : List Double
  conditionNo : Double
  ess : Double
  tss : Double
  rss : Double
  variance : Double
  deriving DecidableEq

/-- Modelled from the spec: the helper `dot(a, b)` is declared outside the two
source files; it is the dot product of two vectors. -/
def dot (a b : List Double) : Double := (List.zipWith (· * ·) a b).sum

/-- The product of a `w` by `w` matrix, stored column by column, and a vector. -/
def matVec (w : ℕ) (m v : List Double) : List Double :=
  (List.range w).map (fun i => ((List.range w).map (fun j => m.getD (i + j * w) 0 * v.getD j 0)).sum)

/-- One pass of the loop of `linregr_final::run` over the coefficients: the
pair `(stdErr(i), tStats(i))`. -/
def linregr_final_stat (sqrt : Double → Double) (variance : Double) (w : ℕ)
    (inverse_of_X_transp_X coef : List Double) (i : ℕ) : Double × Double :=
  let stdErr :=
    if Double.lt (inverse_of_X_transp_X.getD (i + i * w) 0) 0 then 0
    else sqrt (variance * inverse_of_X_transp_X.getD (i + i * w) 0)
  let tStats :=
    if Double.eq (coef.getD i 0) 0 && Double.eq stdErr 0 then 0
    else coef.getD i 0 / stdErr
  (stdErr, tStats)

open LinRegrTransitionState in
/-- The C++ `linregr_final::run`. The class
`SymmetricPositiveDefiniteEigenDecomposition` and `std::sqrt` are not part of
the two source files: `pseudoInverse` (from the width and the matrix, column by
column, to the matrix `decomposition.pseudoInverse()`), `conditionNo` and `sqrt`
stand for them. -/
def linregr_final (pseudoInverse : ℕ → List Double → List Double)
    (conditionNo : ℕ → List Double → Double) (sqrt : Double → Double)
    (args0 : List Double) : Except Error LinRegrResult :=
  let state := ofArray args0
  if !isfinite state.X_transp_X || !isfinite state.X_transp_Y then .error .invalid_argument
  else
    let w := state.boundWidth
    let inverse_of_X_transp_X := pseudoInverse w state.X_transp_X
    let coef := matVec w inverse_of_X_transp_X state.X_transp_Y
    let ess := dot state.X_transp_Y coef - (state.y_sum * state.y_sum) / (state.numRows : Double)
    let tss := state.y_square_sum - (state.y_sum * state.y_sum) / (state.numRows : Double)
    let tss := if Double.lt tss 0 then 0 else tss
    let ess := if Double.lt ess 0 then 0 else ess
    let ess := if Double.lt tss ess then tss else ess
    let r2 := if Double.eq tss 0 then 1 else ess / tss
    let rss := tss - ess
    -- `state.numRows - state.widthOfX` is a difference of unsigned 64-bit integers
    let variance := rss / (((state.numRows % 2 ^ 64 + 2 ^ 64 - state.widthOfX) % 2 ^ 64 : ℕ) : Double)
    let stats := (List.range state.widthOfX).map
      (linregr_final_stat sqrt variance w inverse_of_X_transp_X coef)
    .ok { coef := coef
          r2 := r2
          stdErr := stats.map Prod.fst
          tStats := stats.map Prod.snd
          pValues := List.replicate state.widthOfX 0
          conditionNo := conditionNo w state.X_transp_X
          ess := ess
          tss := tss
          rss := rss
          variance := variance }

/-! ## Cox proportional hazards: the transition state -/

/-- The update `view.fill(d)` (or `view = d` for a scalar) where `view` is the
block of `len` entries of `s` that starts at `off`. -/
def fillBlock (s : List Double) (off len : ℕ) (d : Double) : List Double :=
  (List.range s.length).map (fun k => if off ≤ k ∧ k < off + len then d else s.getD k 0)

/-- The C++ `CoxPropHazardsTransitionState`: the storage array and the width
the views were bound with by the last `rebind`. Array layout: `0` numRows,
`1` widthOfX, `2` coef, `2 + widthOfX` S, `3 + widthOfX` H,
`3 + 2 * widthOfX` grad, `3 + 3 * widthOfX` logLikelihood, `4 + 3 * widthOfX` V,
`4 + 3 * widthOfX + widthOfX ^ 2` hessian. -/
structure CoxPropHazardsTransitionState where
  mStorage : List Double
  boundWidth : ℕ

namespace CoxPropHazardsTransitionState

/-- The constructor: bind to the array and `rebind(static_cast<uint16_t>(mStorage[1]))`. -/
def ofArray (inArray : List Double) : CoxPropHazardsTransitionState :=
  { mStorage := inArray, boundWidth := (inArray.getD 1 0).toNat }

/-- Entry `0` read as `uint64_t`. -/
def numRows (state : CoxPropHazardsTransitionState) : ℕ := (state.mStorage.getD 0 0).toNat

/-- Entry `1` read as `uint16_t`. -/
def widthOfX (state : CoxPropHazardsTransitionState) : ℕ := (state.mStorage.getD 1 0).toNat

/-- The vector view `coef`. -/
def coef (state : CoxPropHazardsTransitionState) : List Double :=
  (state.mStorage.drop 2).take state.boundWidth

/-- The scalar `S`. -/
def S (state : CoxPropHazardsTransitionState) : Double :=
  state.mStorage.getD (2 + state.boundWidth) 0

/-- The vector view `H`. -/
def H (state : CoxPropHazardsTransitionState) : List Double :=
  (state.mStorage.drop (3 + state.boundWidth)).take state.boundWidth

/-- The vector view `grad`. -/
def grad (state : CoxPropHazardsTransitionState) : List Double :=
  (state.mStorage.drop (3 + 2 * state.boundWidth)).take state.boundWidth

/-- The scalar `logLikelihood`. -/
def logLikelihood (state : CoxPropHazardsTransitionState) : Double :=
  state.mStorage.getD (3 + 3 * state.boundWidth) 0

/-- The matrix view `V`, column by column. -/
def V (state : CoxPropHazardsTransitionState) : List Double :=
  (state.mStorage.drop (4 + 3 * state.boundWidth)).take (state.boundWidth * state.boundWidth)

/-- The matrix view `hessian`, column by column. -/
def hessian (state : CoxPropHazardsTransitionState) : List Double :=
  (state.mStorage.drop (4 + 3 * state.boundWidth + state.boundWidth * state.boundWidth)).take
    (state.boundWidth * state.boundWidth)

/-- The C++ `arraySize`: the sum is computed in `int` (32 bits, two's
complement) and converted to `size_t` (64 bits). -/
def arraySize (inWidthOfX : ℕ) : ℕ :=
  let r := (4 + 3 * inWidthOfX + 2 * inWidthOfX * inWidthOfX) % 2 ^ 32
  if r < 2 ^ 31 then r else r + (2 ^ 64 - 2 ^ 32)

/-- The C++ `CoxPropHazardsTransitionState::initialize` (the word is reserved
in Lean): a fresh array of `arraySize(inWidthOfX)` zeros (`dbal::DoZero`)
replaces the storage, the views are bound with `inWidthOfX`, and
`widthOfX = inWidthOfX`. -/
def initializeState (inWidthOfX : ℕ) : CoxPropHazardsTransitionState :=
  { mStorage := (List.replicate (arraySize inWidthOfX) (0 : Double)).set 1 (inWidthOfX : Double)
    boundWidth := inWidthOfX }

/-- The C++ `operator=`: every entry of this storage is overwritten by the
entry of the other storage at the same position (one read past the end of the
other array gives 0 here); the views are not bound again. -/
def assign (state inOtherState : CoxPropHazardsTransitionState) : CoxPropHazardsTransitionState :=
  { state with
    mStorage := (List.range state.mStorage.length).map (fun i => inOtherState.mStorage.getD i 0) }

/-- The C++ `reset`. -/
def reset (state : CoxPropHazardsTransitionState) : CoxPropHazardsTransitionState :=
  let w := state.boundWidth
  let m := fillBlock state.mStorage 0 1 0
  let m := fillBlock m (2 + w) 1 0
  let m := fillBlock m (3 + w) w 0
  let m := fillBlock m (4 + 3 * w) (w * w) 0
  let m := fillBlock m (3 + 2 * w) w 0
  let m := fillBlock m (4 + 3 * w + w * w) (w * w) 0
  let m := fillBlock m (3 + 3 * w) 1 0
  { state with mStorage := m }

end CoxPropHazardsTransitionState

open CoxPropHazardsTransitionState in
/-- The C++ `cox_prop_hazards_step_transition::run`: `args0` is the state
array, `x` the row, `args2` the previous state or null. `exp` and `log` stand
for `std::exp` and `std::log`. -/
def cox_prop_hazards_step_transition (exp log : Double → Double)
    (args0 : List Double) (x : List Double) (args2 : Option (List Double)) :
    Except Error (List Double) :=
  let state := ofArray args0
  if !isfinite x then .error .domain_error
  else do
    let state ←
      if state.numRows = 0 then
        if x.length > 65535 then .error .domain_error
        else
          let state := initializeState (x.length % 65536)
          match args2 with
          | some previous => pure (state.assign (ofArray previous)).reset
          | none => pure state
      else pure state
    -- the Eigen operations below need `x.size()` to be the size of the views
    if x.length ≠ state.boundWidth then .error .dimension_mismatch
    else
      let w := state.boundWidth
      let state := { state with mStorage := addBlock state.mStorage 0 [1] }
      let xc := dot state.coef x
      let s := exp xc
      let state := { state with mStorage := addBlock state.mStorage (2 + w) [s] }
      let state := { state with mStorage := addBlock state.mStorage (3 + w) (x.map (s * ·)) }
      let state := { state with
        mStorage := addBlock state.mStorage (4 + 3 * w) ((outer x).map (· * s)) }
      let state := { state with
        mStorage := addBlock state.mStorage (3 + 2 * w)
          (List.zipWith (· - ·) x (state.H.map (· / state.S))) }
      let state := { state with
        mStorage := addBlock state.mStorage (4 + 3 * w + w * w)
          (List.zipWith (· - ·) ((outer state.H).map (· / (state.S * state.S)))
            (state.V.map (· / state.S))) }
      let state := { state with
        mStorage := addBlock state.mStorage (3 + 3 * w) [xc - log state.S] }
      pure state.mStorage


/-! ## Accumulators -/

/-- The state the database hands to the first call: by the note on the state
classes, an array of length at least 5 whose entries are all 0. -/
def IsInitialState (s : List Double) : Prop := 5 ≤ s.length ∧ ∀ d ∈ s, d = 0

/-- A linear-regression state of width `w` that holds at least one row: the
array has the size `initialize` gave it, entry `1` is `w` and entry `0` is a
positive count. The four sums are arbitrary doubles. -/
def IsLinRegrState (s : List Double) (w : ℕ) : Prop :=
  w ≤ 65535 ∧ s.length = LinRegrTransitionState.arraySize w ∧ s.getD 1 0 = (w : Double) ∧
    ∃ n : ℕ, 0 < n ∧ s.getD 0 0 = (n : Double)

/-- The array that one row `(y, x)` adds to a state of width `w`: the update
statements of the transition function applied to an array of zeros. -/
def rowDelta (w : ℕ) (y : Double) (x : List Double) : List Double :=
  (LinRegrTransitionState.accumulate
    { mStorage := List.replicate (LinRegrTransitionState.arraySize w) 0, boundWidth := w } y x).mStorage

/-- The rows the aggregate accepts at width `w`: a finite `y` and a finite `x`
of `w` entries. -/
def GoodRows (w : ℕ) (rows : List (Double × List Double)) : Prop :=
  ∀ r ∈ rows, r.1.isFinite = true ∧ isfinite r.2 = true ∧ r.2.length = w

/-- The sum of the arrays that the rows add to a state of width `w`. -/
def sumDelta (w : ℕ) (rows : List (Double × List Double)) : List Double :=
  rows.foldr (fun r acc => vadd (rowDelta w r.1 r.2) acc)
    (List.replicate (LinRegrTransitionState.arraySize w) 0)

/-- A state reachable by folding rows: the result of the aggregate over some
list of rows (possibly empty), started from an initial state. -/
def LinRegrReachable (a : List Double) : Prop :=
  ∃ init rows, IsInitialState init ∧ linregr_fold init rows = .ok a

/-- The accumulator a state array stands for: `(rowCount, width, ySum,
ySquareSum, XtY, XtX)`. -/
def accumulator (a : List Double) : ℕ × ℕ × Double × Double × List Double × List Double :=
  let state := LinRegrTransitionState.ofArray a
  (state.numRows, state.widthOfX, state.y_sum, state.y_square_sum, state.X_transp_Y,
    state.X_transp_X)

/-! ## The exact least-squares problem -/

/-- A dataset of finite rows `(y, x)`, as the doubles the aggregate receives. -/
def toDoubleRows (rows : List (ℚ × List ℚ)) : List (Double × List Double) :=
  rows.map (fun r => (Double.finite r.1, r.2.map Double.finite))

/-- The dot product of two rational vectors. -/
def dotQ (a b : List ℚ) : ℚ := (List.zipWith (· * ·) a b).sum

/-- The vector `X^T y` of a dataset of width `w`. -/
def xtyList (w : ℕ) (rows : List (ℚ × List ℚ)) : List ℚ :=
  (List.range w).map (fun j => (rows.map (fun r => r.2.getD j 0 * r.1)).sum)

/-- The matrix `X^T X` of a dataset of width `w`, column by column. -/
def gramList (w : ℕ) (rows : List (ℚ × List ℚ)) : List ℚ :=
  (List.range (w * w)).map
    (fun k => (rows.map (fun r => r.2.getD (k % w) 0 * r.2.getD (k / w) 0)).sum)

/-- A `w` by `w` matrix stored column by column, as a matrix. -/
def matrixOfList (w : ℕ) (l : List ℚ) : Matrix (Fin w) (Fin w) ℚ :=
  fun i j => l.getD (i + j * w) 0

/-- The four conditions that make `P` the Moore-Penrose pseudo-inverse of `A`. -/
def IsMoorePenrose {w : ℕ} (A P : Matrix (Fin w) (Fin w) ℚ) : Prop :=
  A * P * A = A ∧ P * A * P = P ∧ (A * P).transpose = A * P ∧ (P * A).transpose = P * A

/-- Entry `k` of the array that the finite row `(y, x)` adds to a state of width `w`. -/
def entryQ (w : ℕ) (y : ℚ) (x : List ℚ) (k : ℕ) : ℚ :=
  if k = 0 then 1
  else if k = 2 then y
  else if k = 3 then y * y
  else if 4 ≤ k ∧ k < 4 + w then x.getD (k - 4) 0 * y
  else if 4 + w + w % 2 ≤ k ∧ k < 4 + w + w % 2 + w * w then
    x.getD ((k - (4 + w + w % 2)) % w) 0 * x.getD ((k - (4 + w + w % 2)) / w) 0
  else 0

/-! ## Cox proportional hazards: merge, and the aggregate -/

namespace CoxPropHazardsTransitionState

/-- The C++ `operator+=` of `CoxPropHazardsTransitionState`: the storage sizes
and the widths must agree; then `numRows`, `coef`, `grad`, `S`, `H`,
`logLikelihood`, `V` and `hessian` of the other state are added, in this order
(`widthOfX` is not touched). -/
def add (state inOtherState : CoxPropHazardsTransitionState) :
    Except Error CoxPropHazardsTransitionState :=
  if state.mStorage.length ≠ inOtherState.mStorage.length ∨
      state.widthOfX ≠ inOtherState.widthOfX then
    .error .logic_error
  -- the Eigen sums below need the views of the two states to have one size
  else if state.boundWidth ≠ inOtherState.boundWidth then .error .dimension_mismatch
  else
    let w := state.boundWidth
    let m := addBlock state.mStorage 0 [(inOtherState.numRows : Double)]
    let m := addBlock m 2 inOtherState.coef
    let m := addBlock m (3 + 2 * w) inOtherState.grad
    let m := addBlock m (2 + w) [inOtherState.S]
    let m := addBlock m (3 + w) inOtherState.H
    let m := addBlock m (3 + 3 * w) [inOtherState.logLikelihood]
    let m := addBlock m (4 + 3 * w) inOtherState.V
    let m := addBlock m (4 + 3 * w + w * w) inOtherState.hessian
    .ok { state with mStorage := m }

/-- The update statements of `cox_prop_hazards_step_transition::run`, from
`state.numRows++` to `state.logLikelihood += xc - std::log(state.S)`. -/
def accumulate (exp log : Double → Double) (state : CoxPropHazardsTransitionState)
    (x : List Double) : CoxPropHazardsTransitionState :=
  let w := state.boundWidth
  let state := { state with mStorage := addBlock state.mStorage 0 [1] }
  let xc := dot state.coef x
  let s := exp xc
  let state := { state with mStorage := addBlock state.mStorage (2 + w) [s] }
  let state := { state with mStorage := addBlock state.mStorage (3 + w) (x.map (s * ·)) }
  let state := { state with
    mStorage := addBlock state.mStorage (4 + 3 * w) ((outer x).map (· * s)) }
  let state := { state with
    mStorage := addBlock state.mStorage (3 + 2 * w)
      (List.zipWith (· - ·) x (state.H.map (· / state.S))) }
  let state := { state with
    mStorage := addBlock state.mStorage (4 + 3 * w + w * w)
      (List.zipWith (· - ·) ((outer state.H).map (· / (state.S * state.S)))
        (state.V.map (· / state.S))) }
  let state := { state with
    mStorage := addBlock state.mStorage (3 + 3 * w) [xc - log state.S] }
  state

end CoxPropHazardsTransitionState

/-- The Cox aggregate over a list of rows: the host calls the transition
function once per row, threading the state and passing the same previous state
(or null) every time. -/
def cox_fold (exp log : Double → Double) (init : List Double) (rows : List (List Double))
    (previous : Option (List Double)) : Except Error (List Double) :=
  rows.foldlM (fun state x => cox_prop_hazards_step_transition exp log state x previous) init

/-- A Cox state of width `w` (at most 65535) that holds at least one row: the
array has the size of the layout, `4 + 3 w + 2 w^2`, entry `1` is `w` and entry
`0` is a positive count. The other entries are arbitrary doubles. -/
def IsCoxState (s : List Double) (w : ℕ) : Prop :=
  w ≤ 65535 ∧ s.length = 4 + 3 * w + 2 * (w * w) ∧ s.getD 1 0 = (w : Double) ∧
    ∃ n : ℕ, 0 < n ∧ s.getD 0 0 = (n : Double)

/-- The state of a first call of `cox_prop_hazards_step_transition::run` when
it reaches `state.numRows++`: `initialize` for the width of the row and, when a
previous state is supplied, `state = previousState; state.reset()`. -/
def coxSeed (w : ℕ) (previous : Option (List Double)) : CoxPropHazardsTransitionState :=
  match previous with
  | some p =>
    ((CoxPropHazardsTransitionState.initializeState w).assign
      (CoxPropHazardsTransitionState.ofArray p)).reset
  | none => CoxPropHazardsTransitionState.initializeState w

/-- The array after one Cox row, with every right-hand side of
`CoxPropHazardsTransitionState.accumulate` written in terms of the array `m`
before the row: `S1`, `H1` and `V1` are the running sums after their update. -/
def coxRow (exp log : Double → Double) (m : List Double) (w : ℕ) (x : List Double) :
    List Double :=
  let xc := dot ((m.drop 2).take w) x
  let s := exp xc
  let S1 := m.getD (2 + w) 0 + s
  let H1 := vadd ((m.drop (3 + w)).take w) (x.map (s * ·))
  let V1 := vadd ((m.drop (4 + 3 * w)).take (w * w)) ((outer x).map (· * s))
  let m := addBlock m 0 [1]
  let m := addBlock m (2 + w) [s]
  let m := addBlock m (3 + w) (x.map (s * ·))
  let m := addBlock m (4 + 3 * w) ((outer x).map (· * s))
  let m := addBlock m (3 + 2 * w) (List.zipWith (· - ·) x (H1.map (· / S1)))
  let m := addBlock m (4 + 3 * w + w * w)
    (List.zipWith (· - ·) ((outer H1).map (· / (S1 * S1))) (V1.map (· / S1)))
  addBlock m (3 + 3 * w) [xc - log S1]

/-- The sum of a list of vectors, from the zero vector of length `n`. -/
def vsum (n : ℕ) (vs : List (List Double)) : List Double :=
  vs.foldr vadd (List.replicate n 0)

/-! ## Cox proportional hazards: the final step -/

/-- The assignment `view = v` to the vector view of `v.length` entries of `s`
that starts at `off`. -/
def writeBlock (s : List Double) (off : ℕ) (v : List Double) : List Double :=
  (List.range s.length).map
    (fun k => if off ≤ k ∧ k < off + v.length then v.getD (k - off) 0 else s.getD k 0)

open CoxPropHazardsTransitionState in
/-- The C++ `cox_prop_hazards_step_final::run`; `none` stands for `Null()`.
The decomposition of the hessian and its pseudo-inverse are computed and not
used. Eigen's `inverse()` is not part of the two source files: `inverse` (from
the width and the matrix, column by column, to the matrix
`state.hessian.inverse()`) stands for it. -/
def cox_prop_hazards_step_final (inverse : ℕ → List Double → List Double)
    (args0 : List Double) : Except Error (Option (List Double)) :=
  let state := ofArray args0
  if state.numRows = 0 then .ok none
  else if !isfinite state.hessian || !isfinite state.grad then .error .no_solution_found
  else
    let w := state.boundWidth
    let state := { state with
      mStorage := writeBlock state.mStorage 2
        (List.zipWith (· - ·) state.coef (matVec w (inverse w state.hessian) state.grad)) }
    .ok (some state.mStorage)

/-! ## Cox proportional hazards: the intermediate state -/

/-- The C++ `IntermediateCoxPropHazardsTransitionState`: the storage array and
the width the views were bound with by the last `rebind`. Array layout, as
`rebind` binds the views: `0` numRows, `1` widthOfX, `2` timeDeath, `3` coef,
`3 + widthOfX` exp_coef_x, `4 + widthOfX` x_exp_coef_x,
`4 + 2 * widthOfX` x_xTrans_exp_coef_x. -/
structure IntermediateCoxPropHazardsTransitionState where
  mStorage : List Double
  boundWidth : ℕ

namespace IntermediateCoxPropHazardsTransitionState

/-- The constructor: bind to the array and `rebind(static_cast<uint16_t>(mStorage[1]))`. -/
def ofArray (inArray : List Double) : IntermediateCoxPropHazardsTransitionState :=
  { mStorage := inArray, boundWidth := (inArray.getD 1 0).toNat }

/-- Entry `0` read as `uint64_t`. -/
def numRows (state : IntermediateCoxPropHazardsTransitionState) : ℕ :=
  (state.mStorage.getD 0 0).toNat

/-- Entry `1` read as `uint16_t`. -/
def widthOfX (state : IntermediateCoxPropHazardsTransitionState) : ℕ :=
  (state.mStorage.getD 1 0).toNat

/-- The scalar `timeDeath`. -/
def timeDeath (state : IntermediateCoxPropHazardsTransitionState) : Double :=
  state.mStorage.getD 2 0

/-- The vector view `coef`. -/
def coef (state : IntermediateCoxPropHazardsTransitionState) : List Double :=
  (state.mStorage.drop 3).take state.boundWidth

/-- The scalar `exp_coef_x`. -/
def exp_coef_x (state : IntermediateCoxPropHazardsTransitionState) : Double :=
  state.mStorage.getD (3 + state.boundWidth) 0

/-- The vector view `x_exp_coef_x`. -/
def x_exp_coef_x (state : IntermediateCoxPropHazardsTransitionState) : List Double :=
  (state.mStorage.drop (4 + state.boundWidth)).take state.boundWidth

/-- The matrix view `x_xTrans_exp_coef_x`, column by column. -/
def x_xTrans_exp_coef_x (state : IntermediateCoxPropHazardsTransitionState) : List Double :=
  (state.mStorage.drop (4 + 2 * state.boundWidth)).take (state.boundWidth * state.boundWidth)

/-- The C++ `arraySize`: the sum is computed in `int` (32 bits, two's
complement) and converted to `size_t` (64 bits). -/
def arraySize (inWidthOfX : ℕ) : ℕ :=
  let r := (4 + 2 * inWidthOfX + inWidthOfX * inWidthOfX) % 2 ^ 32
  if r < 2 ^ 31 then r else r + (2 ^ 64 - 2 ^ 32)

/-- The C++ `IntermediateCoxPropHazardsTransitionState::initialize`: a fresh
array of `arraySize(inWidthOfX)` zeros, views bound with `inWidthOfX`, and
`widthOfX = inWidthOfX`. -/
def initializeState (inWidthOfX : ℕ) : IntermediateCoxPropHazardsTransitionState :=
  { mStorage := (List.replicate (arraySize inWidthOfX) (0 : Double)).set 1 (inWidthOfX : Double)
    boundWidth := inWidthOfX }

/-- The C++ `operator=`: every entry of this storage is overwritten by the
entry of the other storage at the same position (one read past the end of the
other array gives 0 here); the views are not bound again. -/
def assign (state inOtherState : IntermediateCoxPropHazardsTransitionState) :
    IntermediateCoxPropHazardsTransitionState :=
  { state with
    mStorage := (List.range state.mStorage.length).map (fun i => inOtherState.mStorage.getD i 0) }

/-- The C++ `reset`. -/
def reset (state : IntermediateCoxPropHazardsTransitionState) :
    IntermediateCoxPropHazardsTransitionState :=
  let w := state.boundWidth
  let m := fillBlock state.mStorage 0 1 0
  let m := fillBlock m (3 + w) 1 0
  let m := fillBlock m (4 + w) w 0
  let m := fillBlock m (4 + 2 * w) (w * w) 0
  { state with mStorage := m }

end IntermediateCoxPropHazardsTransitionState

open IntermediateCoxPropHazardsTransitionState in
/-- The C++ `intermediate_cox_prop_hazards_step_transition::run`: `args0` is
the state array, `x` the row (`args[1]`), `timeDeath` the double `args[2]`,
`coef` the vector `args[3]`, `args4` the previous state or null. `exp` stands
for `std::exp`. -/
def intermediate_cox_prop_hazards_step_transition (exp : Double → Double)
    (args0 : List Double) (x : List Double) (timeDeath : Double) (coef : List Double)
    (args4 : Option (List Double)) : Except Error (List Double) :=
  let state := ofArray args0
  if !isfinite x then .error .domain_error
  else do
    let state ←
      if state.numRows = 0 then
        if x.length > 65535 then .error .domain_error
        else
          let state := initializeState (x.length % 65536)
          match args4 with
          | some previous => pure (state.assign (ofArray previous)).reset
          | none => pure state
      else pure state
    -- the Eigen operations below need `x.size()` and `coef.size()` to be the size of the views
    if x.length ≠ state.boundWidth ∨ coef.length ≠ state.boundWidth then
      .error .dimension_mismatch
    else
      let w := state.boundWidth
      let state := { state with mStorage := addBlock state.mStorage 0 [1] }
      let s := exp (dot coef x)
      let state := { state with mStorage := addBlock state.mStorage 2 [timeDeath] }
      let state := { state with mStorage := addBlock state.mStorage (3 + w) [s] }
      let state := { state with mStorage := addBlock state.mStorage 3 coef }
      let state := { state with mStorage := addBlock state.mStorage (4 + w) (x.map (s * ·)) }
      let state := { state with
        mStorage := addBlock state.mStorage (4 + 2 * w) ((outer x).map (· * s)) }
      pure state.mStorage

/-! ## Reachable states -/

/-- A `w` by `w` matrix stored column by column is symmetric. -/
def IsSymmetric (w : ℕ) (m : List Double) : Prop :=
  ∀ i j, i < w → j < w → m.getD (i + j * w) 0 = m.getD (j + i * w) 0

/-- The linear-regression state arrays reachable from an initial state by
calls of `linregr_transition` and `linregr_merge_states` that return. -/
inductive LinRegrReach : List Double → Prop where
  | initial (s : List Double) (h : IsInitialState s) : LinRegrReach s
  | transition (s t : List Double) (y : Double) (x : List Double) (h : LinRegrReach s)
      (e : linregr_transition s y x = .ok t) : LinRegrReach t
  | merge (a b t : List Double) (ha : LinRegrReach a) (hb : LinRegrReach b)
      (e : linregr_merge_states a b = .ok t) : LinRegrReach t

/-- The Cox state arrays of width `w` reachable by calls that return: a first
call of `cox_prop_hazards_step_transition` on an initial state with a row of
`w` features, with no previous state or with one of the layout size and of
width `w` (the call then works on the reset copy of it); further calls of the
transition; and `operator+=` on two reachable states. -/
inductive CoxReach (exp log : Double → Double) (w : ℕ) : List Double → Prop where
  | first (init x : List Double) (previous : Option (List Double)) (t : List Double)
      (hinit : IsInitialState init) (hx : x.length = w)
      (hp : ∀ P, previous = some P →
        P.length = 4 + 3 * w + 2 * (w * w) ∧ P.getD 1 0 = (w : Double))
      (e : cox_prop_hazards_step_transition exp log init x previous = .ok t) :
      CoxReach exp log w t
  | next (s x : List Double) (previous : Option (List Double)) (t : List Double)
      (h : CoxReach exp log w s)
      (e : cox_prop_hazards_step_transition exp log s x previous = .ok t) :
      CoxReach exp log w t
  | merge (a b : List Double) (M : CoxPropHazardsTransitionState)
      (ha : CoxReach exp log w a) (hb : CoxReach exp log w b)
      (e : CoxPropHazardsTransitionState.add (CoxPropHazardsTransitionState.ofArray a)
        (CoxPropHazardsTransitionState.ofArray b) = .ok M) :
      CoxReach exp log w M.mStorage

/-- The running sums of a Cox state array of width `w` are the weighted moments
of a sample with non-negative weights: `S`, `H`, `V` and `hessian` are finite,
`S` is not negative and, for every direction `v`, the quadratic form of `V` is
not negative, the square of `v . H` is at most `S` times the quadratic form of
`V` (Cauchy-Schwarz), and the quadratic form of `hessian` is not positive. -/
def CoxMoment (w : ℕ) (s : List Double) : Prop :=
  ∃ (S : ℚ) (h : ℕ → ℚ) (V G : ℕ → ℕ → ℚ),
    s.getD (2 + w) 0 = Double.finite S ∧
    (∀ i, i < w → s.getD (3 + w + i) 0 = Double.finite (h i)) ∧
    (∀ i j, i < w → j < w → s.getD (4 + 3 * w + (i + j * w)) 0 = Double.finite (V i j)) ∧
    (∀ i j, i < w → j < w →
      s.getD (4 + 3 * w + w * w + (i + j * w)) 0 = Double.finite (G i j)) ∧
    0 ≤ S ∧
    ∀ v : ℕ → ℚ,
      0 ≤ ∑ i ∈ Finset.range w, ∑ j ∈ Finset.range w, v i * v j * V i j ∧
      (∑ i ∈ Finset.range w, v i * h i) ^ 2
        ≤ S * ∑ i ∈ Finset.range w, ∑ j ∈ Finset.range w, v i * v j * V i j ∧
      ∑ i ∈ Finset.range w, ∑ j ∈ Finset.range w, v i * v j * G i j ≤ 0


/-! ## Doubles in binary64 arithmetic

The exact arithmetic of `Double` leaves out the rounding of the C++ `double`.
Where a property depends on it, the code is read in rounded arithmetic: every
operation returns the exact result rounded to the nearest binary64 number. -/

namespace Double

/-- The power `2 ^ k` of an integer exponent `k`. -/
def pow2 (k : ℤ) : ℚ :=
  if 0 ≤ k then ((2 ^ k.toNat : ℕ) : ℚ) else 1 / ((2 ^ (-k).toNat : ℕ) : ℚ)

/-- The number of halvings that take `n` below 2, at most `fuel` of them. -/
def halvings : ℕ → ℕ → ℕ
  | 0, _ => 0
  | fuel + 1, n => if n < 2 then 0 else halvings fuel (n / 2) + 1

/-- The binary logarithm of a natural number `n ≥ 1`, rounded down. -/
def log2 (n : ℕ) : ℕ := halvings n n

/-- The binary exponent of a positive rational `q`: the integer `e` with
`2 ^ e ≤ q < 2 ^ (e + 1)`. -/
def exponent (q : ℚ) : ℤ :=
  let k : ℤ := (log2 q.num.toNat : ℤ) - (log2 q.den : ℤ)
  if pow2 k ≤ q then k else k - 1

/-- The integer nearest to the rational `m ≥ 0`, the even one of the two when
`m` is half-way between them. -/
def roundEven (m : ℚ) : ℕ :=
  let f := ⌊m⌋₊
  if m - f < 1 / 2 then f
  else if 1 / 2 < m - f then f + 1
  else if f % 2 = 0 then f else f + 1

/-- The binary64 number nearest to a value (IEEE 754 round to nearest, ties to
even): 53 significant bits, exponents from `-1022` (below which the spacing
stays `2 ^ (-1074)`, the subnormal numbers) to `1023`, an infinity when the
rounded magnitude reaches `2 ^ 1024`. There is no signed zero. -/
def round64 : Double → Double
  | finite q =>
      if q = 0 then finite 0
      else
        let a := if 0 < q then q else -q
        let e := max (exponent a) (-1022)
        let r := (roundEven (a / pow2 (e - 52)) : ℚ) * pow2 (e - 52)
        if pow2 1024 ≤ r then (if 0 < q then posInf else negInf)
        else finite (if 0 < q then r else -r)
  | d => d

end Double

/-! ## Linear regression in rounded arithmetic

The transition and final functions of `linear.cpp` once more, statement by
statement, with the result of every arithmetic operation passed through `rnd`;
with `Double.round64` for `rnd` this is the binary64 arithmetic of the C++
code. -/

namespace Rounded

/-- The update `view += v` on the block of `v.length` entries of `s` that
starts at `off`: each sum is rounded, the other entries of `s` are not touched. -/
def addBlock (rnd : Double → Double) (s : List Double) (off : ℕ) (v : List Double) :
    List Double :=
  (List.range s.length).map
    (fun k => if off ≤ k ∧ k < off + v.length then rnd (s.getD k 0 + v.getD (k - off) 0)
      else s.getD k 0)

/-- The five update statements of `linregr_transition::run`, as in
`LinRegrTransitionState.accumulate`, with every product and every sum rounded. -/
def accumulate (rnd : Double → Double) (state : LinRegrTransitionState) (y : Double)
    (x : List Double) : LinRegrTransitionState :=
  let w := state.boundWidth
  let m := addBlock rnd state.mStorage 0 [1]
  let m := addBlock rnd m 2 [y]
  let m := addBlock rnd m 3 [rnd (y * y)]
  let m := addBlock rnd m 4 ((scale x y).map rnd)
  let m := addBlock rnd m (4 + w + w % 2) ((outer x).map rnd)
  { state with mStorage := m }

/-- The C++ `linregr_transition::run` in rounded arithmetic. -/
def linregr_transition (rnd : Double → Double) (args0 : List Double) (y : Double)
    (x : List Double) : Except Error (List Double) :=
  let state := LinRegrTransitionState.ofArray args0
  if !y.isFinite then .error .invalid_argument
  else if !isfinite x then .error .invalid_argument
  else do
    let state ←
      if state.numRows = 0 then
        if x.length > 65535 then .error .domain_error
        else pure (LinRegrTransitionState.initializeState (x.length % 65536))
      else pure state
    if x.length ≠ state.boundWidth then .error .dimension_mismatch
    else pure (accumulate rnd state y x).mStorage

/-- The aggregate over a list of rows `(y, x)` in rounded arithmetic. -/
def linregr_fold (rnd : Double → Double) (init : List Double)
    (rows : List (Double × List Double)) : Except Error (List Double) :=
  rows.foldlM (fun state row => linregr_transition rnd state row.1 row.2) init

/-- A sum of rounded products, accumulated from the first term on with a
rounding after every addition. -/
def sumProducts (rnd : Double → Double) (terms : List (Double × Double)) : Double :=
  terms.foldl (fun acc t => rnd (acc + rnd (t.1 * t.2))) 0

/-- The dot product `dot(a, b)` in rounded arithmetic. -/
def dot (rnd : Double → Double) (a b : List Double) : Double :=
  sumProducts rnd (List.zip a b)

/-- The product of a `w` by `w` matrix, stored column by column, and a vector,
in rounded arithmetic. -/
def matVec (rnd : Double → Double) (w : ℕ) (m v : List Double) : List Double :=
  (List.range w).map
    (fun i => sumProducts rnd ((List.range w).map (fun j => (m.getD (i + j * w) 0, v.getD j 0))))

/-- One pass of the loop of `linregr_final::run` over the coefficients, in
rounded arithmetic. -/
def linregr_final_stat (rnd sqrt : Double → Double) (variance : Double) (w : ℕ)
    (inverse_of_X_transp_X coef : List Double) (i : ℕ) : Double × Double :=
  let stdErr :=
    if Double.lt (inverse_of_X_transp_X.getD (i + i * w) 0) 0 then 0
    else sqrt (rnd (variance * inverse_of_X_transp_X.getD (i + i * w) 0))
  let tStats :=
    if Double.eq (coef.getD i 0) 0 && Double.eq stdErr 0 then 0
    else rnd (coef.getD i 0 / stdErr)
  (stdErr, tStats)

/-- The C++ `linregr_final::run` in rounded arithmetic. An integer operand of a
division is converted to a `double` first, which rounds it. -/
def linregr_final (rnd : Double → Double) (pseudoInverse : ℕ → List Double → List Double)
    (conditionNo : ℕ → List Double → Double) (sqrt : Double → Double)
    (args0 : List Double) : Except Error LinRegrResult :=
  let state := LinRegrTransitionState.ofArray args0
  if !isfinite state.X_transp_X || !isfinite state.X_transp_Y then .error .invalid_argument
  else
    let w := state.boundWidth
    let inverse_of_X_transp_X := pseudoInverse w state.X_transp_X
    let coef := matVec rnd w inverse_of_X_transp_X state.X_transp_Y
    let ess := rnd (dot rnd state.X_transp_Y coef
      - rnd (rnd (state.y_sum * state.y_sum) / rnd (state.numRows : Double)))
    let tss := rnd (state.y_square_sum
      - rnd (rnd (state.y_sum * state.y_sum) / rnd (state.numRows : Double)))
    let tss := if Double.lt tss 0 then 0 else tss
    let ess := if Double.lt ess 0 then 0 else ess
    let ess := if Double.lt tss ess then tss else ess
    let r2 := if Double.eq tss 0 then 1 else rnd (ess / tss)
    let rss := rnd (tss - ess)
    let variance := rnd (rss
      / rnd (((state.numRows % 2 ^ 64 + 2 ^ 64 - state.widthOfX) % 2 ^ 64 : ℕ) : Double))
    let stats := (List.range state.widthOfX).map
      (linregr_final_stat rnd sqrt variance w inverse_of_X_transp_X coef)
    .ok { coef := coef
          r2 := r2
          stdErr := stats.map Prod.fst
          tStats := stats.map Prod.snd
          pValues := List.replicate state.widthOfX 0
          conditionNo := conditionNo w state.X_transp_X
          ess := ess
          tss := tss
          rss := rss
          variance := variance }

end Rounded

/-! ## Lemmas: doubles -/

namespace Double

@[simp] theorem finite_add_finite (a b : ℚ) : finite a + finite b = finite (a + b) := rfl

@[simp] theorem finite_mul_finite (a b : ℚ) : finite a * finite b = finite (a * b) := rfl

theorem zero_eq_finite : (0 : Double) = finite 0 := rfl

theorem one_eq_finite : (1 : Double) = finite 1 := rfl

theorem natCast_eq_finite (n : ℕ) : ((n : ℕ) : Double) = finite (n : ℚ) := rfl

@[simp] theorem toNat_finite (q : ℚ) : (finite q).toNat = ⌊q⌋₊ := rfl

@[simp] theorem toNat_natCast (n : ℕ) : ((n : ℕ) : Double).toNat = n := by
  simp [natCast_eq_finite]

@[simp] theorem toNat_zero : (0 : Double).toNat = 0 := by
  simp [zero_eq_finite]

theorem isFinite_iff (d : Double) : d.isFinite = true ↔ ∃ q, d = finite q := by
  cases d <;> simp [isFinite]

end Double

/-! ## Lemmas: arrays -/

theorem getD_eq_zero_of_le (s : List Double) (k : ℕ) (h : s.length ≤ k) : s.getD k 0 = 0 := by
  simp [List.getD_eq_getElem?_getD, List.getElem?_eq_none h]

theorem ext_getD (a b : List Double) (hl : a.length = b.length)
    (h : ∀ k, k < a.length → a.getD k 0 = b.getD k 0) : a = b := by
  apply List.ext_getElem hl
  intro k h1 h2
  have := h k h1
  simpa [List.getD_eq_getElem?_getD, List.getElem?_eq_getElem h1, List.getElem?_eq_getElem h2]
    using this

@[simp] theorem length_vadd (a b : List Double) : (vadd a b).length = min a.length b.length := by
  simp [vadd]

theorem getD_vadd (a b : List Double) (k : ℕ) (ha : k < a.length) (hb : k < b.length) :
    (vadd a b).getD k 0 = a.getD k 0 + b.getD k 0 := by
  simp [vadd, List.getD_eq_getElem?_getD, List.getElem?_zipWith, List.getElem?_eq_getElem ha,
    List.getElem?_eq_getElem hb]

theorem vadd_comm (a b : List Double) : vadd a b = vadd b a := by
  unfold vadd
  exact List.zipWith_comm_of_comm _ (fun x y => add_comm x y) a b

theorem vadd_assoc (a b c : List Double) : vadd (vadd a b) c = vadd a (vadd b c) := by
  induction a generalizing b c with
  | nil => simp [vadd]
  | cons x a ih =>
    cases b with
    | nil => simp [vadd]
    | cons y b =>
      cases c with
      | nil => simp [vadd]
      | cons z c =>
        have := ih b c
        simp only [vadd, List.zipWith_cons_cons] at this ⊢
        rw [this, add_assoc]

theorem vadd_zeros (a : List Double) (n : ℕ) (h : a.length ≤ n) :
    vadd a (List.replicate n 0) = a := by
  induction a generalizing n with
  | nil => simp [vadd]
  | cons x a ih =>
    cases n with
    | zero => simp at h
    | succ n =>
      have := ih n (by simpa using h)
      simp only [vadd, List.replicate_succ, List.zipWith_cons_cons, add_zero] at this ⊢
      rw [this]

@[simp] theorem length_addBlock (s : List Double) (off : ℕ) (v : List Double) :
    (addBlock s off v).length = s.length := by
  simp only [addBlock, length_vadd, List.length_append, List.length_replicate]
  omega

theorem addBlock_vadd (s t : List Double) (off : ℕ) (v : List Double)
    (h : s.length = t.length) : addBlock (vadd s t) off v = vadd s (addBlock t off v) := by
  simp only [addBlock, length_vadd, h, min_self, vadd_assoc]

theorem getD_addBlock (s : List Double) (off : ℕ) (v : List Double) (k : ℕ)
    (hk : k < s.length) :
    (addBlock s off v).getD k 0
      = s.getD k 0 + (if off ≤ k ∧ k < off + v.length then v.getD (k - off) 0 else 0) := by
  unfold addBlock
  rw [getD_vadd _ _ _ hk (by simp; omega)]
  congr 1
  simp only [List.getD_eq_getElem?_getD, List.append_assoc]
  by_cases h1 : k < off
  · rw [List.getElem?_append_left (by simpa using h1)]
    simp [h1, Nat.not_le.mpr h1]
  · rw [List.getElem?_append_right (by simpa using h1)]
    simp only [List.length_replicate]
    by_cases h2 : k - off < v.length
    · rw [List.getElem?_append_left h2]
      have : off ≤ k ∧ k < off + v.length := by omega
      simp [this]
    · rw [List.getElem?_append_right (by omega)]
      have : ¬ (off ≤ k ∧ k < off + v.length) := by omega
      simp only [this, if_false]
      rw [List.getElem?_replicate]
      split <;> rfl

/-! ## Lemmas: the linear-regression transition -/

namespace LinRegrTransitionState

theorem arraySize_eq (w : ℕ) (h : w ≤ 65535) : arraySize w = 4 + w + w % 2 + w * w := by
  unfold arraySize
  apply Nat.mod_eq_of_lt
  have h2 : w * w ≤ 65535 * 65535 := Nat.mul_le_mul h h
  omega

theorem arraySize_strictMono (a b : ℕ) (hb : b ≤ 65535) (h : a < b) :
    arraySize a < arraySize b := by
  rw [arraySize_eq a (by omega), arraySize_eq b hb]
  have h1 : a * a ≤ a * b := Nat.mul_le_mul_left a (by omega)
  have h2 : (a + 1) * b ≤ b * b := Nat.mul_le_mul_right b (by omega)
  have h3 : (a + 1) * b = a * b + b := by ring
  omega

theorem arraySize_injective (a b : ℕ) (ha : a ≤ 65535) (hb : b ≤ 65535)
    (h : arraySize a = arraySize b) : a = b := by
  rcases Nat.lt_trichotomy a b with h1 | h1 | h1
  · have := arraySize_strictMono a b hb h1; omega
  · exact h1
  · have := arraySize_strictMono b a ha h1; omega

@[simp] theorem length_accumulate (state : LinRegrTransitionState) (y : Double) (x : List Double) :
    (state.accumulate y x).mStorage.length = state.mStorage.length := by
  simp [accumulate]

@[simp] theorem boundWidth_accumulate (state : LinRegrTransitionState) (y : Double)
    (x : List Double) : (state.accumulate y x).boundWidth = state.boundWidth := rfl

theorem accumulate_vadd (s t : List Double) (w : ℕ) (y : Double) (x : List Double)
    (h : s.length = t.length) :
    (accumulate { mStorage := vadd s t, boundWidth := w } y x).mStorage
      = vadd s (accumulate { mStorage := t, boundWidth := w } y x).mStorage := by
  simp only [accumulate]
  rw [addBlock_vadd _ _ _ _ h, addBlock_vadd _ _ _ _ (by simp [h]),
    addBlock_vadd _ _ _ _ (by simp [h]), addBlock_vadd _ _ _ _ (by simp [h]),
    addBlock_vadd _ _ _ _ (by simp [h])]

end LinRegrTransitionState

open LinRegrTransitionState

@[simp] theorem length_rowDelta (w : ℕ) (y : Double) (x : List Double) :
    (rowDelta w y x).length = arraySize w := by
  simp [rowDelta]

theorem accumulate_eq_vadd (s : List Double) (w : ℕ) (y : Double) (x : List Double)
    (h : s.length = arraySize w) :
    (accumulate { mStorage := s, boundWidth := w } y x).mStorage = vadd s (rowDelta w y x) := by
  have h0 : s = vadd s (List.replicate (arraySize w) 0) := (vadd_zeros s _ (le_of_eq h)).symm
  conv_lhs => rw [h0]
  rw [accumulate_vadd _ _ _ _ _ (by simp [h])]
  rfl

theorem getD_scale (x : List Double) (y : Double) (i : ℕ) (h : i < x.length) :
    (scale x y).getD i 0 = x.getD i 0 * y := by
  simp [scale, List.getD_eq_getElem?_getD, List.getElem?_eq_getElem h]

@[simp] theorem length_scale (x : List Double) (y : Double) : (scale x y).length = x.length := by
  simp [scale]

@[simp] theorem length_outer (x : List Double) : (outer x).length = x.length * x.length := by
  simp [outer]

theorem getD_outer (x : List Double) (i j : ℕ) (hi : i < x.length) (hj : j < x.length) :
    (outer x).getD (i + j * x.length) 0 = x.getD i 0 * x.getD j 0 := by
  have hlt : i + j * x.length < x.length * x.length := by
    calc i + j * x.length < x.length + j * x.length := by omega
      _ = (j + 1) * x.length := by ring
      _ ≤ x.length * x.length := Nat.mul_le_mul_right _ hj
  have h1 : (i + j * x.length) % x.length = i := by
    rw [Nat.add_mul_mod_self_right]; exact Nat.mod_eq_of_lt hi
  have h2 : (i + j * x.length) / x.length = j := by
    rw [Nat.add_mul_div_right _ _ (by omega), Nat.div_eq_of_lt hi, Nat.zero_add]
  simp only [outer, List.getD_eq_getElem?_getD, List.getElem?_map, List.getElem?_range hlt,
    Option.map_some', Option.getD_some, h1, h2]

theorem getD_accumulate (s : List Double) (w : ℕ) (y : Double) (x : List Double) (k : ℕ)
    (hk : k < s.length) (hx : x.length = w) :
    (accumulate { mStorage := s, boundWidth := w } y x).mStorage.getD k 0 =
      if k = 0 then s.getD 0 0 + 1
      else if k = 2 then s.getD 2 0 + y
      else if k = 3 then s.getD 3 0 + y * y
      else if 4 ≤ k ∧ k < 4 + w then s.getD k 0 + x.getD (k - 4) 0 * y
      else if 4 + w + w % 2 ≤ k ∧ k < 4 + w + w % 2 + w * w then
        s.getD k 0 + (outer x).getD (k - (4 + w + w % 2)) 0
      else s.getD k 0 := by
  simp only [accumulate]
  rw [getD_addBlock _ _ _ _ (by simpa using hk), getD_addBlock _ _ _ _ (by simpa using hk),
    getD_addBlock _ _ _ _ (by simpa using hk), getD_addBlock _ _ _ _ (by simpa using hk),
    getD_addBlock _ _ _ _ hk]
  simp only [length_scale, length_outer, hx, List.length_singleton]
  by_cases h0 : k = 0
  · subst h0
    have e5 : ¬ (4 + w + w % 2 ≤ 0 ∧ 0 < 4 + w + w % 2 + w * w) := by omega
    rw [if_neg e5]; simp
  by_cases h2 : k = 2
  · subst h2
    have e5 : ¬ (4 + w + w % 2 ≤ 2 ∧ 2 < 4 + w + w % 2 + w * w) := by omega
    rw [if_neg e5]; simp
  by_cases h3 : k = 3
  · subst h3
    have e5 : ¬ (4 + w + w % 2 ≤ 3 ∧ 3 < 4 + w + w % 2 + w * w) := by omega
    rw [if_neg e5]; simp
  by_cases h4 : 4 ≤ k ∧ k < 4 + w
  · have e1 : ¬ (0 ≤ k ∧ k < 0 + 1) := by omega
    have e2 : ¬ (2 ≤ k ∧ k < 2 + 1) := by omega
    have e3 : ¬ (3 ≤ k ∧ k < 3 + 1) := by omega
    have e5 : ¬ (4 + w + w % 2 ≤ k ∧ k < 4 + w + w % 2 + w * w) := by omega
    rw [if_neg e1, if_neg e2, if_neg e3, if_pos h4, if_neg e5, if_neg h0, if_neg h2, if_neg h3,
      if_pos h4, getD_scale _ _ _ (by omega)]
    simp
  by_cases h5 : 4 + w + w % 2 ≤ k ∧ k < 4 + w + w % 2 + w * w
  · have e1 : ¬ (0 ≤ k ∧ k < 0 + 1) := by omega
    have e2 : ¬ (2 ≤ k ∧ k < 2 + 1) := by omega
    have e3 : ¬ (3 ≤ k ∧ k < 3 + 1) := by omega
    rw [if_neg e1, if_neg e2, if_neg e3, if_neg h4, if_pos h5, if_neg h0, if_neg h2, if_neg h3,
      if_neg h4, if_pos h5]
    simp
  · have e1 : ¬ (0 ≤ k ∧ k < 0 + 1) := by omega
    have e2 : ¬ (2 ≤ k ∧ k < 2 + 1) := by omega
    have e3 : ¬ (3 ≤ k ∧ k < 3 + 1) := by omega
    rw [if_neg e1, if_neg e2, if_neg e3, if_neg h4, if_neg h5, if_neg h0, if_neg h2, if_neg h3,
      if_neg h4, if_neg h5]
    simp

theorem arraySize_ge (w : ℕ) (h : w ≤ 65535) : 4 ≤ arraySize w := by
  rw [arraySize_eq w h]; omega

theorem getD_replicate_zero (n k : ℕ) : (List.replicate n (0 : Double)).getD k 0 = 0 := by
  simp only [List.getD_eq_getElem?_getD, List.getElem?_replicate]
  split <;> rfl

theorem getD_rowDelta (w : ℕ) (y : Double) (x : List Double) (k : ℕ)
    (hx : x.length = w) (hk : k < arraySize w) :
    (rowDelta w y x).getD k 0 =
      if k = 0 then 1
      else if k = 2 then y
      else if k = 3 then y * y
      else if 4 ≤ k ∧ k < 4 + w then x.getD (k - 4) 0 * y
      else if 4 + w + w % 2 ≤ k ∧ k < 4 + w + w % 2 + w * w then
        (outer x).getD (k - (4 + w + w % 2)) 0
      else 0 := by
  unfold rowDelta
  rw [getD_accumulate _ _ _ _ _ (by simpa using hk) hx]
  simp only [getD_replicate_zero, zero_add]

@[simp] theorem mStorage_ofArray (s : List Double) : (ofArray s).mStorage = s := rfl

theorem numRows_ofArray (s : List Double) : (ofArray s).numRows = (s.getD 0 0).toNat := rfl

theorem widthOfX_ofArray (s : List Double) : (ofArray s).widthOfX = (s.getD 1 0).toNat := rfl

theorem boundWidth_ofArray (s : List Double) : (ofArray s).boundWidth = (s.getD 1 0).toNat := rfl

theorem isLinRegrState_numRows (s : List Double) (w : ℕ) (h : IsLinRegrState s w) :
    (ofArray s).numRows ≠ 0 := by
  obtain ⟨-, -, -, n, hn, h0⟩ := h
  rw [numRows_ofArray, h0, Double.toNat_natCast]
  omega

theorem isLinRegrState_boundWidth (s : List Double) (w : ℕ) (h : IsLinRegrState s w) :
    (ofArray s).boundWidth = w := by
  obtain ⟨-, -, h1, -⟩ := h
  rw [boundWidth_ofArray, h1, Double.toNat_natCast]

theorem linregr_transition_first (s : List Double) (y : Double) (x : List Double)
    (hy : y.isFinite = true) (hx : isfinite x = true) (hn : (ofArray s).numRows = 0)
    (hw : x.length ≤ 65535) :
    linregr_transition s y x
      = .ok (vadd (initializeState x.length).mStorage (rowDelta x.length y x)) := by
  have hmod : x.length % 65536 = x.length := Nat.mod_eq_of_lt (by omega)
  have h1 : ¬ x.length > 65535 := by omega
  simp only [linregr_transition, hy, hx, hn, hmod, h1, Bool.not_true, Bool.false_eq_true,
    if_false, if_true, bind, Except.bind, pure, Except.pure, initializeState, ne_eq,
    not_true_eq_false]
  congr 1
  exact accumulate_eq_vadd _ _ _ _ (by simp)

theorem linregr_transition_next (s : List Double) (y : Double) (x : List Double)
    (hy : y.isFinite = true) (hx : isfinite x = true) (hs : IsLinRegrState s x.length) :
    linregr_transition s y x = .ok (vadd s (rowDelta x.length y x)) := by
  have hn := isLinRegrState_numRows s _ hs
  have hb := isLinRegrState_boundWidth s _ hs
  simp only [linregr_transition, hy, hx, hn, hb, Bool.not_true, Bool.false_eq_true,
    if_false, bind, Except.bind, pure, Except.pure, ne_eq, not_true_eq_false]
  congr 1
  have := accumulate_eq_vadd s x.length y x hs.2.1
  rw [← this]
  show (accumulate { mStorage := s, boundWidth := (ofArray s).boundWidth } y x).mStorage = _
  rw [hb]

theorem isLinRegrState_step (s : List Double) (w : ℕ) (y : Double) (x : List Double)
    (hx : x.length = w) (hs : IsLinRegrState s w) : IsLinRegrState (vadd s (rowDelta w y x)) w := by
  obtain ⟨hw, hl, h1, n, hn, h0⟩ := hs
  have h4 := arraySize_ge w hw
  refine ⟨hw, by simp [hl], ?_, n + 1, by omega, ?_⟩
  · rw [getD_vadd _ _ _ (by omega) (by simp; omega), h1,
      getD_rowDelta w y x 1 hx (by omega)]
    have e4 : ¬ (4 ≤ 1 ∧ 1 < 4 + w) := by omega
    have e5 : ¬ (4 + w + w % 2 ≤ 1 ∧ 1 < 4 + w + w % 2 + w * w) := by omega
    simp [e5]
  · rw [getD_vadd _ _ _ (by omega) (by simp; omega), h0,
      getD_rowDelta w y x 0 hx (by omega)]
    simp [Double.natCast_eq_finite, Double.one_eq_finite]

theorem getD_initializeState (w k : ℕ) (hw : w ≤ 65535) :
    (initializeState w).mStorage.getD k 0 = if k = 1 then (w : Double) else 0 := by
  have h4 := arraySize_ge w hw
  simp only [initializeState, List.getD_eq_getElem?_getD]
  by_cases h : k = 1
  · subst h
    rw [List.getElem?_set_self (by simp; omega)]
    simp
  · rw [List.getElem?_set_ne (by omega), if_neg h, List.getElem?_replicate]
    split <;> rfl

@[simp] theorem length_initializeState (w : ℕ) :
    (initializeState w).mStorage.length = arraySize w := by
  simp [initializeState]

theorem isLinRegrState_first (w : ℕ) (y : Double) (x : List Double)
    (hw : w ≤ 65535) (hx : x.length = w) :
    IsLinRegrState (vadd (initializeState w).mStorage (rowDelta w y x)) w := by
  have h4 := arraySize_ge w hw
  refine ⟨hw, by simp, ?_, 1, by omega, ?_⟩
  · rw [getD_vadd _ _ _ (by simp; omega) (by simp; omega),
      getD_rowDelta w y x 1 hx (by omega), getD_initializeState w 1 hw]
    have e5 : ¬ (4 + w + w % 2 ≤ 1 ∧ 1 < 4 + w + w % 2 + w * w) := by omega
    simp [e5]
  · rw [getD_vadd _ _ _ (by simp; omega) (by simp; omega),
      getD_rowDelta w y x 0 hx (by omega), getD_initializeState w 0 hw]
    simp [Double.natCast_eq_finite, Double.one_eq_finite]

theorem getD_take_drop (t : List Double) (a n i : ℕ) (h : i < n) :
    ((t.drop a).take n).getD i 0 = t.getD (a + i) 0 := by
  simp only [List.getD_eq_getElem?_getD, List.getElem?_take, h, if_true, List.getElem?_drop]

theorem getD_of_all_zero (s : List Double) (h : ∀ d ∈ s, d = 0) (k : ℕ) : s.getD k 0 = 0 := by
  by_cases hk : k < s.length
  · rw [List.getD_eq_getElem _ _ hk]
    exact h _ (List.getElem_mem _)
  · exact getD_eq_zero_of_le s k (by omega)

theorem index_lt_sq (w i j : ℕ) (hi : i < w) (hj : j < w) : i + j * w < w * w := by
  calc i + j * w < w + j * w := by omega
    _ = (j + 1) * w := by ring
    _ ≤ w * w := Nat.mul_le_mul_right _ hj

/-- What the views of `b + rowDelta` read, in terms of the entries of `b`. -/
theorem reads_step (b : List Double) (w : ℕ) (y : Double) (x : List Double)
    (hw : w ≤ 65535) (hx : x.length = w) (hl : b.length = arraySize w)
    (h1 : b.getD 1 0 = (w : Double)) :
    (vadd b (rowDelta w y x)).getD 0 0 = b.getD 0 0 + 1 ∧
    (ofArray (vadd b (rowDelta w y x))).y_sum = b.getD 2 0 + y ∧
    (ofArray (vadd b (rowDelta w y x))).y_square_sum = b.getD 3 0 + y * y ∧
    (ofArray (vadd b (rowDelta w y x))).widthOfX = w ∧
    (ofArray (vadd b (rowDelta w y x))).X_transp_Y.length = w ∧
    (ofArray (vadd b (rowDelta w y x))).X_transp_X.length = w * w ∧
    (∀ i, i < w → (ofArray (vadd b (rowDelta w y x))).X_transp_Y_at i
        = b.getD (4 + i) 0 + x.getD i 0 * y) ∧
    (∀ i j, i < w → j < w → (ofArray (vadd b (rowDelta w y x))).X_transp_X_at i j
        = b.getD (4 + w + w % 2 + (i + j * w)) 0 + x.getD i 0 * x.getD j 0) := by
  have hsz := arraySize_eq w hw
  have hlen : (vadd b (rowDelta w y x)).length = arraySize w := by simp [hl]
  have hread : ∀ k, k < arraySize w →
      (vadd b (rowDelta w y x)).getD k 0 = b.getD k 0 + (rowDelta w y x).getD k 0 :=
    fun k hk => getD_vadd _ _ _ (by omega) (by simp; omega)
  have hwid : (vadd b (rowDelta w y x)).getD 1 0 = (w : Double) := by
    rw [hread 1 (by omega), getD_rowDelta w y x 1 hx (by omega), h1]
    have e5 : ¬ (4 + w + w % 2 ≤ 1 ∧ 1 < 4 + w + w % 2 + w * w) := by omega
    simp [e5]
  have hbw : (ofArray (vadd b (rowDelta w y x))).boundWidth = w := by
    rw [boundWidth_ofArray, hwid, Double.toNat_natCast]
  refine ⟨?_, ?_, ?_, ?_, ?_, ?_, ?_, ?_⟩
  · rw [hread 0 (by omega), getD_rowDelta w y x 0 hx (by omega)]; simp
  · show (vadd b (rowDelta w y x)).getD 2 0 = _
    rw [hread 2 (by omega), getD_rowDelta w y x 2 hx (by omega)]; simp
  · show (vadd b (rowDelta w y x)).getD 3 0 = _
    rw [hread 3 (by omega), getD_rowDelta w y x 3 hx (by omega)]; simp
  · rw [widthOfX_ofArray, hwid, Double.toNat_natCast]
  · simp only [X_transp_Y, hbw, mStorage_ofArray, List.length_take, List.length_drop, hlen]; omega
  · simp only [X_transp_X, hbw, mStorage_ofArray, List.length_take, List.length_drop, hlen]; omega
  · intro i hi
    simp only [X_transp_Y_at, X_transp_Y, hbw, mStorage_ofArray]
    rw [getD_take_drop _ _ _ _ hi, hread _ (by omega), getD_rowDelta w y x _ hx (by omega)]
    have e0 : ¬ (4 + i = 0) := by omega
    have e2 : ¬ (4 + i = 2) := by omega
    have e3 : ¬ (4 + i = 3) := by omega
    have e4 : 4 ≤ 4 + i ∧ 4 + i < 4 + w := by omega
    rw [if_neg e0, if_neg e2, if_neg e3, if_pos e4]
    simp
  · intro i j hi hj
    have hij := index_lt_sq w i j hi hj
    simp only [X_transp_X_at, X_transp_X, hbw, mStorage_ofArray]
    rw [getD_take_drop _ _ _ _ hij, hread _ (by omega), getD_rowDelta w y x _ hx (by omega)]
    have e0 : ¬ (4 + w + w % 2 + (i + j * w) = 0) := by omega
    have e2 : ¬ (4 + w + w % 2 + (i + j * w) = 2) := by omega
    have e3 : ¬ (4 + w + w % 2 + (i + j * w) = 3) := by omega
    have e4 : ¬ (4 ≤ 4 + w + w % 2 + (i + j * w) ∧ 4 + w + w % 2 + (i + j * w) < 4 + w) := by
      omega
    have e5 : 4 + w + w % 2 ≤ 4 + w + w % 2 + (i + j * w) ∧
        4 + w + w % 2 + (i + j * w) < 4 + w + w % 2 + w * w := by omega
    rw [if_neg e0, if_neg e2, if_neg e3, if_neg e4, if_pos e5, Nat.add_sub_cancel_left]
    subst hx
    rw [getD_outer x i j hi hj]

/-- What the views of a state of width `w` read. -/
theorem reads_state (s : List Double) (w : ℕ) (hs : IsLinRegrState s w) :
    (∀ i, i < w → (ofArray s).X_transp_Y_at i = s.getD (4 + i) 0) ∧
    (∀ i j, i < w → j < w → (ofArray s).X_transp_X_at i j
        = s.getD (4 + w + w % 2 + (i + j * w)) 0) := by
  have hbw := isLinRegrState_boundWidth s w hs
  constructor
  · intro i hi
    simp only [X_transp_Y_at, X_transp_Y, hbw, mStorage_ofArray]
    rw [getD_take_drop _ _ _ _ hi]
  · intro i j hi hj
    simp only [X_transp_X_at, X_transp_X, hbw, mStorage_ofArray]
    rw [getD_take_drop _ _ _ _ (index_lt_sq w i j hi hj)]

/-- What the views of an initial state read: zero everywhere. -/
theorem reads_initial (s : List Double) (hs : IsInitialState s) :
    (ofArray s).numRows = 0 ∧ (ofArray s).y_sum = 0 ∧ (ofArray s).y_square_sum = 0 ∧
    (∀ i, (ofArray s).X_transp_Y_at i = 0) ∧ (∀ i j, (ofArray s).X_transp_X_at i j = 0) := by
  have hz := getD_of_all_zero s hs.2
  have hbw : (ofArray s).boundWidth = 0 := by
    rw [boundWidth_ofArray, hz, Double.toNat_zero]
  refine ⟨?_, hz 2, hz 3, ?_, ?_⟩
  · rw [numRows_ofArray, hz, Double.toNat_zero]
  · intro i
    simp [X_transp_Y_at, X_transp_Y, hbw]
  · intro i j
    simp [X_transp_X_at, X_transp_X, hbw]

/-! ## Lemmas: folds and merges of linear-regression states -/

theorem getD_set (s : List Double) (j k : ℕ) (v : Double) :
    (s.set j v).getD k 0 = if j = k ∧ k < s.length then v else s.getD k 0 := by
  simp only [List.getD_eq_getElem?_getD, List.getElem?_set]
  by_cases h : j = k
  · by_cases h2 : k < s.length
    · simp [h, h2]
    · simp [h, h2, List.getElem?_eq_none (by omega : s.length ≤ k)]
  · simp [h]

theorem zeros_vadd (a : List Double) (n : ℕ) (h : a.length ≤ n) :
    vadd (List.replicate n 0) a = a := by
  rw [vadd_comm]; exact vadd_zeros a n h

@[simp] theorem length_sumDelta (w : ℕ) (rows : List (Double × List Double)) :
    (sumDelta w rows).length = arraySize w := by
  induction rows with
  | nil => simp [sumDelta]
  | cons r rs ih =>
    have : sumDelta w (r :: rs) = vadd (rowDelta w r.1 r.2) (sumDelta w rs) := rfl
    rw [this, length_vadd, ih, length_rowDelta, min_self]

theorem sumDelta_cons (w : ℕ) (r : Double × List Double) (rs : List (Double × List Double)) :
    sumDelta w (r :: rs) = vadd (rowDelta w r.1 r.2) (sumDelta w rs) := rfl

theorem sumDelta_append (w : ℕ) (l1 l2 : List (Double × List Double)) :
    sumDelta w (l1 ++ l2) = vadd (sumDelta w l1) (sumDelta w l2) := by
  induction l1 with
  | nil =>
    have : sumDelta w [] = List.replicate (arraySize w) 0 := rfl
    rw [List.nil_append, this, zeros_vadd _ _ (by simp)]
  | cons r rs ih =>
    rw [List.cons_append, sumDelta_cons, sumDelta_cons, ih, vadd_assoc]

theorem getD_sumDelta_one (w : ℕ) (rows : List (Double × List Double)) (hw : w ≤ 65535)
    (h : GoodRows w rows) : (sumDelta w rows).getD 1 0 = 0 := by
  have h4 := arraySize_ge w hw
  have hsz := arraySize_eq w hw
  induction rows with
  | nil => exact getD_replicate_zero _ _
  | cons r rs ih =>
    have hr := h r (List.mem_cons_self _ _)
    rw [sumDelta_cons, getD_vadd _ _ _ (by simp; omega) (by simp; omega),
      ih (fun q hq => h q (List.mem_cons_of_mem _ hq)),
      getD_rowDelta w r.1 r.2 1 hr.2.2 (by omega)]
    have e5 : ¬ (4 + w + w % 2 ≤ 1 ∧ 1 < 4 + w + w % 2 + w * w) := by omega
    simp [e5]

theorem linregr_fold_nil (s : List Double) : linregr_fold s [] = .ok s := rfl

theorem linregr_fold_cons (s : List Double) (r : Double × List Double)
    (rs : List (Double × List Double)) :
    linregr_fold s (r :: rs) = (linregr_transition s r.1 r.2).bind (fun t => linregr_fold t rs) := by
  simp only [linregr_fold, List.foldlM_cons]
  rfl

/-- Folding good rows into a state of width `w` adds the sum of their arrays. -/
theorem linregr_fold_state (w : ℕ) (rows : List (Double × List Double)) (s : List Double)
    (hs : IsLinRegrState s w) (h : GoodRows w rows) :
    linregr_fold s rows = .ok (vadd s (sumDelta w rows)) ∧
      IsLinRegrState (vadd s (sumDelta w rows)) w := by
  induction rows generalizing s with
  | nil =>
    have : vadd s (sumDelta w []) = s := vadd_zeros s _ (le_of_eq hs.2.1)
    rw [this]
    exact ⟨rfl, hs⟩
  | cons r rs ih =>
    obtain ⟨hy, hx, hl⟩ := h r (List.mem_cons_self _ _)
    subst hl
    have hstep := isLinRegrState_step s _ r.1 r.2 rfl hs
    obtain ⟨e, st⟩ := ih _ hstep (fun q hq => h q (List.mem_cons_of_mem _ hq))
    rw [linregr_fold_cons, linregr_transition_next s r.1 r.2 hy hx hs, sumDelta_cons,
      ← vadd_assoc]
    exact ⟨e, st⟩

/-- Folding a non-empty list of good rows from a state without rows. -/
theorem linregr_fold_initial (w : ℕ) (r : Double × List Double)
    (rs : List (Double × List Double)) (init : List Double)
    (hn : (ofArray init).numRows = 0) (hw : w ≤ 65535) (h : GoodRows w (r :: rs)) :
    linregr_fold init (r :: rs) = .ok (vadd (initializeState w).mStorage (sumDelta w (r :: rs))) ∧
      IsLinRegrState (vadd (initializeState w).mStorage (sumDelta w (r :: rs))) w := by
  obtain ⟨hy, hx, hl⟩ := h r (List.mem_cons_self _ _)
  subst hl
  have hfirst := isLinRegrState_first _ r.1 r.2 hw rfl
  obtain ⟨e, st⟩ := linregr_fold_state _ rs _ hfirst (fun q hq => h q (List.mem_cons_of_mem _ hq))
  rw [linregr_fold_cons, linregr_transition_first init r.1 r.2 hy hx hn hw, sumDelta_cons,
    ← vadd_assoc]
  exact ⟨e, st⟩

/-- Folding a non-empty list of good rows of more than 65535 entries from a
state without rows stops at the first row with the domain error. -/
theorem linregr_fold_too_wide (w : ℕ) (r : Double × List Double)
    (rs : List (Double × List Double)) (init : List Double)
    (hn : (ofArray init).numRows = 0) (hw : 65535 < w) (h : GoodRows w (r :: rs)) :
    linregr_fold init (r :: rs) = .error .domain_error := by
  obtain ⟨hy, hx, hl⟩ := h r (List.mem_cons_self _ _)
  have hgt : r.2.length > 65535 := by omega
  have e : linregr_transition init r.1 r.2 = .error .domain_error := by
    simp [linregr_transition, hy, hx, hn, hgt, bind, Except.bind]
  rw [linregr_fold_cons, e]
  rfl

/-- Merging two states of the same width that hold rows. -/
theorem linregr_merge_states_eq (a b : List Double) (w : ℕ) (ha : IsLinRegrState a w)
    (hb : IsLinRegrState b w) :
    linregr_merge_states a b = .ok ((vadd a b).set 1 (w : Double)) := by
  have hna := isLinRegrState_numRows a w ha
  have hnb := isLinRegrState_numRows b w hb
  have hl : a.length = b.length := by rw [ha.2.1, hb.2.1]
  have hwb : (ofArray b).widthOfX = w := by
    rw [widthOfX_ofArray, hb.2.2.1, Double.toNat_natCast]
  simp [linregr_merge_states, hna, hnb, LinRegrTransitionState.add, hl, hwb, Except.map]

/-- Merging two states of different widths that hold rows. -/
theorem linregr_merge_states_mismatch (a b : List Double) (wa wb : ℕ)
    (ha : IsLinRegrState a wa) (hb : IsLinRegrState b wb) (hne : wa ≠ wb) :
    linregr_merge_states a b = .error .logic_error := by
  have hna := isLinRegrState_numRows a wa ha
  have hnb := isLinRegrState_numRows b wb hb
  have hl : a.length ≠ b.length := by
    rw [ha.2.1, hb.2.1]
    exact fun e => hne (arraySize_injective wa wb ha.1 hb.1 e)
  simp [linregr_merge_states, hna, hnb, LinRegrTransitionState.add, hl, Except.map]

/-- The merge of the states of two non-empty shards is the state of their concatenation. -/
theorem merge_accumulated (w : ℕ) (l1 l2 : List (Double × List Double)) (hw : w ≤ 65535)
    (h1 : GoodRows w l1) (h2 : GoodRows w l2) :
    (vadd (vadd (initializeState w).mStorage (sumDelta w l1))
        (vadd (initializeState w).mStorage (sumDelta w l2))).set 1 (w : Double)
      = vadd (initializeState w).mStorage (sumDelta w (l1 ++ l2)) := by
  have h4 := arraySize_ge w hw
  apply ext_getD
  · simp
  · intro k hk
    have hk' : k < arraySize w := by simpa using hk
    have hv : ∀ a b : List Double, a.length = arraySize w → b.length = arraySize w →
        (vadd a b).getD k 0 = a.getD k 0 + b.getD k 0 :=
      fun a b ha hb => getD_vadd a b k (by omega) (by omega)
    rw [getD_set, sumDelta_append]
    by_cases h : 1 = k
    · subst h
      rw [if_pos ⟨rfl, by simp; omega⟩, hv _ _ (by simp) (by simp), hv _ _ (by simp) (by simp),
        getD_initializeState _ _ hw,
        getD_sumDelta_one w l1 hw h1, getD_sumDelta_one w l2 hw h2]
      simp
    · rw [if_neg (fun hh => h hh.1), hv _ _ (by simp) (by simp), hv _ _ (by simp) (by simp),
        hv _ _ (by simp) (by simp), hv _ _ (by simp) (by simp), hv _ _ (by simp) (by simp),
        getD_initializeState _ _ hw, if_neg (fun hh => h hh.symm)]
      simp

/-! ## Lemmas: reachable states -/

/-- A successful call on a state of width `w` took a finite row of `w` entries. -/
theorem linregr_transition_ok_state (s t : List Double) (w : ℕ) (y : Double) (x : List Double)
    (hs : IsLinRegrState s w) (h : linregr_transition s y x = .ok t) :
    y.isFinite = true ∧ isfinite x = true ∧ x.length = w := by
  have hn := isLinRegrState_numRows s w hs
  have hb := isLinRegrState_boundWidth s w hs
  by_cases hy : y.isFinite = true
  · by_cases hx : isfinite x = true
    · by_cases hl : x.length = w
      · exact ⟨hy, hx, hl⟩
      · exfalso
        simp [linregr_transition, hy, hx, hn, hb, hl, bind, Except.bind, pure, Except.pure] at h
    · exfalso
      simp [linregr_transition, hy, hx] at h
  · exfalso
    simp [linregr_transition, hy] at h

/-- A successful call on a state without rows took a finite row of at most 65535 entries. -/
theorem linregr_transition_ok_first (s t : List Double) (y : Double) (x : List Double)
    (hn : (ofArray s).numRows = 0) (h : linregr_transition s y x = .ok t) :
    y.isFinite = true ∧ isfinite x = true ∧ x.length ≤ 65535 := by
  by_cases hy : y.isFinite = true
  · by_cases hx : isfinite x = true
    · by_cases hl : x.length ≤ 65535
      · exact ⟨hy, hx, hl⟩
      · exfalso
        have : x.length > 65535 := by omega
        simp [linregr_transition, hy, hx, hn, this, bind, Except.bind] at h
    · exfalso
      simp [linregr_transition, hy, hx] at h
  · exfalso
    simp [linregr_transition, hy] at h

theorem linregr_fold_ok_state (w : ℕ) (rows : List (Double × List Double)) (s a : List Double)
    (hs : IsLinRegrState s w) (h : linregr_fold s rows = .ok a) :
    GoodRows w rows ∧ IsLinRegrState a w := by
  induction rows generalizing s with
  | nil =>
    have : s = a := by simpa [linregr_fold_nil] using h
    subst this
    exact ⟨fun r hr => by simp at hr, hs⟩
  | cons r rs ih =>
    rw [linregr_fold_cons] at h
    cases ht : linregr_transition s r.1 r.2 with
    | error e => rw [ht] at h; simp [Except.bind] at h
    | ok t =>
      rw [ht] at h
      obtain ⟨hy, hx, hl⟩ := linregr_transition_ok_state s t w r.1 r.2 hs ht
      have hnext := linregr_transition_next s r.1 r.2 hy hx (hl ▸ hs)
      rw [hnext] at ht
      have ht' : vadd s (rowDelta r.2.length r.1 r.2) = t := by simpa using ht
      have hst : IsLinRegrState t w := by
        rw [← ht', hl]
        exact isLinRegrState_step s w r.1 r.2 hl hs
      obtain ⟨g, st⟩ := ih t hst h
      refine ⟨?_, st⟩
      intro q hq
      rcases List.mem_cons.mp hq with hq | hq
      · subst hq; exact ⟨hy, hx, hl⟩
      · exact g q hq

/-- A reachable state is an initial state or a state of some width that holds rows. -/
theorem linRegrReachable_cases (a : List Double) (h : LinRegrReachable a) :
    IsInitialState a ∨ ∃ w, IsLinRegrState a w := by
  obtain ⟨init, rows, hinit, hf⟩ := h
  cases rows with
  | nil =>
    have : init = a := by simpa [linregr_fold_nil] using hf
    subst this
    exact Or.inl hinit
  | cons r rs =>
    right
    have hn : (ofArray init).numRows = 0 := (reads_initial init hinit).1
    rw [linregr_fold_cons] at hf
    cases ht : linregr_transition init r.1 r.2 with
    | error e => rw [ht] at hf; simp [Except.bind] at hf
    | ok t =>
      rw [ht] at hf
      obtain ⟨hy, hx, hl⟩ := linregr_transition_ok_first init t r.1 r.2 hn ht
      rw [linregr_transition_first init r.1 r.2 hy hx hn hl] at ht
      have ht' : vadd (initializeState r.2.length).mStorage (rowDelta r.2.length r.1 r.2) = t := by
        simpa using ht
      have hst : IsLinRegrState t r.2.length := by
        rw [← ht']
        exact isLinRegrState_first _ r.1 r.2 hl rfl
      exact ⟨_, (linregr_fold_ok_state _ rs t a hst hf).2⟩

theorem accumulator_initial (s : List Double) (hs : IsInitialState s) :
    accumulator s = (0, 0, 0, 0, [], []) := by
  have hz := getD_of_all_zero s hs.2
  have hbw : (ofArray s).boundWidth = 0 := by
    rw [boundWidth_ofArray, hz, Double.toNat_zero]
  simp only [accumulator, numRows_ofArray, widthOfX_ofArray, y_sum, y_square_sum, X_transp_Y,
    X_transp_X, hbw, mStorage_ofArray, hz, Double.toNat_zero, List.take_zero, Nat.zero_mul]

theorem linregr_merge_states_left_initial (a b : List Double) (ha : (ofArray a).numRows = 0) :
    linregr_merge_states a b = .ok b := by
  simp [linregr_merge_states, ha]

theorem linregr_merge_states_right_initial (a b : List Double) (ha : (ofArray a).numRows ≠ 0)
    (hb : (ofArray b).numRows = 0) : linregr_merge_states a b = .ok a := by
  simp [linregr_merge_states, ha, hb]

/-- The merge of two states of width `w` that hold rows is such a state. -/
theorem isLinRegrState_merge (a b : List Double) (w : ℕ) (ha : IsLinRegrState a w)
    (hb : IsLinRegrState b w) : IsLinRegrState ((vadd a b).set 1 (w : Double)) w := by
  obtain ⟨hw, hla, -, na, hna, ha0⟩ := ha
  obtain ⟨-, hlb, -, nb, hnb, hb0⟩ := hb
  have h4 := arraySize_ge w hw
  refine ⟨hw, by simp [hla, hlb], ?_, na + nb, by omega, ?_⟩
  · rw [getD_set, if_pos ⟨rfl, by simp [hla, hlb]; omega⟩]
  · rw [getD_set, if_neg (by omega), getD_vadd _ _ _ (by omega) (by omega), ha0, hb0]
    simp [Double.natCast_eq_finite]

theorem merge_assoc_arrays (a b c : List Double) (w : ℕ) (ha : a.length = arraySize w)
    (hb : b.length = arraySize w) (hc : c.length = arraySize w) :
    (vadd ((vadd a b).set 1 (w : Double)) c).set 1 (w : Double)
      = (vadd a ((vadd b c).set 1 (w : Double))).set 1 (w : Double) := by
  apply ext_getD
  · simp [ha, hb, hc]
  · intro k hk
    have hk' : k < arraySize w := by simpa [ha, hb, hc] using hk
    rw [getD_set, getD_set]
    by_cases h : 1 = k
    · subst h
      rw [if_pos ⟨rfl, by simp [ha, hb, hc]; omega⟩, if_pos ⟨rfl, by simp [ha, hb, hc]; omega⟩]
    · rw [if_neg (fun hh => h hh.1), if_neg (fun hh => h hh.1),
        getD_vadd _ _ _ (by simp [ha, hb]; omega) (by omega),
        getD_vadd _ _ _ (by omega) (by simp [hb, hc]; omega),
        getD_set, getD_set, if_neg (fun hh => h hh.1), if_neg (fun hh => h hh.1),
        getD_vadd _ _ _ (by omega) (by omega), getD_vadd _ _ _ (by omega) (by omega), add_assoc]

/-- Merging valid states is associative, as an equation between the two results. -/
theorem linregr_merge_assoc_valid (A B C : List Double)
    (hA : IsInitialState A ∨ ∃ w, IsLinRegrState A w)
    (hB : IsInitialState B ∨ ∃ w, IsLinRegrState B w)
    (hC : IsInitialState C ∨ ∃ w, IsLinRegrState C w) :
    ((linregr_merge_states A B).bind (fun ab => linregr_merge_states ab C)
        = .error .logic_error ∧
      (linregr_merge_states B C).bind (fun bc => linregr_merge_states A bc)
        = .error .logic_error) ∨
    ∃ r, (linregr_merge_states A B).bind (fun ab => linregr_merge_states ab C) = .ok r ∧
      (linregr_merge_states B C).bind (fun bc => linregr_merge_states A bc) = .ok r := by
  -- a merge of two valid states fails with the logic error or succeeds
  have total : ∀ X Y : List Double, (IsInitialState X ∨ ∃ w, IsLinRegrState X w) →
      (IsInitialState Y ∨ ∃ w, IsLinRegrState Y w) →
      linregr_merge_states X Y = .error .logic_error ∨ ∃ r, linregr_merge_states X Y = .ok r := by
    intro X Y hX hY
    rcases hX with hx | ⟨wx, hx⟩
    · exact Or.inr ⟨Y, linregr_merge_states_left_initial X Y (reads_initial X hx).1⟩
    · rcases hY with hy | ⟨wy, hy⟩
      · exact Or.inr ⟨X, linregr_merge_states_right_initial X Y
          (isLinRegrState_numRows X wx hx) (reads_initial Y hy).1⟩
      · by_cases hw : wx = wy
        · subst hw
          exact Or.inr ⟨_, linregr_merge_states_eq X Y wx hx hy⟩
        · exact Or.inl (linregr_merge_states_mismatch X Y wx wy hx hy hw)
  rcases hA with ha | ⟨wa, ha⟩
  · -- A is initial: both sides are the merge of B and C
    have hna := (reads_initial A ha).1
    rw [linregr_merge_states_left_initial A B hna]
    rcases total B C hB hC with e | ⟨r, e⟩
    · left
      refine ⟨by simpa [Except.bind] using e, ?_⟩
      rw [e]; rfl
    · right
      refine ⟨r, by simpa [Except.bind] using e, ?_⟩
      rw [e]
      simpa [Except.bind] using linregr_merge_states_left_initial A r hna
  · have hna := isLinRegrState_numRows A wa ha
    rcases hB with hb | ⟨wb, hb⟩
    · -- B is initial: both sides are the merge of A and C
      have hnb := (reads_initial B hb).1
      rw [linregr_merge_states_right_initial A B hna hnb,
        linregr_merge_states_left_initial B C hnb]
      rcases total A C (Or.inr ⟨wa, ha⟩) hC with e | ⟨r, e⟩
      · left; exact ⟨by simpa [Except.bind] using e, by simpa [Except.bind] using e⟩
      · right; exact ⟨r, by simpa [Except.bind] using e, by simpa [Except.bind] using e⟩
    · have hnb := isLinRegrState_numRows B wb hb
      rcases hC with hc | ⟨wc, hc⟩
      · -- C is initial: both sides are the merge of A and B
        have hnc := (reads_initial C hc).1
        rw [linregr_merge_states_right_initial B C hnb hnc]
        rcases total A B (Or.inr ⟨wa, ha⟩) (Or.inr ⟨wb, hb⟩) with e | ⟨r, e⟩
        · left
          refine ⟨?_, by simpa [Except.bind] using e⟩
          rw [e]; rfl
        · right
          refine ⟨r, ?_, by simpa [Except.bind] using e⟩
          by_cases hw : wa = wb
          · subst hw
            have e2 := linregr_merge_states_eq A B wa ha hb
            have hr : r = (vadd A B).set 1 (wa : Double) := by
              rw [e2] at e; exact (Except.ok.inj e).symm
            have hnr := isLinRegrState_numRows _ wa (isLinRegrState_merge A B wa ha hb)
            rw [e, hr]
            simpa [Except.bind] using linregr_merge_states_right_initial _ C hnr hnc
          · rw [linregr_merge_states_mismatch A B wa wb ha hb hw] at e
            cases e
      · by_cases hab : wa = wb
        · subst hab
          have eab := linregr_merge_states_eq A B wa ha hb
          have sab := isLinRegrState_merge A B wa ha hb
          by_cases hbc : wa = wc
          · subst hbc
            have ebc := linregr_merge_states_eq B C wa hb hc
            have sbc := isLinRegrState_merge B C wa hb hc
            right
            refine ⟨(vadd ((vadd A B).set 1 (wa : Double)) C).set 1 (wa : Double), ?_, ?_⟩
            · rw [eab]
              simpa [Except.bind] using linregr_merge_states_eq _ C wa sab hc
            · rw [ebc, merge_assoc_arrays A B C wa ha.2.1 hb.2.1 hc.2.1]
              simpa [Except.bind] using linregr_merge_states_eq A _ wa ha sbc
          · left
            constructor
            · rw [eab]
              simpa [Except.bind] using linregr_merge_states_mismatch _ C wa wc sab hc hbc
            · rw [linregr_merge_states_mismatch B C wa wc hb hc hbc]; rfl
        · left
          constructor
          · rw [linregr_merge_states_mismatch A B wa wb ha hb hab]; rfl
          · by_cases hbc : wb = wc
            · subst hbc
              rw [linregr_merge_states_eq B C wb hb hc]
              simpa [Except.bind] using linregr_merge_states_mismatch A _ wa wb ha
                (isLinRegrState_merge B C wb hb hc) hab
            · rw [linregr_merge_states_mismatch B C wb wc hb hc hbc]; rfl

/-- The views of the merge of two states of width `w`. -/
theorem reads_merge (a b : List Double) (w : ℕ) (ha : IsLinRegrState a w)
    (hb : IsLinRegrState b w) :
    (ofArray ((vadd a b).set 1 (w : Double))).widthOfX = w ∧
    (ofArray ((vadd a b).set 1 (w : Double))).numRows = (ofArray a).numRows + (ofArray b).numRows ∧
    (ofArray ((vadd a b).set 1 (w : Double))).y_sum = (ofArray a).y_sum + (ofArray b).y_sum ∧
    (ofArray ((vadd a b).set 1 (w : Double))).y_square_sum
      = (ofArray a).y_square_sum + (ofArray b).y_square_sum ∧
    (ofArray ((vadd a b).set 1 (w : Double))).X_transp_Y
      = vadd (ofArray a).X_transp_Y (ofArray b).X_transp_Y ∧
    (ofArray ((vadd a b).set 1 (w : Double))).X_transp_X
      = vadd (ofArray a).X_transp_X (ofArray b).X_transp_X := by
  have hm := isLinRegrState_merge a b w ha hb
  have hbm := isLinRegrState_boundWidth _ w hm
  have hba := isLinRegrState_boundWidth a w ha
  have hbb := isLinRegrState_boundWidth b w hb
  obtain ⟨hw, hla, -, na, hna, ha0⟩ := ha
  obtain ⟨-, hlb, -, nb, hnb, hb0⟩ := hb
  have hsz := arraySize_eq w hw
  have hread : ∀ k, k ≠ 1 → k < arraySize w →
      ((vadd a b).set 1 (w : Double)).getD k 0 = a.getD k 0 + b.getD k 0 := by
    intro k h1 hk
    rw [getD_set, if_neg (fun hh => h1 hh.1.symm), getD_vadd _ _ _ (by omega) (by omega)]
  refine ⟨?_, ?_, ?_, ?_, ?_, ?_⟩
  · rw [widthOfX_ofArray, hm.2.2.1, Double.toNat_natCast]
  · rw [numRows_ofArray, numRows_ofArray, numRows_ofArray, hread 0 (by omega) (by omega),
      ha0, hb0]
    have : ((na : ℕ) : Double) + ((nb : ℕ) : Double) = ((na + nb : ℕ) : Double) := by
      simp [Double.natCast_eq_finite]
    rw [this, Double.toNat_natCast, Double.toNat_natCast, Double.toNat_natCast]
  · exact hread 2 (by omega) (by omega)
  · exact hread 3 (by omega) (by omega)
  · apply ext_getD
    · simp only [X_transp_Y, hbm, hba, hbb, mStorage_ofArray, length_vadd, List.length_take,
        List.length_drop, List.length_set, hla, hlb, min_self]
    · intro i hi
      have hi' : i < w := by
        simp only [X_transp_Y, hbm, mStorage_ofArray, List.length_take] at hi; omega
      simp only [X_transp_Y, hbm, hba, hbb, mStorage_ofArray]
      rw [getD_take_drop _ _ _ _ hi', hread _ (by omega) (by omega),
        getD_vadd _ _ _ (by simp [hla]; omega) (by simp [hlb]; omega),
        getD_take_drop _ _ _ _ hi', getD_take_drop _ _ _ _ hi']
  · apply ext_getD
    · simp only [X_transp_X, hbm, hba, hbb, mStorage_ofArray, length_vadd, List.length_take,
        List.length_drop, List.length_set, hla, hlb, min_self]
    · intro i hi
      have hi' : i < w * w := by
        simp only [X_transp_X, hbm, mStorage_ofArray, List.length_take] at hi; omega
      simp only [X_transp_X, hbm, hba, hbb, mStorage_ofArray]
      rw [getD_take_drop _ _ _ _ hi', hread _ (by omega) (by omega),
        getD_vadd _ _ _ (by simp [hla]; omega) (by simp [hlb]; omega),
        getD_take_drop _ _ _ _ hi', getD_take_drop _ _ _ _ hi']

/-! ## Lemmas: finite datasets -/

theorem getD_map_finite (l : List ℚ) (k : ℕ) :
    (l.map Double.finite).getD k 0 = Double.finite (l.getD k 0) := by
  simp only [List.getD_eq_getElem?_getD, List.getElem?_map]
  cases l[k]? <;> rfl

theorem sum_map_finite (l : List ℚ) : (l.map Double.finite).sum = Double.finite l.sum := by
  induction l with
  | nil => rfl
  | cons a l ih => simp only [List.map_cons, List.sum_cons, ih, Double.finite_add_finite]

theorem isfinite_map_finite (l : List ℚ) : isfinite (l.map Double.finite) = true := by
  simp [isfinite, Double.isFinite]

theorem goodRows_toDoubleRows (w : ℕ) (rows : List (ℚ × List ℚ))
    (h : ∀ r ∈ rows, r.2.length = w) : GoodRows w (toDoubleRows rows) := by
  intro r hr
  obtain ⟨q, hq, rfl⟩ := List.mem_map.mp hr
  exact ⟨rfl, isfinite_map_finite _, by simpa using h q hq⟩

theorem getD_rowDelta_finite (w : ℕ) (y : ℚ) (x : List ℚ) (k : ℕ) (hx : x.length = w)
    (hk : k < arraySize w) :
    (rowDelta w (Double.finite y) (x.map Double.finite)).getD k 0
      = Double.finite (entryQ w y x k) := by
  rw [getD_rowDelta w _ _ k (by simpa using hx) hk]
  unfold entryQ
  by_cases h0 : k = 0
  · rw [if_pos h0, if_pos h0]; rfl
  rw [if_neg h0, if_neg h0]
  by_cases h2 : k = 2
  · rw [if_pos h2, if_pos h2]
  rw [if_neg h2, if_neg h2]
  by_cases h3 : k = 3
  · rw [if_pos h3, if_pos h3]; rfl
  rw [if_neg h3, if_neg h3]
  by_cases h4 : 4 ≤ k ∧ k < 4 + w
  · rw [if_pos h4, if_pos h4, getD_map_finite]; rfl
  rw [if_neg h4, if_neg h4]
  by_cases h5 : 4 + w + w % 2 ≤ k ∧ k < 4 + w + w % 2 + w * w
  · rw [if_pos h5, if_pos h5]
    have hlt : k - (4 + w + w % 2) < w * w := by omega
    simp only [outer, List.length_map, hx, List.getD_eq_getElem?_getD, List.getElem?_map,
      List.getElem?_range hlt, Option.map_some', Option.getD_some]
    have hg : ∀ a, (Option.map Double.finite x[a]?).getD 0 = Double.finite (x.getD a 0) := by
      intro a
      simp only [List.getD_eq_getElem?_getD]
      cases x[a]? <;> rfl
    rw [hg, hg, Double.finite_mul_finite]
    simp only [List.getD_eq_getElem?_getD]
  · rw [if_neg h5, if_neg h5]; rfl

theorem getD_sumDelta_finite (w : ℕ) (rows : List (ℚ × List ℚ)) (k : ℕ)
    (h : ∀ r ∈ rows, r.2.length = w) (hk : k < arraySize w) :
    (sumDelta w (toDoubleRows rows)).getD k 0
      = Double.finite ((rows.map (fun r => entryQ w r.1 r.2 k)).sum) := by
  induction rows with
  | nil => exact getD_replicate_zero _ _
  | cons r rs ih =>
    have hr := h r (List.mem_cons_self _ _)
    have e : toDoubleRows (r :: rs)
        = (Double.finite r.1, r.2.map Double.finite) :: toDoubleRows rs := rfl
    rw [e, sumDelta_cons, getD_vadd _ _ _ (by simpa using hk) (by simpa using hk),
      ih (fun q hq => h q (List.mem_cons_of_mem _ hq)), getD_rowDelta_finite w r.1 r.2 k hr hk]
    simp only [List.map_cons, List.sum_cons, Double.finite_add_finite]

/-- The entries, other than the width, of the state that a non-empty finite
dataset of width `w` folds to. -/
theorem getD_accumulated_finite (w : ℕ) (rows : List (ℚ × List ℚ)) (k : ℕ) (hw : w ≤ 65535)
    (h : ∀ r ∈ rows, r.2.length = w) (hk : k < arraySize w) (h1 : k ≠ 1) :
    (vadd (initializeState w).mStorage (sumDelta w (toDoubleRows rows))).getD k 0
      = Double.finite ((rows.map (fun r => entryQ w r.1 r.2 k)).sum) := by
  rw [getD_vadd _ _ _ (by simpa using hk) (by simpa using hk), getD_initializeState _ _ hw,
    if_neg h1, getD_sumDelta_finite w rows k h hk, zero_add]

theorem sum_map_one (rows : List (ℚ × List ℚ)) :
    (rows.map (fun _ => (1 : ℚ))).sum = (rows.length : ℚ) := by
  induction rows with
  | nil => simp
  | cons r rs ih => simp only [List.map_cons, List.sum_cons, ih, List.length_cons]; push_cast; ring

/-- The views of the state that a non-empty finite dataset of width `w` folds to. -/
theorem reads_accumulated (w : ℕ) (rows : List (ℚ × List ℚ)) (hw : w ≤ 65535)
    (h : ∀ r ∈ rows, r.2.length = w)
    (hs : IsLinRegrState (vadd (initializeState w).mStorage (sumDelta w (toDoubleRows rows))) w) :
    (ofArray (vadd (initializeState w).mStorage (sumDelta w (toDoubleRows rows)))).numRows
      = rows.length ∧
    (ofArray (vadd (initializeState w).mStorage (sumDelta w (toDoubleRows rows)))).y_sum
      = Double.finite ((rows.map (fun r => r.1)).sum) ∧
    (ofArray (vadd (initializeState w).mStorage (sumDelta w (toDoubleRows rows)))).y_square_sum
      = Double.finite ((rows.map (fun r => r.1 * r.1)).sum) ∧
    (ofArray (vadd (initializeState w).mStorage (sumDelta w (toDoubleRows rows)))).X_transp_Y
      = (xtyList w rows).map Double.finite ∧
    (ofArray (vadd (initializeState w).mStorage (sumDelta w (toDoubleRows rows)))).X_transp_X
      = (gramList w rows).map Double.finite := by
  have hsz := arraySize_eq w hw
  have hbw := isLinRegrState_boundWidth _ w hs
  have hlen : (vadd (initializeState w).mStorage (sumDelta w (toDoubleRows rows))).length
      = arraySize w := by simp
  refine ⟨?_, ?_, ?_, ?_, ?_⟩
  · rw [numRows_ofArray, getD_accumulated_finite w rows 0 hw h (by omega) (by omega)]
    have : (rows.map (fun r => entryQ w r.1 r.2 0)).sum = (rows.length : ℚ) := by
      rw [← sum_map_one]; rfl
    rw [this, Double.toNat_finite, Nat.floor_natCast]
  · show (vadd _ _).getD 2 0 = _
    rw [getD_accumulated_finite w rows 2 hw h (by omega) (by omega)]
    rfl
  · show (vadd _ _).getD 3 0 = _
    rw [getD_accumulated_finite w rows 3 hw h (by omega) (by omega)]
    rfl
  · apply ext_getD
    · simp only [X_transp_Y, hbw, mStorage_ofArray, List.length_take, List.length_drop, hlen,
        xtyList, List.length_map, List.length_range]
      omega
    · intro i hi
      have hi' : i < w := by
        simp only [X_transp_Y, hbw, mStorage_ofArray, List.length_take] at hi; omega
      simp only [X_transp_Y, hbw, mStorage_ofArray]
      rw [getD_take_drop _ _ _ _ hi',
        getD_accumulated_finite w rows (4 + i) hw h (by omega) (by omega), getD_map_finite]
      congr 1
      simp only [xtyList, List.getD_eq_getElem?_getD, List.getElem?_map,
        List.getElem?_range hi', Option.map_some', Option.getD_some]
      congr 1
      apply List.map_congr_left
      intro r _
      have e0 : ¬ (4 + i = 0) := by omega
      have e2 : ¬ (4 + i = 2) := by omega
      have e3 : ¬ (4 + i = 3) := by omega
      have e4 : 4 ≤ 4 + i ∧ 4 + i < 4 + w := by omega
      simp only [entryQ, if_neg e0, if_neg e2, if_neg e3, if_pos e4, Nat.add_sub_cancel_left,
        List.getD_eq_getElem?_getD]
  · apply ext_getD
    · simp only [X_transp_X, hbw, mStorage_ofArray, List.length_take, List.length_drop, hlen,
        gramList, List.length_map, List.length_range]
      omega
    · intro i hi
      have hi' : i < w * w := by
        simp only [X_transp_X, hbw, mStorage_ofArray, List.length_take] at hi; omega
      simp only [X_transp_X, hbw, mStorage_ofArray]
      rw [getD_take_drop _ _ _ _ hi',
        getD_accumulated_finite w rows _ hw h (by omega) (by omega), getD_map_finite]
      congr 1
      simp only [gramList, List.getD_eq_getElem?_getD, List.getElem?_map,
        List.getElem?_range hi', Option.map_some', Option.getD_some]
      congr 1
      apply List.map_congr_left
      intro r _
      have e0 : ¬ (4 + w + w % 2 + i = 0) := by omega
      have e2 : ¬ (4 + w + w % 2 + i = 2) := by omega
      have e3 : ¬ (4 + w + w % 2 + i = 3) := by omega
      have e4 : ¬ (4 ≤ 4 + w + w % 2 + i ∧ 4 + w + w % 2 + i < 4 + w) := by omega
      have e5 : 4 + w + w % 2 ≤ 4 + w + w % 2 + i ∧
          4 + w + w % 2 + i < 4 + w + w % 2 + w * w := by omega
      simp only [entryQ, if_neg e0, if_neg e2, if_neg e3, if_neg e4, if_pos e5,
        Nat.add_sub_cancel_left, List.getD_eq_getElem?_getD]

/-! ## Lemmas: arithmetic on finite doubles -/

namespace Double

@[simp] theorem finite_sub_finite (a b : ℚ) : finite a - finite b = finite (a - b) := by
  show Double.add (finite a) (Double.neg (finite b)) = _
  simp only [Double.neg, Double.add, sub_eq_add_neg]

theorem finite_div_finite (a b : ℚ) (hb : b ≠ 0) : finite a / finite b = finite (a / b) := by
  show Double.div (finite a) (finite b) = _
  simp only [Double.div, hb, if_false]

@[simp] theorem lt_finite (a b : ℚ) : Double.lt (finite a) (finite b) = decide (a < b) := rfl

@[simp] theorem eq_finite (a b : ℚ) : Double.eq (finite a) (finite b) = decide (a = b) := rfl

end Double

theorem dot_finite (a b : List ℚ) :
    dot (a.map Double.finite) (b.map Double.finite) = Double.finite (dotQ a b) := by
  unfold dot dotQ
  rw [← sum_map_finite]
  congr 1
  induction a generalizing b with
  | nil => simp
  | cons x a ih =>
    cases b with
    | nil => simp
    | cons y b => simp only [List.map_cons, List.zipWith_cons_cons, ih, Double.finite_mul_finite]

theorem matVec_finite (w : ℕ) (P c : List ℚ) :
    matVec w (P.map Double.finite) (c.map Double.finite)
      = ((List.range w).map (fun i =>
          ((List.range w).map (fun j => P.getD (i + j * w) 0 * c.getD j 0)).sum)).map
            Double.finite := by
  unfold matVec
  rw [List.map_map]
  apply List.map_congr_left
  intro i _
  simp only [Function.comp, getD_map_finite, Double.finite_mul_finite]
  rw [← sum_map_finite, List.map_map]
  rfl

/-- The sanity adjustments of `linregr_final` when the raw `ess` and `tss` are
the same finite value: `ess = tss` and `r2 = 1`. -/
theorem clamp_equal (t : ℚ) :
    (if Double.lt (if Double.lt (Double.finite t) 0 then 0 else Double.finite t)
          (if Double.lt (Double.finite t) 0 then 0 else Double.finite t)
        then (if Double.lt (Double.finite t) 0 then 0 else Double.finite t)
        else (if Double.lt (Double.finite t) 0 then 0 else Double.finite t))
      = (if Double.lt (Double.finite t) 0 then 0 else Double.finite t) ∧
    (if Double.eq (if Double.lt (Double.finite t) 0 then 0 else Double.finite t) 0 then 1
      else (if Double.lt (Double.finite t) 0 then 0 else Double.finite t)
        / (if Double.lt (Double.finite t) 0 then 0 else Double.finite t)) = (1 : Double) := by
  constructor
  · exact ite_self _
  · by_cases h : t < 0
    · simp [Double.zero_eq_finite, h]
    · by_cases h0 : t = 0
      · simp [Double.zero_eq_finite, h0]
      · simp only [Double.zero_eq_finite, Double.lt_finite, h, decide_False, Bool.false_eq_true,
          if_false, Double.eq_finite, h0, Double.finite_div_finite t t h0, div_self h0]
        rfl

/-! ## Lemmas: sums -/

theorem list_sum_range (w : ℕ) (f : ℕ → ℚ) :
    ((List.range w).map f).sum = ∑ j ∈ Finset.range w, f j := by
  induction w with
  | zero => simp
  | succ n ih =>
    rw [List.range_succ, List.map_append, List.sum_append, ih, Finset.sum_range_succ]
    simp

theorem dotQ_eq_sum (w : ℕ) (a b : List ℚ) (ha : a.length = w) (hb : b.length = w) :
    dotQ a b = ∑ j ∈ Finset.range w, a.getD j 0 * b.getD j 0 := by
  induction a generalizing b w with
  | nil =>
    simp only [List.length_nil] at ha
    subst ha
    simp [dotQ]
  | cons x a ih =>
    cases b with
    | nil =>
      simp only [List.length_cons, List.length_nil] at ha hb
      omega
    | cons y b =>
      cases w with
      | zero => simp at ha
      | succ n =>
        have := ih n b (by simpa using ha) (by simpa using hb)
        rw [Finset.sum_range_succ']
        simp only [dotQ, List.zipWith_cons_cons, List.sum_cons, List.getD_cons_succ,
          List.getD_cons_zero] at this ⊢
        rw [this]
        ring

/-! ## Lemmas: the normal equations of an exact dataset -/

theorem sum_rows_swap (w : ℕ) (rows : List (ℚ × List ℚ)) (f : ℚ × List ℚ → ℕ → ℚ)
    (g : ℕ → ℚ) :
    ∑ j ∈ Finset.range w, (rows.map (fun r => f r j)).sum * g j
      = (rows.map (fun r => ∑ j ∈ Finset.range w, f r j * g j)).sum := by
  induction rows with
  | nil => simp
  | cons r rs ih =>
    simp only [List.map_cons, List.sum_cons, add_mul, Finset.sum_add_distrib, ih]

@[simp] theorem length_xtyList (w : ℕ) (rows : List (ℚ × List ℚ)) :
    (xtyList w rows).length = w := by
  simp [xtyList]

theorem getD_xtyList (w : ℕ) (rows : List (ℚ × List ℚ)) (j : ℕ) (hj : j < w) :
    (xtyList w rows).getD j 0 = (rows.map (fun r => r.2.getD j 0 * r.1)).sum := by
  simp only [xtyList, List.getD_eq_getElem?_getD, List.getElem?_map, List.getElem?_range hj,
    Option.map_some', Option.getD_some]

theorem getD_gramList (w : ℕ) (rows : List (ℚ × List ℚ)) (i j : ℕ) (hi : i < w) (hj : j < w) :
    (gramList w rows).getD (i + j * w) 0
      = (rows.map (fun r => r.2.getD i 0 * r.2.getD j 0)).sum := by
  have hlt := index_lt_sq w i j hi hj
  have h1 : (i + j * w) % w = i := by
    rw [Nat.add_mul_mod_self_right]; exact Nat.mod_eq_of_lt hi
  have h2 : (i + j * w) / w = j := by
    rw [Nat.add_mul_div_right _ _ (by omega), Nat.div_eq_of_lt hi, Nat.zero_add]
  simp only [gramList, List.getD_eq_getElem?_getD, List.getElem?_map, List.getElem?_range hlt,
    Option.map_some', Option.getD_some, h1, h2]

/-- For a dataset with `y = x . beta` in every row, `beta . (X^T y)` is the sum of the `y^2`. -/
theorem dotQ_xtyList (w : ℕ) (rows : List (ℚ × List ℚ)) (β : List ℚ) (hβ : β.length = w)
    (h : ∀ r ∈ rows, r.2.length = w ∧ r.1 = dotQ r.2 β) :
    dotQ (xtyList w rows) β = (rows.map (fun r => r.1 * r.1)).sum := by
  rw [dotQ_eq_sum w _ _ (length_xtyList w rows) hβ]
  have e : ∑ j ∈ Finset.range w, (xtyList w rows).getD j 0 * β.getD j 0
      = ∑ j ∈ Finset.range w, (rows.map (fun r => r.2.getD j 0 * r.1)).sum * β.getD j 0 :=
    Finset.sum_congr rfl (fun j hj => by rw [getD_xtyList w rows j (Finset.mem_range.mp hj)])
  rw [e, sum_rows_swap w rows (fun r j => r.2.getD j 0 * r.1) (fun j => β.getD j 0)]
  congr 1
  apply List.map_congr_left
  intro r hr
  obtain ⟨hl, hy⟩ := h r hr
  have hd := dotQ_eq_sum w r.2 β hl hβ
  calc ∑ j ∈ Finset.range w, r.2.getD j 0 * r.1 * β.getD j 0
      = r.1 * ∑ j ∈ Finset.range w, r.2.getD j 0 * β.getD j 0 := by
        rw [Finset.mul_sum]; exact Finset.sum_congr rfl (fun j _ => by ring)
    _ = r.1 * r.1 := by rw [← hd, ← hy]

/-- For a dataset with `y = x . beta` in every row, `X^T y = (X^T X) beta`. -/
theorem xtyList_eq_mulVec (w : ℕ) (rows : List (ℚ × List ℚ)) (β : List ℚ) (hβ : β.length = w)
    (h : ∀ r ∈ rows, r.2.length = w ∧ r.1 = dotQ r.2 β) :
    (fun j : Fin w => (xtyList w rows).getD j 0)
      = (matrixOfList w (gramList w rows)).mulVec (fun k : Fin w => β.getD k 0) := by
  funext j
  simp only [Matrix.mulVec, Matrix.dotProduct, matrixOfList]
  rw [← Finset.sum_range (fun k => (gramList w rows).getD (j + k * w) 0 * β.getD k 0)]
  have e : ∑ k ∈ Finset.range w, (gramList w rows).getD (j + k * w) 0 * β.getD k 0
      = ∑ k ∈ Finset.range w,
          (rows.map (fun r => r.2.getD j 0 * r.2.getD k 0)).sum * β.getD k 0 :=
    Finset.sum_congr rfl (fun k hk => by
      rw [getD_gramList w rows j k j.isLt (Finset.mem_range.mp hk)])
  rw [e, sum_rows_swap w rows (fun r k => r.2.getD j 0 * r.2.getD k 0) (fun k => β.getD k 0),
    getD_xtyList w rows j j.isLt]
  congr 1
  apply List.map_congr_left
  intro r hr
  obtain ⟨hl, hy⟩ := h r hr
  have hd := dotQ_eq_sum w r.2 β hl hβ
  calc r.2.getD j 0 * r.1
      = r.2.getD j 0 * ∑ k ∈ Finset.range w, r.2.getD k 0 * β.getD k 0 := by rw [hy, hd]
    _ = ∑ k ∈ Finset.range w, r.2.getD j 0 * r.2.getD k 0 * β.getD k 0 := by
        rw [Finset.mul_sum]; exact Finset.sum_congr rfl (fun k _ => by ring)

/-- A matrix `P` with `G P G = G` is a left inverse of a nonsingular `G`. -/
theorem left_inverse_of_moorePenrose {w : ℕ} (G P : Matrix (Fin w) (Fin w) ℚ)
    (hdet : G.det ≠ 0) (h : G * P * G = G) : P * G = 1 := by
  have hu : IsUnit G.det := isUnit_iff_ne_zero.mpr hdet
  calc P * G = (G⁻¹ * G) * (P * G) := by rw [Matrix.nonsing_inv_mul G hu, Matrix.one_mul]
    _ = G⁻¹ * (G * P * G) := by simp only [Matrix.mul_assoc]
    _ = G⁻¹ * G := by rw [h]
    _ = 1 := Matrix.nonsing_inv_mul G hu

/-- The coefficients `P (X^T y)` are `beta` when `P` is the pseudo-inverse of a
nonsingular `X^T X` and `y = x . beta` in every row. -/
theorem coef_eq_beta (w : ℕ) (rows : List (ℚ × List ℚ)) (β P : List ℚ) (hβ : β.length = w)
    (h : ∀ r ∈ rows, r.2.length = w ∧ r.1 = dotQ r.2 β)
    (hdet : (matrixOfList w (gramList w rows)).det ≠ 0)
    (hP : IsMoorePenrose (matrixOfList w (gramList w rows)) (matrixOfList w P)) :
    (List.range w).map (fun i =>
        ((List.range w).map (fun j => P.getD (i + j * w) 0 * (xtyList w rows).getD j 0)).sum)
      = β := by
  have hinv := left_inverse_of_moorePenrose _ _ hdet hP.1
  have hc := xtyList_eq_mulVec w rows β hβ h
  apply List.ext_getElem
  · simp [hβ]
  · intro i h1 h2
    have hi : i < w := by simpa using h1
    simp only [List.getElem_map, List.getElem_range]
    rw [list_sum_range, Finset.sum_range (fun j => P.getD (i + j * w) 0 * (xtyList w rows).getD j 0)]
    have e : ∑ j : Fin w, P.getD (i + ↑j * w) 0 * (xtyList w rows).getD (↑j) 0
        = ((matrixOfList w P).mulVec
            (fun j : Fin w => (xtyList w rows).getD j 0)) ⟨i, hi⟩ := rfl
    rw [e, hc, Matrix.mulVec_mulVec, hinv, Matrix.one_mulVec]
    simp only [List.getD_eq_getElem?_getD, List.getElem?_eq_getElem h2, Option.getD_some]

theorem gram_nil_det (w : ℕ) (hw : 0 < w) : (matrixOfList w (gramList w [])).det = 0 := by
  have : matrixOfList w (gramList w []) = 0 := by
    funext i j
    have := getD_gramList w [] i j i.isLt j.isLt
    simp only [matrixOfList, this, List.map_nil, List.sum_nil, Matrix.zero_apply]
  rw [this]
  haveI : Nonempty (Fin w) := ⟨⟨0, hw⟩⟩
  exact Matrix.det_zero ‹_›

/-! ## Lemmas: the fields of the final result -/

/-- What `linregr_final` returns for a state whose vector and matrix are finite. -/
theorem linregr_final_fields (pseudoInverse : ℕ → List Double → List Double)
    (conditionNo : ℕ → List Double → Double) (sqrt : Double → Double) (A : List Double)
    (h1 : isfinite (ofArray A).X_transp_X = true) (h2 : isfinite (ofArray A).X_transp_Y = true) :
    ∃ res, linregr_final pseudoInverse conditionNo sqrt A = .ok res ∧
      res.coef = matVec (ofArray A).boundWidth
        (pseudoInverse (ofArray A).boundWidth (ofArray A).X_transp_X) (ofArray A).X_transp_Y ∧
      res.tss =
        (if Double.lt ((ofArray A).y_square_sum
            - (ofArray A).y_sum * (ofArray A).y_sum / ((ofArray A).numRows : Double)) 0 then 0
          else (ofArray A).y_square_sum
            - (ofArray A).y_sum * (ofArray A).y_sum / ((ofArray A).numRows : Double)) ∧
      res.ess =
        (if Double.lt res.tss
            (if Double.lt (dot (ofArray A).X_transp_Y res.coef
                - (ofArray A).y_sum * (ofArray A).y_sum / ((ofArray A).numRows : Double)) 0 then 0
              else dot (ofArray A).X_transp_Y res.coef
                - (ofArray A).y_sum * (ofArray A).y_sum / ((ofArray A).numRows : Double))
          then res.tss
          else (if Double.lt (dot (ofArray A).X_transp_Y res.coef
                - (ofArray A).y_sum * (ofArray A).y_sum / ((ofArray A).numRows : Double)) 0 then 0
              else dot (ofArray A).X_transp_Y res.coef
                - (ofArray A).y_sum * (ofArray A).y_sum / ((ofArray A).numRows : Double))) ∧
      res.r2 = (if Double.eq res.tss 0 then 1 else res.ess / res.tss) ∧
      res.rss = res.tss - res.ess ∧
      res.variance = res.rss /
        ((((ofArray A).numRows % 2 ^ 64 + 2 ^ 64 - (ofArray A).widthOfX) % 2 ^ 64 : ℕ) : Double) ∧
      res.stdErr = (List.range (ofArray A).widthOfX).map (fun i =>
        (linregr_final_stat sqrt res.variance (ofArray A).boundWidth
          (pseudoInverse (ofArray A).boundWidth (ofArray A).X_transp_X) res.coef i).1) ∧
      res.tStats = (List.range (ofArray A).widthOfX).map (fun i =>
        (linregr_final_stat sqrt res.variance (ofArray A).boundWidth
          (pseudoInverse (ofArray A).boundWidth (ofArray A).X_transp_X) res.coef i).2) ∧
      res.pValues = List.replicate (ofArray A).widthOfX 0 := by
  simp only [linregr_final, h1, h2, Bool.not_true, Bool.or_self, Bool.false_eq_true, if_false,
    List.map_map]
  exact ⟨_, rfl, rfl, rfl, rfl, rfl, rfl, rfl, rfl, rfl, rfl⟩

/-- A call of `linregr_final` that returns saw a finite vector and matrix. -/
theorem linregr_final_ok_finite (pseudoInverse : ℕ → List Double → List Double)
    (conditionNo : ℕ → List Double → Double) (sqrt : Double → Double) (A : List Double)
    (res : LinRegrResult) (h : linregr_final pseudoInverse conditionNo sqrt A = .ok res) :
    isfinite (ofArray A).X_transp_X = true ∧ isfinite (ofArray A).X_transp_Y = true := by
  cases h1 : isfinite (ofArray A).X_transp_X
  · simp [linregr_final, h1] at h
  · cases h2 : isfinite (ofArray A).X_transp_Y
    · simp [linregr_final, h1, h2] at h
    · exact ⟨rfl, rfl⟩

theorem double_eq_zero_iff (d : Double) : Double.eq d 0 = true ↔ d = 0 := by
  cases d with
  | finite q =>
    simp only [Double.zero_eq_finite, Double.eq_finite, decide_eq_true_eq]
    constructor
    · intro h; rw [h]
    · intro h; exact Double.finite.inj h
  | posInf => simp [Double.zero_eq_finite, Double.eq]
  | negInf => simp [Double.zero_eq_finite, Double.eq]
  | nan => simp [Double.zero_eq_finite, Double.eq]

theorem sum_map_const_fst (rows : List (ℚ × List ℚ)) (c : ℚ) (h : ∀ r ∈ rows, r.1 = c) :
    (rows.map (fun r => r.1)).sum = (rows.length : ℚ) * c ∧
    (rows.map (fun r => r.1 * r.1)).sum = (rows.length : ℚ) * (c * c) := by
  induction rows with
  | nil => simp
  | cons r rs ih =>
    obtain ⟨i1, i2⟩ := ih (fun q hq => h q (List.mem_cons_of_mem _ hq))
    have hr := h r (List.mem_cons_self _ _)
    simp only [List.map_cons, List.sum_cons, i1, i2, hr, List.length_cons]
    push_cast
    constructor <;> ring

/-- The p-values that `linregr_final` returns are all zero: the loop that
would compute them is commented out. -/
theorem linregr_final_pValues_zero (pseudoInverse : ℕ → List Double → List Double)
    (conditionNo : ℕ → List Double → Double) (sqrt : Double → Double) (A : List Double)
    (res : LinRegrResult) (h : linregr_final pseudoInverse conditionNo sqrt A = .ok res) :
    res.pValues = List.replicate (ofArray A).widthOfX 0 := by
  obtain ⟨h1, h2⟩ := linregr_final_ok_finite _ _ _ _ _ h
  obtain ⟨r, hr, -, -, -, -, -, -, -, -, hp⟩ :=
    linregr_final_fields pseudoInverse conditionNo sqrt A h1 h2
  rw [h] at hr
  cases hr
  exact hp

/-! ## Lemmas: views and block updates -/

theorem getD_addBlock_disjoint (s : List Double) (off : ℕ) (v : List Double) (k : ℕ)
    (hd : k < off ∨ off + v.length ≤ k) : (addBlock s off v).getD k 0 = s.getD k 0 := by
  by_cases hk : k < s.length
  · rw [getD_addBlock s off v k hk, if_neg (by omega), add_zero]
  · rw [getD_eq_zero_of_le _ k (by simp; omega), getD_eq_zero_of_le s k (by omega)]

theorem getD_addBlock_same (s : List Double) (off : ℕ) (d : Double) (h : off < s.length) :
    (addBlock s off [d]).getD off 0 = s.getD off 0 + d := by
  rw [getD_addBlock s off [d] off h, if_pos (by simp)]
  simp

theorem take_drop_addBlock_disjoint (s : List Double) (off : ℕ) (v : List Double)
    (off' len : ℕ) (hd : off' + len ≤ off ∨ off + v.length ≤ off') :
    ((addBlock s off v).drop off').take len = (s.drop off').take len := by
  apply ext_getD
  · simp
  · intro i hi
    have hi' : i < len := by
      simp only [List.length_take] at hi; omega
    rw [getD_take_drop _ _ _ _ hi', getD_take_drop _ _ _ _ hi',
      getD_addBlock_disjoint _ _ _ _ (by omega)]

theorem take_drop_addBlock_same (s : List Double) (off : ℕ) (v : List Double)
    (h : off + v.length ≤ s.length) :
    ((addBlock s off v).drop off).take v.length = vadd ((s.drop off).take v.length) v := by
  apply ext_getD
  · simp
  · intro i hi
    have hi' : i < v.length := by
      simp only [List.length_take] at hi; omega
    rw [getD_take_drop _ _ _ _ hi', getD_addBlock _ _ _ _ (by omega), if_pos (by omega),
      getD_vadd _ _ _ (by simp; omega) hi', getD_take_drop _ _ _ _ hi', Nat.add_sub_cancel_left]

theorem take_drop_addBlock_same_len (s : List Double) (off : ℕ) (v : List Double) (len : ℕ)
    (h : off + v.length ≤ s.length) (hl : v.length = len) :
    ((addBlock s off v).drop off).take len = vadd ((s.drop off).take len) v := by
  subst hl
  exact take_drop_addBlock_same s off v h

/-! ## Lemmas: the Cox transition -/

theorem cox_accumulate_eq_coxRow (exp log : Double → Double) (m : List Double) (w : ℕ)
    (x : List Double) (hm : m.length = 4 + 3 * w + 2 * (w * w)) (hx : x.length = w) :
    (CoxPropHazardsTransitionState.accumulate exp log { mStorage := m, boundWidth := w } x).mStorage
      = coxRow exp log m w x := by
  simp only [CoxPropHazardsTransitionState.accumulate, CoxPropHazardsTransitionState.coef,
    CoxPropHazardsTransitionState.S, CoxPropHazardsTransitionState.H,
    CoxPropHazardsTransitionState.V, coxRow]
  rw [take_drop_addBlock_disjoint m 0 [1] 2 w (Or.inr (by first | omega | (simp [hx] <;> omega)))]
  set sv := exp (dot (List.take w (List.drop 2 m)) x) with hsv
  set m4 := addBlock (addBlock (addBlock (addBlock m 0 [1]) (2 + w) [sv]) (3 + w)
    (List.map (fun a => sv * a) x)) (4 + 3 * w) (List.map (fun a => a * sv) (outer x)) with hm4
  have hS4 : m4.getD (2 + w) 0 = m.getD (2 + w) 0 + sv := by
    rw [hm4, getD_addBlock_disjoint _ _ _ _ (by first | omega | (simp [hx] <;> omega)),
      getD_addBlock_disjoint _ _ _ _ (by first | omega | (simp [hx] <;> omega)), getD_addBlock_same _ _ _ (by first | omega | (simp [hx] <;> omega)),
      getD_addBlock_disjoint _ _ _ _ (by first | omega | (simp [hx] <;> omega))]
  have hH4 : List.take w (List.drop (3 + w) m4)
      = vadd (List.take w (List.drop (3 + w) m)) (List.map (fun a => sv * a) x) := by
    have hl : (List.map (fun a => sv * a) x).length = w := by simp [hx]
    rw [hm4, take_drop_addBlock_disjoint _ _ _ _ _ (by first | omega | (simp [hx] <;> omega))]
    conv_lhs => rw [← hl]
    rw [take_drop_addBlock_same _ _ _ (by first | omega | (simp [hx] <;> omega)), hl,
      take_drop_addBlock_disjoint _ _ _ _ _ (by first | omega | (simp [hx] <;> omega)),
      take_drop_addBlock_disjoint _ _ _ _ _ (by first | omega | (simp [hx] <;> omega))]
  have hV4 : List.take (w * w) (List.drop (4 + 3 * w) m4)
      = vadd (List.take (w * w) (List.drop (4 + 3 * w) m))
          (List.map (fun a => a * sv) (outer x)) := by
    have hl : (List.map (fun a => a * sv) (outer x)).length = w * w := by simp [hx]
    rw [hm4]
    conv_lhs => rw [← hl]
    rw [take_drop_addBlock_same _ _ _ (by first | omega | (simp [hx] <;> omega)), hl,
      take_drop_addBlock_disjoint _ _ _ _ _ (by first | omega | (simp [hx] <;> omega)),
      take_drop_addBlock_disjoint _ _ _ _ _ (by first | omega | (simp [hx] <;> omega)),
      take_drop_addBlock_disjoint _ _ _ _ _ (by first | omega | (simp [hx] <;> omega))]
  rw [hS4, hH4]
  set S1 := m.getD (2 + w) 0 + sv with hS1
  set H1 := vadd (List.take w (List.drop (3 + w) m)) (List.map (fun a => sv * a) x) with hH1
  set m5 := addBlock m4 (3 + 2 * w)
    (List.zipWith (fun a b => a - b) x (List.map (fun a => a / S1) H1)) with hm5
  have hS5 : m5.getD (2 + w) 0 = S1 := by
    rw [hm5, getD_addBlock_disjoint _ _ _ _ (by first | omega | (simp [hx] <;> omega)), hS4]
  have hH5 : List.take w (List.drop (3 + w) m5) = H1 := by
    rw [hm5, take_drop_addBlock_disjoint _ _ _ _ _ (by first | omega | (simp [hx] <;> omega)), hH4]
  have hV5 : List.take (w * w) (List.drop (4 + 3 * w) m5)
      = vadd (List.take (w * w) (List.drop (4 + 3 * w) m))
          (List.map (fun a => a * sv) (outer x)) := by
    have hl : (List.zipWith (fun a b => a - b) x (List.map (fun a => a / S1) H1)).length ≤ w := by
      simp [hx]
    rw [hm5, take_drop_addBlock_disjoint _ _ _ _ _ (by first | omega | (simp [hx] <;> omega)), hV4]
  rw [hS5, hH5, hV5]
  set V1 := vadd (List.take (w * w) (List.drop (4 + 3 * w) m))
    (List.map (fun a => a * sv) (outer x)) with hV1
  set m6 := addBlock m5 (4 + 3 * w + w * w)
    (List.zipWith (fun a b => a - b) (List.map (fun a => a / (S1 * S1)) (outer H1))
      (List.map (fun a => a / S1) V1)) with hm6
  have hS6 : m6.getD (2 + w) 0 = S1 := by
    rw [hm6, getD_addBlock_disjoint _ _ _ _ (by first | omega | (simp [hx] <;> omega)), hS5]
  rw [hS6]

theorem coxRow_reads (exp log : Double → Double) (m : List Double) (w : ℕ)
    (x : List Double) (hm : m.length = 4 + 3 * w + 2 * (w * w)) (hx : x.length = w) :
    (coxRow exp log m w x).length = m.length ∧
    (coxRow exp log m w x).getD 0 0 = m.getD 0 0 + 1 ∧
    (coxRow exp log m w x).getD 1 0 = m.getD 1 0 ∧
    ((coxRow exp log m w x).drop 2).take w = (m.drop 2).take w ∧
    (coxRow exp log m w x).getD (2 + w) 0
      = m.getD (2 + w) 0 + exp (dot ((m.drop 2).take w) x) ∧
    ((coxRow exp log m w x).drop (3 + w)).take w
      = vadd ((m.drop (3 + w)).take w) (x.map (exp (dot ((m.drop 2).take w) x) * ·)) ∧
    ((coxRow exp log m w x).drop (4 + 3 * w)).take (w * w)
      = vadd ((m.drop (4 + 3 * w)).take (w * w))
          ((outer x).map (· * exp (dot ((m.drop 2).take w) x))) ∧
    ((coxRow exp log m w x).drop (3 + 2 * w)).take w
      = vadd ((m.drop (3 + 2 * w)).take w)
          (List.zipWith (· - ·) x
            ((((coxRow exp log m w x).drop (3 + w)).take w).map
              (· / (coxRow exp log m w x).getD (2 + w) 0))) ∧
    ((coxRow exp log m w x).drop (4 + 3 * w + w * w)).take (w * w)
      = vadd ((m.drop (4 + 3 * w + w * w)).take (w * w))
          (List.zipWith (· - ·)
            ((outer (((coxRow exp log m w x).drop (3 + w)).take w)).map
              (· / ((coxRow exp log m w x).getD (2 + w) 0
                * (coxRow exp log m w x).getD (2 + w) 0)))
            ((((coxRow exp log m w x).drop (4 + 3 * w)).take (w * w)).map
              (· / (coxRow exp log m w x).getD (2 + w) 0))) ∧
    (coxRow exp log m w x).getD (3 + 3 * w) 0
      = m.getD (3 + 3 * w) 0
        + (dot ((m.drop 2).take w) x - log ((coxRow exp log m w x).getD (2 + w) 0)) := by
  have hr : coxRow exp log m w x = coxRow exp log m w x := rfl
  conv_rhs at hr => simp only [coxRow]
  set r := coxRow exp log m w x with hrdef
  set sv := exp (dot (List.take w (List.drop 2 m)) x) with hsv
  set S1 := m.getD (2 + w) 0 + sv with hS1
  set H1 := vadd (List.take w (List.drop (3 + w) m)) (List.map (fun a => sv * a) x) with hH1
  set V1 := vadd (List.take (w * w) (List.drop (4 + 3 * w) m))
    (List.map (fun a => a * sv) (outer x)) with hV1
  set G := List.zipWith (fun a b => a - b) x (List.map (fun a => a / S1) H1) with hG
  set Hs := List.zipWith (fun a b => a - b) (List.map (fun a => a / (S1 * S1)) (outer H1))
    (List.map (fun a => a / S1) V1) with hHs
  have lH1 : H1.length = w := by simp [hH1, hx, hm]; omega
  have lV1 : V1.length = w * w := by simp [hV1, hx, hm]; omega
  have lG : G.length = w := by simp [hG, lH1, hx]
  have lHs : Hs.length = w * w := by simp [hHs, lH1, lV1]
  have lHd : (List.map (fun a => sv * a) x).length = w := by simp [hx]
  have lVd : (List.map (fun a => a * sv) (outer x)).length = w * w := by simp [hx]
  have l1 : ([sv] : List Double).length = 1 := rfl
  have rS : r.getD (2 + w) 0 = S1 := by
    rw [hr, getD_addBlock_disjoint _ _ _ _ (by simp only [List.length_singleton]; omega),
      getD_addBlock_disjoint _ _ _ _ (by omega),
      getD_addBlock_disjoint _ _ _ _ (by omega),
      getD_addBlock_disjoint _ _ _ _ (by omega),
      getD_addBlock_disjoint _ _ _ _ (by omega),
      getD_addBlock_same _ _ _ (by simp only [length_addBlock]; omega),
      getD_addBlock_disjoint _ _ _ _ (by simp only [List.length_singleton]; omega)]
  have rH : (r.drop (3 + w)).take w = H1 := by
    rw [hr, take_drop_addBlock_disjoint _ _ _ _ _ (by simp only [List.length_singleton]; omega),
      take_drop_addBlock_disjoint _ _ _ _ _ (by omega),
      take_drop_addBlock_disjoint _ _ _ _ _ (by omega),
      take_drop_addBlock_disjoint _ _ _ _ _ (by omega),
      take_drop_addBlock_same_len _ _ _ _ (by simp only [length_addBlock]; omega) lHd,
      take_drop_addBlock_disjoint _ _ _ _ _ (by simp only [List.length_singleton]; omega),
      take_drop_addBlock_disjoint _ _ _ _ _ (by simp only [List.length_singleton]; omega)]
  have rV : (r.drop (4 + 3 * w)).take (w * w) = V1 := by
    rw [hr, take_drop_addBlock_disjoint _ _ _ _ _ (by simp only [List.length_singleton]; omega),
      take_drop_addBlock_disjoint _ _ _ _ _ (by omega),
      take_drop_addBlock_disjoint _ _ _ _ _ (by omega),
      take_drop_addBlock_same_len _ _ _ _ (by simp only [length_addBlock]; omega) lVd,
      take_drop_addBlock_disjoint _ _ _ _ _ (by omega),
      take_drop_addBlock_disjoint _ _ _ _ _ (by simp only [List.length_singleton]; omega),
      take_drop_addBlock_disjoint _ _ _ _ _ (by simp only [List.length_singleton]; omega)]
  rw [rS, rH, rV]
  refine ⟨?_, ?_, ?_, ?_, rfl, rfl, rfl, ?_, ?_, ?_⟩
  · rw [hr]; simp only [length_addBlock]
  · rw [hr, getD_addBlock_disjoint _ _ _ _ (by simp only [List.length_singleton]; omega),
      getD_addBlock_disjoint _ _ _ _ (by omega),
      getD_addBlock_disjoint _ _ _ _ (by omega),
      getD_addBlock_disjoint _ _ _ _ (by omega),
      getD_addBlock_disjoint _ _ _ _ (by omega),
      getD_addBlock_disjoint _ _ _ _ (by simp only [List.length_singleton]; omega),
      getD_addBlock_same _ _ _ (by omega)]
  · rw [hr, getD_addBlock_disjoint _ _ _ _ (by simp only [List.length_singleton]; omega),
      getD_addBlock_disjoint _ _ _ _ (by omega),
      getD_addBlock_disjoint _ _ _ _ (by omega),
      getD_addBlock_disjoint _ _ _ _ (by omega),
      getD_addBlock_disjoint _ _ _ _ (by omega),
      getD_addBlock_disjoint _ _ _ _ (by simp only [List.length_singleton]; omega),
      getD_addBlock_disjoint _ _ _ _ (by simp only [List.length_singleton]; omega)]
  · rw [hr, take_drop_addBlock_disjoint _ _ _ _ _ (by simp only [List.length_singleton]; omega),
      take_drop_addBlock_disjoint _ _ _ _ _ (by omega),
      take_drop_addBlock_disjoint _ _ _ _ _ (by omega),
      take_drop_addBlock_disjoint _ _ _ _ _ (by omega),
      take_drop_addBlock_disjoint _ _ _ _ _ (by omega),
      take_drop_addBlock_disjoint _ _ _ _ _ (by simp only [List.length_singleton]; omega),
      take_drop_addBlock_disjoint _ _ _ _ _ (by simp only [List.length_singleton]; omega)]
  · rw [hr, take_drop_addBlock_disjoint _ _ _ _ _ (by simp only [List.length_singleton]; omega),
      take_drop_addBlock_disjoint _ _ _ _ _ (by omega),
      take_drop_addBlock_same_len _ _ _ _ (by simp only [length_addBlock]; omega) lG,
      take_drop_addBlock_disjoint _ _ _ _ _ (by omega),
      take_drop_addBlock_disjoint _ _ _ _ _ (by omega),
      take_drop_addBlock_disjoint _ _ _ _ _ (by simp only [List.length_singleton]; omega),
      take_drop_addBlock_disjoint _ _ _ _ _ (by simp only [List.length_singleton]; omega)]
  · rw [hr, take_drop_addBlock_disjoint _ _ _ _ _ (by simp only [List.length_singleton]; omega),
      take_drop_addBlock_same_len _ _ _ _ (by simp only [length_addBlock]; omega) lHs,
      take_drop_addBlock_disjoint _ _ _ _ _ (by omega),
      take_drop_addBlock_disjoint _ _ _ _ _ (by omega),
      take_drop_addBlock_disjoint _ _ _ _ _ (by omega),
      take_drop_addBlock_disjoint _ _ _ _ _ (by simp only [List.length_singleton]; omega),
      take_drop_addBlock_disjoint _ _ _ _ _ (by simp only [List.length_singleton]; omega)]
  · rw [hr, getD_addBlock_same _ _ _ (by simp only [length_addBlock]; omega),
      getD_addBlock_disjoint _ _ _ _ (by omega),
      getD_addBlock_disjoint _ _ _ _ (by omega),
      getD_addBlock_disjoint _ _ _ _ (by omega),
      getD_addBlock_disjoint _ _ _ _ (by omega),
      getD_addBlock_disjoint _ _ _ _ (by simp only [List.length_singleton]; omega),
      getD_addBlock_disjoint _ _ _ _ (by simp only [List.length_singleton]; omega)]

theorem cox_arraySize_eq (w : ℕ) (h : w ≤ 32767) :
    CoxPropHazardsTransitionState.arraySize w = 4 + 3 * w + 2 * (w * w) := by
  have h2 : w * w ≤ 32767 * 32767 := Nat.mul_le_mul h h
  have e : 2 * w * w = 2 * (w * w) := Nat.mul_assoc 2 w w
  unfold CoxPropHazardsTransitionState.arraySize
  simp only [e]
  have hlt : 4 + 3 * w + 2 * (w * w) < 2 ^ 31 := by norm_num; omega
  rw [Nat.mod_eq_of_lt (by omega), if_pos hlt]

theorem cox_arraySize_ge (w : ℕ) (h : w ≤ 65535) :
    2 ≤ CoxPropHazardsTransitionState.arraySize w := by
  have e : 2 * w * w = 2 * (w * w) := Nat.mul_assoc 2 w w
  unfold CoxPropHazardsTransitionState.arraySize
  simp only [e]
  by_cases hs : w ≤ 46340
  · have h2 : w * w ≤ 46340 * 46340 := Nat.mul_le_mul hs hs
    rw [Nat.mod_eq_of_lt (by norm_num; omega)]
    split <;> omega
  · have h2 : 46341 * 46341 ≤ w * w := Nat.mul_le_mul (by omega) (by omega)
    have h3 : w * w ≤ 65535 * 65535 := Nat.mul_le_mul h h
    have h4 : (4 + 3 * w + 2 * (w * w)) % 2 ^ 32 = 4 + 3 * w + 2 * (w * w) - 2 ^ 32 := by
      rw [Nat.mod_eq_sub_mod (by norm_num; omega), Nat.mod_eq_of_lt (by norm_num; omega)]
    rw [h4]
    split <;> first | omega | (norm_num; omega) | norm_num

@[simp] theorem length_fillBlock (s : List Double) (off len : ℕ) (d : Double) :
    (fillBlock s off len d).length = s.length := by
  simp [fillBlock]

theorem getD_fillBlock (s : List Double) (off len : ℕ) (d : Double) (k : ℕ)
    (hk : k < s.length) :
    (fillBlock s off len d).getD k 0 = if off ≤ k ∧ k < off + len then d else s.getD k 0 := by
  simp only [fillBlock, List.getD_eq_getElem?_getD, List.getElem?_map,
    List.getElem?_range hk, Option.map_some', Option.getD_some]

theorem getD_map_range (n : ℕ) (f : ℕ → Double) (k : ℕ) (hk : k < n) :
    ((List.range n).map f).getD k 0 = f k := by
  simp only [List.getD_eq_getElem?_getD, List.getElem?_map, List.getElem?_range hk,
    Option.map_some', Option.getD_some]

theorem boundWidth_coxSeed (w : ℕ) (previous : Option (List Double)) :
    (coxSeed w previous).boundWidth = w := by
  cases previous <;> rfl

theorem length_coxSeed (w : ℕ) (previous : Option (List Double)) :
    (coxSeed w previous).mStorage.length = CoxPropHazardsTransitionState.arraySize w := by
  cases previous
  · simp [coxSeed, CoxPropHazardsTransitionState.initializeState]
  · simp [coxSeed, CoxPropHazardsTransitionState.initializeState,
      CoxPropHazardsTransitionState.assign, CoxPropHazardsTransitionState.reset]

theorem getD_coxSeed_none (w k : ℕ) (hw : w ≤ 65535) :
    (coxSeed w none).mStorage.getD k 0 = if k = 1 then (w : Double) else 0 := by
  have h2 := cox_arraySize_ge w hw
  simp only [coxSeed, CoxPropHazardsTransitionState.initializeState]
  rw [getD_set, getD_replicate_zero]
  by_cases h : k = 1
  · subst h
    rw [if_pos ⟨rfl, by simpa using h2⟩, if_pos rfl]
  · rw [if_neg (fun hh => h hh.1.symm), if_neg h]

theorem getD_coxSeed_some (w : ℕ) (p : List Double) (k : ℕ)
    (hk : k < CoxPropHazardsTransitionState.arraySize w)
    (hl : CoxPropHazardsTransitionState.arraySize w ≤ 4 + 3 * w + 2 * (w * w)) :
    (coxSeed w (some p)).mStorage.getD k 0
      = if k = 1 ∨ (2 ≤ k ∧ k < 2 + w) then p.getD k 0 else 0 := by
  simp only [coxSeed, CoxPropHazardsTransitionState.reset,
    CoxPropHazardsTransitionState.assign, CoxPropHazardsTransitionState.initializeState]
  have hlen : ((List.replicate (CoxPropHazardsTransitionState.arraySize w) (0 : Double)).set 1
      (w : Double)).length = CoxPropHazardsTransitionState.arraySize w := by simp
  rw [getD_fillBlock _ _ _ _ _ (by simpa using hk), getD_fillBlock _ _ _ _ _ (by simpa using hk),
    getD_fillBlock _ _ _ _ _ (by simpa using hk), getD_fillBlock _ _ _ _ _ (by simpa using hk),
    getD_fillBlock _ _ _ _ _ (by simpa using hk), getD_fillBlock _ _ _ _ _ (by simpa using hk),
    getD_fillBlock _ _ _ _ _ (by simpa using hk), getD_map_range _ _ _ (by simpa using hk)]
  simp only [CoxPropHazardsTransitionState.ofArray]
  by_cases h : k = 1 ∨ (2 ≤ k ∧ k < 2 + w)
  · rw [if_pos h, if_neg (by omega), if_neg (by omega), if_neg (by omega), if_neg (by omega)]
    rw [if_neg (by omega), if_neg (by omega), if_neg (by omega)]
  · rw [if_neg h]
    by_cases h7 : 3 + 3 * w ≤ k ∧ k < 3 + 3 * w + 1
    · rw [if_pos h7]
    rw [if_neg h7]
    by_cases h6 : 4 + 3 * w + w * w ≤ k ∧ k < 4 + 3 * w + w * w + w * w
    · rw [if_pos h6]
    rw [if_neg h6]
    by_cases h5 : 3 + 2 * w ≤ k ∧ k < 3 + 2 * w + w
    · rw [if_pos h5]
    rw [if_neg h5]
    by_cases h4 : 4 + 3 * w ≤ k ∧ k < 4 + 3 * w + w * w
    · rw [if_pos h4]
    rw [if_neg h4]
    by_cases h3 : 3 + w ≤ k ∧ k < 3 + w + w
    · rw [if_pos h3]
    rw [if_neg h3]
    by_cases h2 : 2 + w ≤ k ∧ k < 2 + w + 1
    · rw [if_pos h2]
    rw [if_neg h2]
    rw [if_pos (by omega)]

theorem cox_transition_eq (exp log : Double → Double) (s x : List Double)
    (previous : Option (List Double)) :
    cox_prop_hazards_step_transition exp log s x previous
      = if !isfinite x then .error .domain_error
        else if (CoxPropHazardsTransitionState.ofArray s).numRows = 0 then
          if x.length > 65535 then .error .domain_error
          else if x.length ≠ (coxSeed (x.length % 65536) previous).boundWidth then
            .error .dimension_mismatch
          else .ok (CoxPropHazardsTransitionState.accumulate exp log
            (coxSeed (x.length % 65536) previous) x).mStorage
        else if x.length ≠ (CoxPropHazardsTransitionState.ofArray s).boundWidth then
          .error .dimension_mismatch
        else .ok (CoxPropHazardsTransitionState.accumulate exp log
          (CoxPropHazardsTransitionState.ofArray s) x).mStorage := by
  cases previous <;> rfl

theorem cox_transition_first (exp log : Double → Double) (s x : List Double)
    (previous : Option (List Double)) (hx : isfinite x = true)
    (hn : (CoxPropHazardsTransitionState.ofArray s).numRows = 0) (hw : x.length ≤ 65535) :
    cox_prop_hazards_step_transition exp log s x previous
      = .ok (CoxPropHazardsTransitionState.accumulate exp log
          (coxSeed x.length previous) x).mStorage := by
  have hmod : x.length % 65536 = x.length := Nat.mod_eq_of_lt (by omega)
  have h1 : ¬ x.length > 65535 := by omega
  rw [cox_transition_eq]
  simp only [hx, hn, hmod, h1, Bool.not_true, Bool.false_eq_true, if_false, if_true, bind,
    Except.bind, ne_eq, boundWidth_coxSeed, not_true_eq_false]

theorem cox_transition_next (exp log : Double → Double) (s x : List Double)
    (previous : Option (List Double)) (hx : isfinite x = true)
    (hs : IsCoxState s x.length) :
    cox_prop_hazards_step_transition exp log s x previous
      = .ok (coxRow exp log s x.length x) := by
  obtain ⟨hw, hl, h1, n, hn, h0⟩ := hs
  have hnr : (CoxPropHazardsTransitionState.ofArray s).numRows ≠ 0 := by
    show (s.getD 0 0).toNat ≠ 0
    rw [h0, Double.toNat_natCast]; omega
  have hb : (CoxPropHazardsTransitionState.ofArray s).boundWidth = x.length := by
    show (s.getD 1 0).toNat = x.length
    rw [h1, Double.toNat_natCast]
  have he : CoxPropHazardsTransitionState.ofArray s = { mStorage := s, boundWidth := x.length } := by
    show ({ mStorage := s, boundWidth := (s.getD 1 0).toNat } : CoxPropHazardsTransitionState) = _
    rw [h1, Double.toNat_natCast]
  rw [cox_transition_eq, ← cox_accumulate_eq_coxRow exp log s x.length x hl rfl]
  simp only [hx, hnr, hb, Bool.not_true, Bool.false_eq_true, if_false, bind, Except.bind, ne_eq,
    not_true_eq_false]
  rw [he]

theorem cox_ofArray_of_width (t : List Double) (w : ℕ) (h : t.getD 1 0 = (w : Double)) :
    CoxPropHazardsTransitionState.ofArray t = { mStorage := t, boundWidth := w } := by
  show ({ mStorage := t, boundWidth := (t.getD 1 0).toNat } : CoxPropHazardsTransitionState) = _
  rw [h, Double.toNat_natCast]

theorem isCoxState_coxRow (exp log : Double → Double) (s : List Double) (w : ℕ)
    (x : List Double) (hx : x.length = w) (hs : IsCoxState s w) :
    IsCoxState (coxRow exp log s w x) w := by
  obtain ⟨hw, hl, h1, n, hn, h0⟩ := hs
  obtain ⟨r0, r1, r2, -⟩ := coxRow_reads exp log s w x hl hx
  refine ⟨hw, by rw [r0, hl], by rw [r2, h1], n + 1, by omega, ?_⟩
  rw [r1, h0]
  simp [Double.natCast_eq_finite, Double.one_eq_finite]

theorem coxSeed_eta (w : ℕ) (previous : Option (List Double)) :
    coxSeed w previous = { mStorage := (coxSeed w previous).mStorage, boundWidth := w } := by
  cases previous <;>
  simp only [coxSeed, CoxPropHazardsTransitionState.reset, CoxPropHazardsTransitionState.assign,
    CoxPropHazardsTransitionState.initializeState]

theorem cox_numRows_initial (s : List Double) (hs : IsInitialState s) :
    (CoxPropHazardsTransitionState.ofArray s).numRows = 0 := by
  show (s.getD 0 0).toNat = 0
  rw [getD_of_all_zero s hs.2, Double.toNat_zero]

theorem getD_one_coxSeed_some (w : ℕ) (p : List Double) (hw : w ≤ 65535) :
    (coxSeed w (some p)).mStorage.getD 1 0 = p.getD 1 0 := by
  have hk : 1 < CoxPropHazardsTransitionState.arraySize w := cox_arraySize_ge w hw
  simp only [coxSeed, CoxPropHazardsTransitionState.reset,
    CoxPropHazardsTransitionState.assign, CoxPropHazardsTransitionState.initializeState]
  rw [getD_fillBlock _ _ _ _ _ (by simpa using hk), getD_fillBlock _ _ _ _ _ (by simpa using hk),
    getD_fillBlock _ _ _ _ _ (by simpa using hk), getD_fillBlock _ _ _ _ _ (by simpa using hk),
    getD_fillBlock _ _ _ _ _ (by simpa using hk), getD_fillBlock _ _ _ _ _ (by simpa using hk),
    getD_fillBlock _ _ _ _ _ (by simpa using hk), getD_map_range _ _ _ (by simpa using hk)]
  rw [if_neg (by omega), if_neg (by omega), if_neg (by omega), if_neg (by omega)]
  rw [if_neg (by omega), if_neg (by omega), if_neg (by omega)]
  rfl

theorem take_drop_zero (m : List Double) (off len : ℕ) (hl : off + len ≤ m.length)
    (hz : ∀ k, off ≤ k → k < off + len → m.getD k 0 = 0) :
    (m.drop off).take len = List.replicate len 0 := by
  apply ext_getD
  · simp; omega
  · intro i hi
    have hi' : i < len := by
      simp only [List.length_take] at hi; omega
    rw [getD_take_drop _ _ _ _ hi', getD_replicate_zero, hz _ (by omega) (by omega)]

/-- The entries of the state of a first call for a width up to 32767: the
width entry, the `coef` block of the previous state if there is one, and zeros. -/
theorem getD_coxSeed (w : ℕ) (previous : Option (List Double)) (k : ℕ) (hw : w ≤ 32767) :
    (coxSeed w previous).mStorage.getD k 0
      = match previous with
        | none => if k = 1 then (w : Double) else 0
        | some p => if k = 1 ∨ (2 ≤ k ∧ k < 2 + w) then p.getD k 0 else 0 := by
  cases previous with
  | none => exact getD_coxSeed_none w k (by omega)
  | some p =>
    show _ = if k = 1 ∨ (2 ≤ k ∧ k < 2 + w) then p.getD k 0 else 0
    by_cases hk : k < CoxPropHazardsTransitionState.arraySize w
    · exact getD_coxSeed_some w p k hk (by rw [cox_arraySize_eq w hw])
    · rw [getD_eq_zero_of_le _ _ (by rw [length_coxSeed]; omega), if_neg]
      rw [cox_arraySize_eq w hw] at hk
      omega

theorem cox_first_row_reads (exp log : Double → Double) (m : List Double) (w : ℕ)
    (x : List Double) (hm : m.length = 4 + 3 * w + 2 * (w * w)) (hx : x.length = w)
    (h0 : m.getD 0 0 = 0) (hz : ∀ k, 2 + w ≤ k → m.getD k 0 = 0) :
    (coxRow exp log m w x).getD 0 0 = 1 ∧
    (coxRow exp log m w x).getD (2 + w) 0 = exp (dot ((m.drop 2).take w) x) ∧
    ((coxRow exp log m w x).drop (3 + w)).take w
      = x.map (exp (dot ((m.drop 2).take w) x) * ·) ∧
    ((coxRow exp log m w x).drop (4 + 3 * w)).take (w * w)
      = (outer x).map (· * exp (dot ((m.drop 2).take w) x)) ∧
    ((coxRow exp log m w x).drop (3 + 2 * w)).take w
      = List.zipWith (· - ·) x
          ((((coxRow exp log m w x).drop (3 + w)).take w).map
            (· / (coxRow exp log m w x).getD (2 + w) 0)) ∧
    ((coxRow exp log m w x).drop (4 + 3 * w + w * w)).take (w * w)
      = List.zipWith (· - ·)
          ((outer (((coxRow exp log m w x).drop (3 + w)).take w)).map
            (· / ((coxRow exp log m w x).getD (2 + w) 0
              * (coxRow exp log m w x).getD (2 + w) 0)))
          ((((coxRow exp log m w x).drop (4 + 3 * w)).take (w * w)).map
            (· / (coxRow exp log m w x).getD (2 + w) 0)) ∧
    (coxRow exp log m w x).getD (3 + 3 * w) 0
      = dot ((m.drop 2).take w) x - log ((coxRow exp log m w x).getD (2 + w) 0) := by
  obtain ⟨-, r1, -, -, r4, r5, r6, r7, r8, r9⟩ := coxRow_reads exp log m w x hm hx
  have zH := take_drop_zero m (3 + w) w (by omega) (fun k h _ => hz k (by omega))
  have zV := take_drop_zero m (4 + 3 * w) (w * w) (by omega) (fun k h _ => hz k (by omega))
  have zG := take_drop_zero m (3 + 2 * w) w (by omega) (fun k h _ => hz k (by omega))
  have zHs := take_drop_zero m (4 + 3 * w + w * w) (w * w) (by omega)
    (fun k h _ => hz k (by omega))
  have lH : (((coxRow exp log m w x).drop (3 + w)).take w).length = w := by
    rw [r5]; simp [hx, hm]; omega
  have lV : (((coxRow exp log m w x).drop (4 + 3 * w)).take (w * w)).length = w * w := by
    rw [r6]; simp [hx, hm]; omega
  refine ⟨?_, ?_, ?_, ?_, ?_, ?_, ?_⟩
  · rw [r1, h0, zero_add]
  · rw [r4, hz _ (by omega), zero_add]
  · rw [r5, zH, zeros_vadd _ _ (by simp [hx])]
  · rw [r6, zV, zeros_vadd _ _ (by simp [hx])]
  · rw [r7, zG, zeros_vadd _ _ (by simp [hx])]
  · rw [r8, zHs, zeros_vadd _ _ (by simp [lH, lV])]
  · rw [r9, hz _ (by omega), zero_add]

theorem cox_ofArray_of_toNat (t : List Double) (w : ℕ) (h : (t.getD 1 0).toNat = w) :
    CoxPropHazardsTransitionState.ofArray t = { mStorage := t, boundWidth := w } := by
  show ({ mStorage := t, boundWidth := (t.getD 1 0).toNat } : CoxPropHazardsTransitionState) = _
  rw [h]

theorem coxSeed_coef (w : ℕ) (p : List Double) (hw : w ≤ 32767) (hp : 2 + w ≤ p.length) :
    ((coxSeed w (some p)).mStorage.drop 2).take w = (p.drop 2).take w := by
  have hl : (coxSeed w (some p)).mStorage.length = 4 + 3 * w + 2 * (w * w) := by
    rw [length_coxSeed, cox_arraySize_eq w hw]
  apply ext_getD
  · simp only [List.length_take, List.length_drop, hl]; omega
  · intro i hi
    have hi' : i < w := by
      simp only [List.length_take] at hi; omega
    rw [getD_take_drop _ _ _ _ hi', getD_take_drop _ _ _ _ hi', getD_coxSeed w _ _ hw]
    show (if 2 + i = 1 ∨ (2 ≤ 2 + i ∧ 2 + i < 2 + w) then p.getD (2 + i) 0 else 0) = _
    rw [if_pos (by omega)]

theorem coxSeed_some_congr (w : ℕ) (p q : List Double) (hw : w ≤ 32767)
    (h1 : q.getD 1 0 = p.getD 1 0) (hc : (q.drop 2).take w = (p.drop 2).take w) :
    coxSeed w (some q) = coxSeed w (some p) := by
  have e : (coxSeed w (some q)).mStorage = (coxSeed w (some p)).mStorage := by
    apply ext_getD
    · rw [length_coxSeed, length_coxSeed]
    · intro k _
      rw [getD_coxSeed w _ _ hw, getD_coxSeed w _ _ hw]
      show (if k = 1 ∨ (2 ≤ k ∧ k < 2 + w) then q.getD k 0 else 0)
        = if k = 1 ∨ (2 ≤ k ∧ k < 2 + w) then p.getD k 0 else 0
      by_cases h : k = 1 ∨ (2 ≤ k ∧ k < 2 + w)
      · rw [if_pos h, if_pos h]
        rcases h with h | h
        · rw [h, h1]
        · have e : k = 2 + (k - 2) := by omega
          rw [e, ← getD_take_drop q 2 w (k - 2) (by omega),
            ← getD_take_drop p 2 w (k - 2) (by omega), hc]
      · rw [if_neg h, if_neg h]
  rw [coxSeed_eta w (some q), e]
  exact (coxSeed_eta w (some p)).symm

theorem cox_transition_first_row (exp log : Double → Double) (s x : List Double)
    (previous : Option (List Double)) (hx : isfinite x = true) (hs : IsInitialState s)
    (hw : x.length ≤ 32767) :
    cox_prop_hazards_step_transition exp log s x previous
      = .ok (coxRow exp log (coxSeed x.length previous).mStorage x.length x) := by
  rw [cox_transition_first exp log s x previous hx (cox_numRows_initial s hs) (by omega),
    coxSeed_eta x.length previous,
    cox_accumulate_eq_coxRow exp log _ x.length x
      (by rw [length_coxSeed, cox_arraySize_eq _ hw]) rfl]

theorem cox_widthOfX_ofArray (t : List Double) :
    (CoxPropHazardsTransitionState.ofArray t).widthOfX = (t.getD 1 0).toNat := rfl

theorem cox_numRows_ofArray (t : List Double) :
    (CoxPropHazardsTransitionState.ofArray t).numRows = (t.getD 0 0).toNat := rfl

/-! ## Lemmas: the Cox merge -/

theorem view_term (b : List Double) (off len k : ℕ) :
    (if off ≤ k ∧ k < off + len then ((b.drop off).take len).getD (k - off) 0 else 0)
      = if off ≤ k ∧ k < off + len then b.getD k 0 else 0 := by
  by_cases h : off ≤ k ∧ k < off + len
  · rw [if_pos h, if_pos h, getD_take_drop _ _ _ _ (by omega)]
    congr 1
    omega
  · rw [if_neg h, if_neg h]

theorem scalar_term (d : Double) (off k : ℕ) :
    (if off ≤ k ∧ k < off + 1 then ([d] : List Double).getD (k - off) 0 else 0)
      = if k = off then d else 0 := by
  by_cases h : k = off
  · subst h
    simp
  · rw [if_neg h, if_neg (by omega)]

/-- The entries of the array after `operator+=` on two arrays of the layout
size for the width `w` the views are bound with. -/
theorem getD_cox_add (a b : List Double) (w : ℕ)
    (ha : a.length = 4 + 3 * w + 2 * (w * w)) (hb : b.length = 4 + 3 * w + 2 * (w * w))
    (hwa : (a.getD 1 0).toNat = w) (hwb : (b.getD 1 0).toNat = w) :
    ∃ m, CoxPropHazardsTransitionState.add (CoxPropHazardsTransitionState.ofArray a)
        (CoxPropHazardsTransitionState.ofArray b) = .ok { mStorage := m, boundWidth := w } ∧
      m.length = a.length ∧
      ∀ k, k < 4 + 3 * w + 2 * (w * w) →
        m.getD k 0 = a.getD k 0 +
          (if k = 0 then (((b.getD 0 0).toNat : ℕ) : Double)
           else if k = 1 then 0 else b.getD k 0) := by
  rw [cox_ofArray_of_toNat a w hwa, cox_ofArray_of_toNat b w hwb]
  have hne : ¬ (a.length ≠ b.length ∨ (a.getD 1 0).toNat ≠ (b.getD 1 0).toNat) := by
    rw [ha, hb, hwa, hwb]; simp
  simp only [CoxPropHazardsTransitionState.add, CoxPropHazardsTransitionState.widthOfX, hne,
    if_false, ne_eq, not_true_eq_false, CoxPropHazardsTransitionState.numRows,
    CoxPropHazardsTransitionState.coef, CoxPropHazardsTransitionState.grad,
    CoxPropHazardsTransitionState.S, CoxPropHazardsTransitionState.H,
    CoxPropHazardsTransitionState.logLikelihood, CoxPropHazardsTransitionState.V,
    CoxPropHazardsTransitionState.hessian]
  refine ⟨_, rfl, by simp only [length_addBlock], ?_⟩
  intro k hk
  rw [getD_addBlock _ _ _ _ (by simp only [length_addBlock]; omega),
    getD_addBlock _ _ _ _ (by simp only [length_addBlock]; omega),
    getD_addBlock _ _ _ _ (by simp only [length_addBlock]; omega),
    getD_addBlock _ _ _ _ (by simp only [length_addBlock]; omega),
    getD_addBlock _ _ _ _ (by simp only [length_addBlock]; omega),
    getD_addBlock _ _ _ _ (by simp only [length_addBlock]; omega),
    getD_addBlock _ _ _ _ (by simp only [length_addBlock]; omega),
    getD_addBlock _ _ _ _ (by omega)]
  have l1 : ((b.drop 2).take w).length = w := by
    simp only [List.length_take, List.length_drop, hb]; omega
  have l2 : ((b.drop (3 + 2 * w)).take w).length = w := by
    simp only [List.length_take, List.length_drop, hb]; omega
  have l3 : ((b.drop (3 + w)).take w).length = w := by
    simp only [List.length_take, List.length_drop, hb]; omega
  have l4 : ((b.drop (4 + 3 * w)).take (w * w)).length = w * w := by
    simp only [List.length_take, List.length_drop, hb]; omega
  have l5 : ((b.drop (4 + 3 * w + w * w)).take (w * w)).length = w * w := by
    simp only [List.length_take, List.length_drop, hb]; omega
  rw [l1, l2, l3, l4, l5]
  simp only [List.length_singleton, view_term, scalar_term]
  have hassoc : ∀ p q r : Double, p + q + r = p + (q + r) := add_assoc
  simp only [hassoc]
  congr 1
  by_cases h0 : k = 0
  · subst h0
    rw [if_pos rfl, if_neg (by omega), if_neg (by omega), if_neg (by omega), if_neg (by omega)]
    rw [if_neg (by omega), if_neg (by omega), if_neg (by omega), if_pos rfl]
    simp
  by_cases h1 : k = 1
  · subst h1
    rw [if_neg (by omega), if_neg (by omega), if_neg (by omega), if_neg (by omega)]
    rw [if_neg (by omega), if_neg (by omega), if_neg (by omega), if_neg (by omega)]
    rw [if_neg (by omega), if_pos rfl]
    simp
  rw [if_neg h0, if_neg h0, if_neg h1]
  by_cases c1 : 2 ≤ k ∧ k < 2 + w
  · rw [if_pos c1, if_neg (by omega), if_neg (by omega), if_neg (by omega), if_neg (by omega)]
    rw [if_neg (by omega), if_neg (by omega)]
    simp
  rw [if_neg c1]
  by_cases c2 : 3 + 2 * w ≤ k ∧ k < 3 + 2 * w + w
  · rw [if_pos c2, if_neg (by omega), if_neg (by omega), if_neg (by omega), if_neg (by omega)]
    rw [if_neg (by omega)]
    simp
  rw [if_neg c2]
  by_cases c3 : k = 2 + w
  · rw [if_pos c3, if_neg (by omega), if_neg (by omega), if_neg (by omega), if_neg (by omega),
      c3]
    simp
  rw [if_neg c3]
  by_cases c4 : 3 + w ≤ k ∧ k < 3 + w + w
  · rw [if_pos c4, if_neg (by omega), if_neg (by omega), if_neg (by omega)]
    simp
  rw [if_neg c4]
  by_cases c5 : k = 3 + 3 * w
  · rw [if_pos c5, if_neg (by omega), if_neg (by omega), c5]
    simp
  rw [if_neg c5]
  by_cases c6 : 4 + 3 * w ≤ k ∧ k < 4 + 3 * w + w * w
  · rw [if_pos c6, if_neg (by omega)]
    simp
  rw [if_neg c6, if_pos (by omega)]
  simp

theorem cox_add_view (a b m : List Double) (n off len : ℕ) (hm : m.length = n)
    (ha : a.length = n) (hb : b.length = n) (h2 : 2 ≤ off) (hl : off + len ≤ n)
    (hg : ∀ k, k < n → m.getD k 0 = a.getD k 0 +
      (if k = 0 then (((b.getD 0 0).toNat : ℕ) : Double) else if k = 1 then 0 else b.getD k 0)) :
    (m.drop off).take len = vadd ((a.drop off).take len) ((b.drop off).take len) := by
  apply ext_getD
  · simp only [List.length_take, List.length_drop, length_vadd, hm, ha, hb]; omega
  · intro i hi
    have hi' : i < len := by
      simp only [List.length_take] at hi; omega
    rw [getD_take_drop _ _ _ _ hi',
      getD_vadd _ _ _ (by simp only [List.length_take, List.length_drop, ha]; omega)
        (by simp only [List.length_take, List.length_drop, hb]; omega),
      getD_take_drop _ _ _ _ hi', getD_take_drop _ _ _ _ hi', hg _ (by omega),
      if_neg (by omega), if_neg (by omega)]

/-- The views of the state after `operator+=` on two arrays of the layout size
for one width `w`: `numRows` and every view of the layout but `widthOfX` is the
sum of the two operands' views, `coef` included. -/
theorem cox_add_reads (a b : List Double) (w : ℕ)
    (ha : a.length = 4 + 3 * w + 2 * (w * w)) (hb : b.length = 4 + 3 * w + 2 * (w * w))
    (hwa : (a.getD 1 0).toNat = w) (hwb : (b.getD 1 0).toNat = w) :
    ∃ m, CoxPropHazardsTransitionState.add (CoxPropHazardsTransitionState.ofArray a)
        (CoxPropHazardsTransitionState.ofArray b) = .ok { mStorage := m, boundWidth := w } ∧
      m.length = a.length ∧
      m.getD 0 0 = a.getD 0 0 + (((b.getD 0 0).toNat : ℕ) : Double) ∧
      m.getD 1 0 = a.getD 1 0 ∧
      (m.drop 2).take w = vadd ((a.drop 2).take w) ((b.drop 2).take w) ∧
      m.getD (2 + w) 0 = a.getD (2 + w) 0 + b.getD (2 + w) 0 ∧
      (m.drop (3 + w)).take w = vadd ((a.drop (3 + w)).take w) ((b.drop (3 + w)).take w) ∧
      (m.drop (3 + 2 * w)).take w
        = vadd ((a.drop (3 + 2 * w)).take w) ((b.drop (3 + 2 * w)).take w) ∧
      m.getD (3 + 3 * w) 0 = a.getD (3 + 3 * w) 0 + b.getD (3 + 3 * w) 0 ∧
      (m.drop (4 + 3 * w)).take (w * w)
        = vadd ((a.drop (4 + 3 * w)).take (w * w)) ((b.drop (4 + 3 * w)).take (w * w)) ∧
      (m.drop (4 + 3 * w + w * w)).take (w * w)
        = vadd ((a.drop (4 + 3 * w + w * w)).take (w * w))
            ((b.drop (4 + 3 * w + w * w)).take (w * w)) := by
  obtain ⟨m, hadd, hml, hg⟩ := getD_cox_add a b w ha hb hwa hwb
  have hm : m.length = 4 + 3 * w + 2 * (w * w) := hml.trans ha
  refine ⟨m, hadd, hml, ?_, ?_, ?_, ?_, ?_, ?_, ?_, ?_, ?_⟩
  · rw [hg 0 (by omega), if_pos rfl]
  · rw [hg 1 (by omega), if_neg (by omega), if_pos rfl, add_zero]
  · exact cox_add_view a b m _ 2 w hm ha hb (by omega) (by omega) hg
  · rw [hg _ (by omega), if_neg (by omega), if_neg (by omega)]
  · exact cox_add_view a b m _ _ w hm ha hb (by omega) (by omega) hg
  · exact cox_add_view a b m _ _ w hm ha hb (by omega) (by omega) hg
  · rw [hg _ (by omega), if_neg (by omega), if_neg (by omega)]
  · exact cox_add_view a b m _ _ (w * w) hm ha hb (by omega) (by omega) hg
  · exact cox_add_view a b m _ _ (w * w) hm ha hb (by omega) (by omega) hg

/-! ## Lemmas: folds of the Cox transition -/

theorem length_vsum_le (n : ℕ) (vs : List (List Double)) : (vsum n vs).length ≤ n := by
  induction vs with
  | nil => simp [vsum]
  | cons v vs ih =>
    have : vsum n (v :: vs) = vadd v (vsum n vs) := rfl
    rw [this, length_vadd]
    omega

theorem vsum_append (n : ℕ) (l1 l2 : List (List Double)) :
    vsum n (l1 ++ l2) = vadd (vsum n l1) (vsum n l2) := by
  induction l1 with
  | nil =>
    show vsum n l2 = vadd (List.replicate n 0) (vsum n l2)
    rw [zeros_vadd _ _ (length_vsum_le n l2)]
  | cons v vs ih =>
    show vadd v (vsum n (vs ++ l2)) = vadd (vadd v (vsum n vs)) (vsum n l2)
    rw [ih, vadd_assoc]

theorem natCast_add_one (n : ℕ) : (n : Double) + 1 = ((n + 1 : ℕ) : Double) := by
  simp [Double.natCast_eq_finite, Double.one_eq_finite]

theorem natCast_zero_double : ((0 : ℕ) : Double) = 0 := by
  simp [Double.natCast_eq_finite, Double.zero_eq_finite]

theorem natCast_add_double (a b : ℕ) : (a : Double) + (b : Double) = ((a + b : ℕ) : Double) := by
  simp [Double.natCast_eq_finite]

theorem isCoxState_coxRow_of (exp log : Double → Double) (m : List Double) (w n : ℕ)
    (x : List Double) (hx : x.length = w) (hw : w ≤ 65535)
    (hl : m.length = 4 + 3 * w + 2 * (w * w)) (h1 : m.getD 1 0 = (w : Double))
    (h0 : m.getD 0 0 = (n : Double)) : IsCoxState (coxRow exp log m w x) w := by
  obtain ⟨r0, r1, r2, -⟩ := coxRow_reads exp log m w x hl hx
  refine ⟨hw, by rw [r0, hl], by rw [r2, h1], n + 1, by omega, ?_⟩
  rw [r1, h0, natCast_add_one]

theorem cox_fold_state (exp log : Double → Double) (w : ℕ) (rows : List (List Double))
    (s : List Double) (previous : Option (List Double)) (hs : IsCoxState s w)
    (hr : ∀ x ∈ rows, isfinite x = true ∧ x.length = w) :
    cox_fold exp log s rows previous
      = .ok (rows.foldl (fun m x => coxRow exp log m w x) s) ∧
    IsCoxState (rows.foldl (fun m x => coxRow exp log m w x) s) w := by
  induction rows generalizing s with
  | nil => exact ⟨rfl, hs⟩
  | cons x rs ih =>
    obtain ⟨hx, hxl⟩ := hr x (List.mem_cons_self _ _)
    subst hxl
    have hs' := isCoxState_coxRow exp log s x.length x rfl hs
    obtain ⟨e, h⟩ := ih _ hs' (fun y hy => hr y (List.mem_cons_of_mem _ hy))
    refine ⟨?_, h⟩
    rw [List.foldl_cons, ← e]
    simp only [cox_fold, List.foldlM_cons, cox_transition_next exp log s x previous hx hs, bind,
      Except.bind]

/-- The fold of the Cox transition over a non-empty list of rows, from an
initial state: the pure fold of `coxRow` from the state that the first call
builds, which is a Cox state. -/
theorem cox_fold_initial (exp log : Double → Double) (w : ℕ) (x : List Double)
    (rs : List (List Double)) (init : List Double) (previous : Option (List Double))
    (hinit : IsInitialState init) (hw : w ≤ 32767)
    (hr : ∀ y ∈ x :: rs, isfinite y = true ∧ y.length = w)
    (h1 : (coxSeed w previous).mStorage.getD 1 0 = (w : Double)) :
    cox_fold exp log init (x :: rs) previous
      = .ok ((x :: rs).foldl (fun m y => coxRow exp log m w y) (coxSeed w previous).mStorage) ∧
    IsCoxState ((x :: rs).foldl (fun m y => coxRow exp log m w y)
      (coxSeed w previous).mStorage) w := by
  obtain ⟨hx, hxl⟩ := hr x (List.mem_cons_self _ _)
  have hl : (coxSeed w previous).mStorage.length = 4 + 3 * w + 2 * (w * w) := by
    rw [length_coxSeed, cox_arraySize_eq _ hw]
  have h0 : (coxSeed w previous).mStorage.getD 0 0 = ((0 : ℕ) : Double) := by
    rw [getD_coxSeed w previous 0 hw, natCast_zero_double]
    cases previous with
    | none => exact if_neg (by omega)
    | some p => exact if_neg (by omega)
  have ht := cox_transition_first_row exp log init x previous hx hinit (by omega)
  rw [hxl] at ht
  generalize (coxSeed w previous).mStorage = m at h1 hl h0 ht ⊢
  have hs' := isCoxState_coxRow_of exp log m w 0 x hxl (by omega) hl h1 h0
  obtain ⟨e, h⟩ := cox_fold_state exp log w rs _ previous hs'
    (fun y hy => hr y (List.mem_cons_of_mem _ hy))
  refine ⟨?_, h⟩
  rw [List.foldl_cons, ← e]
  simp only [cox_fold, List.foldlM_cons, ht, bind, Except.bind]

/-- The inter-iteration entries and the running sums after a pure fold of
`coxRow`: `coef` and the width entry are those of the start, the row count
grows by the number of rows, and `S`, `H`, `V` grow by the sums over the rows
of `exp (coef . x)`, `exp (coef . x) x` and `(x x^T) exp (coef . x)`. -/
theorem cox_foldl_reads (exp log : Double → Double) (w : ℕ) (rows : List (List Double))
    (m : List Double) (hm : m.length = 4 + 3 * w + 2 * (w * w))
    (hr : ∀ x ∈ rows, x.length = w) :
    (rows.foldl (fun m x => coxRow exp log m w x) m).length = m.length ∧
    (rows.foldl (fun m x => coxRow exp log m w x) m).getD 0 0
      = m.getD 0 0 + (rows.length : Double) ∧
    (rows.foldl (fun m x => coxRow exp log m w x) m).getD 1 0 = m.getD 1 0 ∧
    ((rows.foldl (fun m x => coxRow exp log m w x) m).drop 2).take w = (m.drop 2).take w ∧
    (rows.foldl (fun m x => coxRow exp log m w x) m).getD (2 + w) 0
      = m.getD (2 + w) 0 + (rows.map (fun x => exp (dot ((m.drop 2).take w) x))).sum ∧
    ((rows.foldl (fun m x => coxRow exp log m w x) m).drop (3 + w)).take w
      = vadd ((m.drop (3 + w)).take w)
          (vsum w (rows.map (fun x => x.map (exp (dot ((m.drop 2).take w) x) * ·)))) ∧
    ((rows.foldl (fun m x => coxRow exp log m w x) m).drop (4 + 3 * w)).take (w * w)
      = vadd ((m.drop (4 + 3 * w)).take (w * w))
          (vsum (w * w)
            (rows.map (fun x => (outer x).map (· * exp (dot ((m.drop 2).take w) x))))) := by
  induction rows generalizing m with
  | nil =>
    refine ⟨rfl, ?_, rfl, rfl, ?_, ?_, ?_⟩
    · show m.getD 0 0 = m.getD 0 0 + ((0 : ℕ) : Double)
      rw [natCast_zero_double, add_zero]
    · show m.getD (2 + w) 0 = m.getD (2 + w) 0 + 0
      rw [add_zero]
    · show _ = vadd _ (List.replicate w 0)
      rw [vadd_zeros _ _ (by simp)]
      rfl
    · show _ = vadd _ (List.replicate (w * w) 0)
      rw [vadd_zeros _ _ (by simp)]
      rfl
  | cons x rs ih =>
    have hx := hr x (List.mem_cons_self _ _)
    obtain ⟨r0, r1, r2, r3, r4, r5, r6, -⟩ := coxRow_reads exp log m w x hm hx
    obtain ⟨i0, i1, i2, i3, i4, i5, i6⟩ := ih (coxRow exp log m w x) (r0.trans hm)
      (fun y hy => hr y (List.mem_cons_of_mem _ hy))
    rw [List.foldl_cons]
    refine ⟨i0.trans r0, ?_, i2.trans r2, i3.trans r3, ?_, ?_, ?_⟩
    · rw [i1, r1, List.length_cons, add_assoc]
      congr 1
      rw [add_comm, natCast_add_one]
    · rw [i4, r4, r3, List.map_cons, List.sum_cons, add_assoc]
    · rw [i5, r5, r3, List.map_cons, vadd_assoc]
      rfl
    · rw [i6, r6, r3, List.map_cons, vadd_assoc]
      rfl

/-- Sharded and single-pass pure folds from one seed `m` whose row count and
running sums are zero: the merge of the two shard folds succeeds and agrees
with the fold over `l1 ++ l2` in the row count, `S`, `H` and `V`; its `coef`,
`grad`, `hessian` and `logLikelihood` are the sums of those of the shards. -/
theorem cox_partition_pure (exp log : Double → Double) (w : ℕ) (l1 l2 : List (List Double))
    (m : List Double) (hl : m.length = 4 + 3 * w + 2 * (w * w)) (h0 : m.getD 0 0 = 0)
    (h1 : m.getD 1 0 = (w : Double)) (hz : ∀ k, 2 + w ≤ k → m.getD k 0 = 0)
    (hr1 : ∀ x ∈ l1, x.length = w) (hr2 : ∀ x ∈ l2, x.length = w) :
    ∃ M, CoxPropHazardsTransitionState.add
        (CoxPropHazardsTransitionState.ofArray (l1.foldl (fun m x => coxRow exp log m w x) m))
        (CoxPropHazardsTransitionState.ofArray (l2.foldl (fun m x => coxRow exp log m w x) m))
        = .ok M ∧
      M.numRows = (CoxPropHazardsTransitionState.ofArray
        ((l1 ++ l2).foldl (fun m x => coxRow exp log m w x) m)).numRows ∧
      M.S = (CoxPropHazardsTransitionState.ofArray
        ((l1 ++ l2).foldl (fun m x => coxRow exp log m w x) m)).S ∧
      M.H = (CoxPropHazardsTransitionState.ofArray
        ((l1 ++ l2).foldl (fun m x => coxRow exp log m w x) m)).H ∧
      M.V = (CoxPropHazardsTransitionState.ofArray
        ((l1 ++ l2).foldl (fun m x => coxRow exp log m w x) m)).V ∧
      M.coef = vadd
        (CoxPropHazardsTransitionState.ofArray
          (l1.foldl (fun m x => coxRow exp log m w x) m)).coef
        (CoxPropHazardsTransitionState.ofArray
          (l2.foldl (fun m x => coxRow exp log m w x) m)).coef ∧
      M.grad = vadd
        (CoxPropHazardsTransitionState.ofArray
          (l1.foldl (fun m x => coxRow exp log m w x) m)).grad
        (CoxPropHazardsTransitionState.ofArray
          (l2.foldl (fun m x => coxRow exp log m w x) m)).grad ∧
      M.hessian = vadd
        (CoxPropHazardsTransitionState.ofArray
          (l1.foldl (fun m x => coxRow exp log m w x) m)).hessian
        (CoxPropHazardsTransitionState.ofArray
          (l2.foldl (fun m x => coxRow exp log m w x) m)).hessian ∧
      M.logLikelihood =
        (CoxPropHazardsTransitionState.ofArray
          (l1.foldl (fun m x => coxRow exp log m w x) m)).logLikelihood
        + (CoxPropHazardsTransitionState.ofArray
          (l2.foldl (fun m x => coxRow exp log m w x) m)).logLikelihood := by
  have hr12 : ∀ x ∈ l1 ++ l2, x.length = w := by
    intro x hx
    rcases List.mem_append.mp hx with h | h
    · exact hr1 x h
    · exact hr2 x h
  obtain ⟨a0, a1, a2, a3, a4, a5, a6⟩ := cox_foldl_reads exp log w l1 m hl hr1
  obtain ⟨b0, b1, b2, b3, b4, b5, b6⟩ := cox_foldl_reads exp log w l2 m hl hr2
  obtain ⟨c0, c1, c2, c3, c4, c5, c6⟩ := cox_foldl_reads exp log w (l1 ++ l2) m hl hr12
  have zH := take_drop_zero m (3 + w) w (by omega) (fun k h _ => hz k (by omega))
  have zV := take_drop_zero m (4 + 3 * w) (w * w) (by omega) (fun k h _ => hz k (by omega))
  have zS := hz (2 + w) (by omega)
  generalize l1.foldl (fun m x => coxRow exp log m w x) m = A1 at a0 a1 a2 a3 a4 a5 a6 ⊢
  generalize l2.foldl (fun m x => coxRow exp log m w x) m = A2 at b0 b1 b2 b3 b4 b5 b6 ⊢
  generalize (l1 ++ l2).foldl (fun m x => coxRow exp log m w x) m = A12
    at c0 c1 c2 c3 c4 c5 c6 ⊢
  obtain ⟨mm, hadd, hml, m0, m1, m2, m3, m4, m5, m6, m7, m8⟩ :=
    cox_add_reads A1 A2 w (a0.trans hl) (b0.trans hl)
      (by rw [a2, h1, Double.toNat_natCast]) (by rw [b2, h1, Double.toNat_natCast])
  refine ⟨_, hadd, ?_⟩
  rw [cox_ofArray_of_width A12 w (c2.trans h1), cox_ofArray_of_width A1 w (a2.trans h1),
    cox_ofArray_of_width A2 w (b2.trans h1)]
  refine ⟨?_, ?_, ?_, ?_, m2, m5, m8, m6⟩
  · show (mm.getD 0 0).toNat = (A12.getD 0 0).toNat
    rw [m0, a1, b1, c1, h0, zero_add, zero_add, zero_add, Double.toNat_natCast,
      natCast_add_double, List.length_append]
  · show mm.getD (2 + w) 0 = A12.getD (2 + w) 0
    rw [m3, a4, b4, c4, zS, zero_add, zero_add, zero_add, List.map_append, List.sum_append]
  · show (mm.drop (3 + w)).take w = (A12.drop (3 + w)).take w
    rw [m4, a5, b5, c5, zH, zeros_vadd _ _ (length_vsum_le _ _),
      zeros_vadd _ _ (length_vsum_le _ _), zeros_vadd _ _ (length_vsum_le _ _),
      List.map_append, vsum_append]
  · show (mm.drop (4 + 3 * w)).take (w * w) = (A12.drop (4 + 3 * w)).take (w * w)
    rw [m7, a6, b6, c6, zV, zeros_vadd _ _ (length_vsum_le _ _),
      zeros_vadd _ _ (length_vsum_le _ _), zeros_vadd _ _ (length_vsum_le _ _),
      List.map_append, vsum_append]

/-! ## Lemmas: the Cox final step -/

@[simp] theorem length_writeBlock (s : List Double) (off : ℕ) (v : List Double) :
    (writeBlock s off v).length = s.length := by
  simp [writeBlock]

theorem getD_writeBlock (s : List Double) (off : ℕ) (v : List Double) (k : ℕ)
    (hk : k < s.length) :
    (writeBlock s off v).getD k 0
      = if off ≤ k ∧ k < off + v.length then v.getD (k - off) 0 else s.getD k 0 := by
  unfold writeBlock
  rw [getD_map_range _ _ _ hk]

theorem getD_writeBlock_disjoint (s : List Double) (off : ℕ) (v : List Double) (k : ℕ)
    (hd : k < off ∨ off + v.length ≤ k) : (writeBlock s off v).getD k 0 = s.getD k 0 := by
  by_cases hk : k < s.length
  · rw [getD_writeBlock s off v k hk, if_neg (by omega)]
  · rw [getD_eq_zero_of_le _ k (by simp; omega), getD_eq_zero_of_le s k (by omega)]

theorem take_drop_writeBlock_disjoint (s : List Double) (off : ℕ) (v : List Double)
    (off' len : ℕ) (hd : off' + len ≤ off ∨ off + v.length ≤ off') :
    ((writeBlock s off v).drop off').take len = (s.drop off').take len := by
  apply ext_getD
  · simp
  · intro i hi
    have hi' : i < len := by
      simp only [List.length_take] at hi; omega
    rw [getD_take_drop _ _ _ _ hi', getD_take_drop _ _ _ _ hi',
      getD_writeBlock_disjoint _ _ _ _ (by omega)]

theorem take_drop_writeBlock_same (s : List Double) (off : ℕ) (v : List Double)
    (h : off + v.length ≤ s.length) :
    ((writeBlock s off v).drop off).take v.length = v := by
  apply ext_getD
  · simp; omega
  · intro i hi
    have hi' : i < v.length := by
      simp only [List.length_take] at hi; omega
    rw [getD_take_drop _ _ _ _ hi', getD_writeBlock _ _ _ _ (by omega), if_pos (by omega),
      Nat.add_sub_cancel_left]

theorem length_matVec (w : ℕ) (m v : List Double) : (matVec w m v).length = w := by
  simp [matVec]

theorem cox_final_null (inverse : ℕ → List Double → List Double) (A : List Double)
    (h : (CoxPropHazardsTransitionState.ofArray A).numRows = 0) :
    cox_prop_hazards_step_final inverse A = .ok none := by
  simp only [cox_prop_hazards_step_final, h, if_true]

theorem cox_final_some (inverse : ℕ → List Double → List Double) (A : List Double) (w : ℕ)
    (hw : (A.getD 1 0).toNat = w)
    (hn : (CoxPropHazardsTransitionState.ofArray A).numRows ≠ 0)
    (hh : isfinite (CoxPropHazardsTransitionState.ofArray A).hessian = true)
    (hg : isfinite (CoxPropHazardsTransitionState.ofArray A).grad = true) :
    cox_prop_hazards_step_final inverse A
      = .ok (some (writeBlock A 2
          (List.zipWith (· - ·) ((A.drop 2).take w)
            (matVec w (inverse w ((A.drop (4 + 3 * w + w * w)).take (w * w)))
              ((A.drop (3 + 2 * w)).take w))))) := by
  simp only [cox_prop_hazards_step_final, hn, hh, hg, if_false, Bool.not_true, Bool.or_self,
    Bool.false_eq_true]
  rw [cox_ofArray_of_toNat A w hw]
  rfl

theorem getD_zipWith_sub_finite (a b : List ℚ) (i : ℕ) (ha : i < a.length) (hb : i < b.length) :
    (List.zipWith (· - ·) (a.map Double.finite) (b.map Double.finite)).getD i 0
      = Double.finite (a.getD i 0 - b.getD i 0) := by
  simp only [List.getD_eq_getElem?_getD, List.getElem?_zipWith, List.getElem?_map,
    List.getElem?_eq_getElem ha, List.getElem?_eq_getElem hb, Option.map_some',
    Option.getD_some, Double.finite_sub_finite]

/-! ## Lemmas: finite arrays and the sanity adjustments of the final step -/

theorem exists_map_finite (l : List Double) (h : isfinite l = true) :
    ∃ q : List ℚ, l = q.map Double.finite := by
  induction l with
  | nil => exact ⟨[], rfl⟩
  | cons d ds ih =>
    simp only [isfinite, List.all_cons, Bool.and_eq_true] at h
    obtain ⟨q, hq⟩ := (Double.isFinite_iff d).mp h.1
    obtain ⟨qs, hqs⟩ := ih h.2
    exact ⟨q :: qs, by rw [hq, hqs]; rfl⟩

/-- For `G = X^T X` and any `P` with `G P G = G`, the vector `X^T y` is fixed by
`G P`: it lies in the range of `G`. -/
theorem gram_mul_pinv_mulVec {n w : ℕ} (X : Matrix (Fin n) (Fin w) ℚ) (y : Fin n → ℚ)
    (P : Matrix (Fin w) (Fin w) ℚ)
    (h : X.transpose * X * P * (X.transpose * X) = X.transpose * X) :
    (X.transpose * X).mulVec (P.mulVec (X.transpose.mulVec y)) = X.transpose.mulVec y := by
  have h0 : (1 - X.transpose * X * P) * (X.conjTranspose * X) = 0 := by
    rw [Matrix.conjTranspose_eq_transpose_of_trivial, Matrix.sub_mul, Matrix.one_mul, h, sub_self]
  have h1 : (1 - X.transpose * X * P) * X.transpose = 0 := by
    have := (Matrix.mul_conjTranspose_mul_self_eq_zero X (1 - X.transpose * X * P)).mp h0
    rwa [Matrix.conjTranspose_eq_transpose_of_trivial] at this
  have h2 : X.transpose * X * P * X.transpose = X.transpose := by
    rw [Matrix.sub_mul, Matrix.one_mul, sub_eq_zero] at h1
    exact h1.symm
  rw [Matrix.mulVec_mulVec, Matrix.mulVec_mulVec, h2]

/-- The matrix `X` of a dataset: one row per observation. -/
theorem gramList_eq_transpose_mul (w : ℕ) (rows : List (ℚ × List ℚ)) :
    matrixOfList w (gramList w rows)
      = (Matrix.of (fun (k : Fin rows.length) (i : Fin w) => (rows.get k).2.getD i 0)).transpose
        * Matrix.of (fun (k : Fin rows.length) (i : Fin w) => (rows.get k).2.getD i 0) := by
  ext i j
  simp only [matrixOfList, Matrix.mul_apply, Matrix.transpose_apply, Matrix.of_apply]
  rw [getD_gramList w rows i j i.isLt j.isLt]
  exact (Fin.sum_univ_get' rows (fun r => r.2.getD i 0 * r.2.getD j 0)).symm

theorem xtyList_eq_transpose_mulVec (w : ℕ) (rows : List (ℚ × List ℚ)) :
    (fun i : Fin w => (xtyList w rows).getD i 0)
      = (Matrix.of (fun (k : Fin rows.length) (i : Fin w) =>
          (rows.get k).2.getD i 0)).transpose.mulVec (fun k => (rows.get k).1) := by
  funext i
  simp only [Matrix.mulVec, Matrix.dotProduct, Matrix.transpose_apply, Matrix.of_apply]
  rw [getD_xtyList w rows i i.isLt]
  exact (Fin.sum_univ_get' rows (fun r => r.2.getD i 0 * r.1)).symm

/-- With `P` a generalized inverse of `X^T X` (`G P G = G`), the vector
`P (X^T y)` solves the normal equations. -/
theorem normal_equations (w : ℕ) (rows : List (ℚ × List ℚ)) (P : List ℚ)
    (hP : matrixOfList w (gramList w rows) * matrixOfList w P * matrixOfList w (gramList w rows)
      = matrixOfList w (gramList w rows)) :
    (matrixOfList w (gramList w rows)).mulVec
        (fun j : Fin w =>
          ((List.range w).map (fun i =>
            ((List.range w).map (fun k => P.getD (i + k * w) 0
              * (xtyList w rows).getD k 0)).sum)).getD j 0)
      = fun i : Fin w => (xtyList w rows).getD i 0 := by
  have hc : (fun j : Fin w =>
      ((List.range w).map (fun i =>
        ((List.range w).map (fun k => P.getD (i + k * w) 0
          * (xtyList w rows).getD k 0)).sum)).getD j 0)
      = (matrixOfList w P).mulVec (fun i : Fin w => (xtyList w rows).getD i 0) := by
    funext j
    rw [List.getD_eq_getElem _ _ (by simp), List.getElem_map, List.getElem_range,
      list_sum_range, Finset.sum_range (fun k => P.getD (j + k * w) 0 * (xtyList w rows).getD k 0)]
    rfl
  rw [hc, xtyList_eq_transpose_mulVec]
  rw [gramList_eq_transpose_mul] at hP ⊢
  exact gram_mul_pinv_mulVec _ _ _ hP

/-! ## Lemmas: symmetric matrices -/

theorem double_mul_comm (a b : Double) : a * b = b * a := by
  cases a <;> cases b <;> first | rfl | exact congrArg Double.finite (mul_comm _ _)

theorem getD_map_lt (l : List Double) (f : Double → Double) (k : ℕ) (hk : k < l.length) :
    (l.map f).getD k 0 = f (l.getD k 0) := by
  simp only [List.getD_eq_getElem?_getD, List.getElem?_map, List.getElem?_eq_getElem hk,
    Option.map_some', Option.getD_some]

theorem getD_zipWith_lt (a b : List Double) (f : Double → Double → Double) (k : ℕ)
    (ha : k < a.length) (hb : k < b.length) :
    (List.zipWith f a b).getD k 0 = f (a.getD k 0) (b.getD k 0) := by
  simp only [List.getD_eq_getElem?_getD, List.getElem?_zipWith, List.getElem?_eq_getElem ha,
    List.getElem?_eq_getElem hb, Option.map_some', Option.getD_some]

theorem isSymmetric_zeros (w n : ℕ) : IsSymmetric w (List.replicate n 0) := by
  intro i j _ _
  rw [getD_replicate_zero, getD_replicate_zero]

theorem isSymmetric_outer (x : List Double) : IsSymmetric x.length (outer x) := by
  intro i j hi hj
  rw [getD_outer x i j hi hj, getD_outer x j i hj hi, double_mul_comm]

theorem isSymmetric_map (w : ℕ) (m : List Double) (f : Double → Double)
    (hl : m.length = w * w) (h : IsSymmetric w m) : IsSymmetric w (m.map f) := by
  intro i j hi hj
  rw [getD_map_lt _ _ _ (by rw [hl]; exact index_lt_sq w i j hi hj),
    getD_map_lt _ _ _ (by rw [hl]; exact index_lt_sq w j i hj hi), h i j hi hj]

theorem isSymmetric_zipWith (w : ℕ) (a b : List Double) (f : Double → Double → Double)
    (hla : a.length = w * w) (hlb : b.length = w * w) (ha : IsSymmetric w a)
    (hb : IsSymmetric w b) : IsSymmetric w (List.zipWith f a b) := by
  intro i j hi hj
  have h1 := index_lt_sq w i j hi hj
  have h2 := index_lt_sq w j i hj hi
  rw [getD_zipWith_lt _ _ _ _ (by omega) (by omega),
    getD_zipWith_lt _ _ _ _ (by omega) (by omega), ha i j hi hj, hb i j hi hj]

theorem isSymmetric_vadd (w : ℕ) (a b : List Double) (hla : a.length = w * w)
    (hlb : b.length = w * w) (ha : IsSymmetric w a) (hb : IsSymmetric w b) :
    IsSymmetric w (vadd a b) :=
  isSymmetric_zipWith w a b _ hla hlb ha hb

/-- One row of the Cox transition keeps `V` and `hessian` symmetric. -/
theorem coxRow_symmetric (exp log : Double → Double) (m : List Double) (w : ℕ)
    (x : List Double) (hm : m.length = 4 + 3 * w + 2 * (w * w)) (hx : x.length = w)
    (hV : IsSymmetric w ((m.drop (4 + 3 * w)).take (w * w)))
    (hH : IsSymmetric w ((m.drop (4 + 3 * w + w * w)).take (w * w))) :
    IsSymmetric w (((coxRow exp log m w x).drop (4 + 3 * w)).take (w * w)) ∧
    IsSymmetric w (((coxRow exp log m w x).drop (4 + 3 * w + w * w)).take (w * w)) := by
  obtain ⟨-, -, -, -, -, r5, r6, -, r8, -⟩ := coxRow_reads exp log m w x hm hx
  have lV : ((m.drop (4 + 3 * w)).take (w * w)).length = w * w := by
    simp only [List.length_take, List.length_drop, hm]; omega
  have lG : ((m.drop (4 + 3 * w + w * w)).take (w * w)).length = w * w := by
    simp only [List.length_take, List.length_drop, hm]; omega
  have lo : (outer x).length = w * w := by rw [length_outer, hx]
  have hox : IsSymmetric w (outer x) := by
    have := isSymmetric_outer x
    rwa [hx] at this
  have sV : IsSymmetric w (((coxRow exp log m w x).drop (4 + 3 * w)).take (w * w)) := by
    rw [r6]
    exact isSymmetric_vadd w _ _ lV (by rw [List.length_map, lo])
      hV (isSymmetric_map w _ _ lo hox)
  refine ⟨sV, ?_⟩
  have lH1 : (((coxRow exp log m w x).drop (3 + w)).take w).length = w := by
    rw [r5]; simp [hx, hm]; omega
  have lV1 : (((coxRow exp log m w x).drop (4 + 3 * w)).take (w * w)).length = w * w := by
    rw [r6, length_vadd, lV, List.length_map, lo, min_self]
  have hoH : IsSymmetric w (outer (((coxRow exp log m w x).drop (3 + w)).take w)) := by
    have := isSymmetric_outer (((coxRow exp log m w x).drop (3 + w)).take w)
    rwa [lH1] at this
  rw [r8]
  refine isSymmetric_vadd w _ _ lG ?_ hH ?_
  · rw [List.length_zipWith, List.length_map, List.length_map, length_outer, lH1, lV1, min_self]
  · exact isSymmetric_zipWith w _ _ _
      (by rw [List.length_map, length_outer, lH1]) (by rw [List.length_map, lV1])
      (isSymmetric_map w _ _ (by rw [length_outer, lH1]) hoH)
      (isSymmetric_map w _ _ lV1 sV)

/-- A call of the Cox transition on a state with rows that returns had a
finite row of the width of the state. -/
theorem cox_transition_ok_state (exp log : Double → Double) (s x : List Double)
    (previous : Option (List Double)) (t : List Double) (w : ℕ) (hs : IsCoxState s w)
    (h : cox_prop_hazards_step_transition exp log s x previous = .ok t) :
    isfinite x = true ∧ x.length = w := by
  obtain ⟨hw, hl, h1, n, hn, h0⟩ := hs
  have hnr : (CoxPropHazardsTransitionState.ofArray s).numRows ≠ 0 := by
    rw [cox_numRows_ofArray, h0, Double.toNat_natCast]; omega
  have hb : (CoxPropHazardsTransitionState.ofArray s).boundWidth = w := by
    show (s.getD 1 0).toNat = w
    rw [h1, Double.toNat_natCast]
  rw [cox_transition_eq] at h
  cases hx : isfinite x
  · simp [hx] at h
  · by_cases hxl : x.length = w
    · exact ⟨rfl, hxl⟩
    · simp [hx, hnr, hb, hxl] at h

/-- A first call of the Cox transition that returns had a finite row of at
most 65535 features. -/
theorem cox_transition_ok_first (exp log : Double → Double) (s x : List Double)
    (previous : Option (List Double)) (t : List Double)
    (hn : (CoxPropHazardsTransitionState.ofArray s).numRows = 0)
    (h : cox_prop_hazards_step_transition exp log s x previous = .ok t) :
    isfinite x = true ∧ x.length ≤ 65535 := by
  rw [cox_transition_eq] at h
  cases hx : isfinite x
  · simp [hx] at h
  · by_cases hxl : x.length ≤ 65535
    · exact ⟨rfl, hxl⟩
    · have : x.length > 65535 := by omega
      simp [hx, hn, this] at h

/-- The facts about the state a first call builds before its update
statements: the layout size, no rows, the width entry, zeros from `S` on. -/
theorem coxSeed_facts (w : ℕ) (previous : Option (List Double)) (hw : w ≤ 32767)
    (hp : ∀ P, previous = some P →
      P.length = 4 + 3 * w + 2 * (w * w) ∧ P.getD 1 0 = (w : Double)) :
    (coxSeed w previous).mStorage.length = 4 + 3 * w + 2 * (w * w) ∧
    (coxSeed w previous).mStorage.getD 0 0 = 0 ∧
    (coxSeed w previous).mStorage.getD 1 0 = (w : Double) ∧
    ∀ k, 2 + w ≤ k → (coxSeed w previous).mStorage.getD k 0 = 0 := by
  refine ⟨?_, ?_, ?_, ?_⟩
  · rw [length_coxSeed, cox_arraySize_eq _ hw]
  · rw [getD_coxSeed w previous 0 hw]
    cases previous with
    | none => exact if_neg (by omega)
    | some p => exact if_neg (by omega)
  · cases previous with
    | none => rw [getD_coxSeed_none w 1 (by omega), if_pos rfl]
    | some P => rw [getD_one_coxSeed_some w P (by omega)]; exact (hp P rfl).2
  · intro k hk
    rw [getD_coxSeed w previous k hw]
    cases previous with
    | none => exact if_neg (by omega)
    | some p => exact if_neg (by omega)

/-- Every reachable Cox state is a Cox state with rows whose `V` and `hessian`
are symmetric. -/
theorem coxReach_state (exp log : Double → Double) (w : ℕ) (s : List Double) (hw : w ≤ 32767)
    (h : CoxReach exp log w s) :
    IsCoxState s w ∧ IsSymmetric w ((s.drop (4 + 3 * w)).take (w * w)) ∧
      IsSymmetric w ((s.drop (4 + 3 * w + w * w)).take (w * w)) := by
  induction h with
  | first init x previous t hinit hx hp e =>
    subst hx
    obtain ⟨hfx, -⟩ := cox_transition_ok_first exp log init x previous t
      (cox_numRows_initial init hinit) e
    rw [cox_transition_first_row exp log init x previous hfx hinit hw] at e
    obtain ⟨hl, h0, h1, hz⟩ := coxSeed_facts x.length previous hw hp
    generalize (coxSeed x.length previous).mStorage = m at e hl h0 h1 hz
    have et : coxRow exp log m x.length x = t := Except.ok.inj e
    subst et
    have zV := take_drop_zero m (4 + 3 * x.length) (x.length * x.length) (by omega)
      (fun k h _ => hz k (by omega))
    have zG := take_drop_zero m (4 + 3 * x.length + x.length * x.length)
      (x.length * x.length) (by omega) (fun k h _ => hz k (by omega))
    refine ⟨isCoxState_coxRow_of exp log m x.length 0 x rfl (by omega) hl h1
      (by rw [h0, natCast_zero_double]), ?_⟩
    exact coxRow_symmetric exp log m x.length x hl rfl
      (by rw [zV]; exact isSymmetric_zeros _ _) (by rw [zG]; exact isSymmetric_zeros _ _)
  | next s x previous t _ e ih =>
    obtain ⟨hs, sV, sG⟩ := ih
    obtain ⟨hfx, hxl⟩ := cox_transition_ok_state exp log s x previous t w hs e
    subst hxl
    rw [cox_transition_next exp log s x previous hfx hs] at e
    have et : coxRow exp log s x.length x = t := Except.ok.inj e
    subst et
    exact ⟨isCoxState_coxRow exp log s x.length x rfl hs,
      coxRow_symmetric exp log s x.length x hs.2.1 rfl sV sG⟩
  | merge a b M _ _ e iha ihb =>
    obtain ⟨⟨hwa, hla, h1a, na, hna, h0a⟩, sVa, sGa⟩ := iha
    obtain ⟨⟨-, hlb, h1b, nb, hnb, h0b⟩, sVb, sGb⟩ := ihb
    obtain ⟨m, hadd, hml, m0, m1, -, -, -, -, -, m7, m8⟩ :=
      cox_add_reads a b w hla hlb (by rw [h1a, Double.toNat_natCast])
        (by rw [h1b, Double.toNat_natCast])
    rw [hadd] at e
    have eM : ({ mStorage := m, boundWidth := w } : CoxPropHazardsTransitionState) = M :=
      Except.ok.inj e
    subst eM
    have lV : ∀ c : List Double, c.length = 4 + 3 * w + 2 * (w * w) →
        ((c.drop (4 + 3 * w)).take (w * w)).length = w * w := by
      intro c hc
      simp only [List.length_take, List.length_drop, hc]; omega
    have lG : ∀ c : List Double, c.length = 4 + 3 * w + 2 * (w * w) →
        ((c.drop (4 + 3 * w + w * w)).take (w * w)).length = w * w := by
      intro c hc
      simp only [List.length_take, List.length_drop, hc]; omega
    refine ⟨⟨hwa, hml.trans hla, m1.trans h1a, na + nb, by omega, ?_⟩, ?_, ?_⟩
    · show m.getD 0 0 = _
      rw [m0, h0a, h0b, Double.toNat_natCast, natCast_add_double]
    · show IsSymmetric w ((m.drop (4 + 3 * w)).take (w * w))
      rw [m7]
      exact isSymmetric_vadd w _ _ (lV a hla) (lV b hlb) sVa sVb
    · show IsSymmetric w ((m.drop (4 + 3 * w + w * w)).take (w * w))
      rw [m8]
      exact isSymmetric_vadd w _ _ (lG a hla) (lG b hlb) sGa sGb

/-- Every reachable linear-regression state is an initial state, or a state
with rows whose `X_transp_X` block is symmetric. -/
theorem linRegrReach_state (s : List Double) (h : LinRegrReach s) :
    IsInitialState s ∨ ∃ w, IsLinRegrState s w ∧
      ∀ i j, i < w → j < w →
        s.getD (4 + w + w % 2 + (i + j * w)) 0 = s.getD (4 + w + w % 2 + (j + i * w)) 0 := by
  induction h with
  | initial s h => exact Or.inl h
  | transition s t y x _ e ih =>
    right
    rcases ih with hi | ⟨w, hs, hsym⟩
    · have hn := (reads_initial s hi).1
      obtain ⟨hy, hx, hle⟩ := linregr_transition_ok_first s t y x hn e
      rw [linregr_transition_first s y x hy hx hn hle] at e
      have et := Except.ok.inj e
      subst et
      have hst := isLinRegrState_first x.length y x hle rfl
      refine ⟨x.length, hst, ?_⟩
      intro i j hi hj
      obtain ⟨-, -, -, -, -, -, -, r8⟩ := reads_step (initializeState x.length).mStorage
        x.length y x hle rfl (by simp [initializeState])
        (by rw [getD_initializeState _ _ hle, if_pos rfl])
      obtain ⟨-, q⟩ := reads_state _ _ hst
      rw [← q i j hi hj, ← q j i hj hi, r8 i j hi hj, r8 j i hj hi,
        getD_initializeState _ _ hle, getD_initializeState _ _ hle, if_neg (by omega),
        if_neg (by omega), double_mul_comm]
    · obtain ⟨hy, hx, hxl⟩ := linregr_transition_ok_state s t w y x hs e
      subst hxl
      rw [linregr_transition_next s y x hy hx hs] at e
      have et := Except.ok.inj e
      subst et
      have hst := isLinRegrState_step s x.length y x rfl hs
      refine ⟨x.length, hst, ?_⟩
      intro i j hi hj
      obtain ⟨-, -, -, -, -, -, -, r8⟩ := reads_step s x.length y x hs.1 rfl hs.2.1 hs.2.2.1
      obtain ⟨-, q⟩ := reads_state _ _ hst
      rw [← q i j hi hj, ← q j i hj hi, r8 i j hi hj, r8 j i hj hi, hsym i j hi hj,
        double_mul_comm]
  | merge a b t _ _ e iha ihb =>
    rcases iha with hia | ⟨wa, hsa, hsyma⟩
    · rw [linregr_merge_states_left_initial a b (reads_initial a hia).1] at e
      have et := Except.ok.inj e
      subst et
      exact ihb
    · rcases ihb with hib | ⟨wb, hsb, hsymb⟩
      · rw [linregr_merge_states_right_initial a b (isLinRegrState_numRows a wa hsa)
          (reads_initial b hib).1] at e
        have et := Except.ok.inj e
        subst et
        exact Or.inr ⟨wa, hsa, hsyma⟩
      · right
        by_cases hww : wa = wb
        · subst hww
          rw [linregr_merge_states_eq a b wa hsa hsb] at e
          have et := Except.ok.inj e
          subst et
          refine ⟨wa, isLinRegrState_merge a b wa hsa hsb, ?_⟩
          intro i j hi hj
          have hla := hsa.2.1
          have hlb := hsb.2.1
          have hsz := arraySize_eq wa hsa.1
          have h1 := index_lt_sq wa i j hi hj
          have h2 := index_lt_sq wa j i hj hi
          rw [getD_set, getD_set, if_neg (by omega), if_neg (by omega),
            getD_vadd _ _ _ (by omega) (by omega), getD_vadd _ _ _ (by omega) (by omega),
            hsyma i j hi hj, hsymb i j hi hj]
        · rw [linregr_merge_states_mismatch a b wa wb hsa hsb hww] at e
          cases e

/-! ## Lemmas: the sign of `S` -/

theorem double_pos_add (a b : Double) (ha : Double.lt 0 a = true) (hb : Double.lt 0 b = true) :
    Double.lt 0 (a + b) = true := by
  cases a <;> cases b <;>
    first
    | rfl
    | exact absurd ha Bool.false_ne_true
    | exact absurd hb Bool.false_ne_true
    | (simp only [Double.zero_eq_finite, Double.finite_add_finite, Double.lt_finite,
        decide_eq_true_eq] at ha hb ⊢
       linarith)

theorem double_pos_mul_self (a : Double) (ha : Double.lt 0 a = true) :
    Double.lt 0 (a * a) = true := by
  cases a <;>
    first
    | rfl
    | exact absurd ha Bool.false_ne_true
    | (simp only [Double.zero_eq_finite, Double.finite_mul_finite, Double.lt_finite,
        decide_eq_true_eq] at ha ⊢
       exact mul_pos ha ha)

theorem isFinite_dot (a b : List Double) (ha : isfinite a = true) (hb : isfinite b = true) :
    (dot a b).isFinite = true := by
  obtain ⟨p, rfl⟩ := exists_map_finite a ha
  obtain ⟨q, rfl⟩ := exists_map_finite b hb
  rw [dot_finite]
  rfl

theorem isfinite_of_vadd (a b : List Double) (hl : a.length = b.length)
    (h : isfinite (vadd a b) = true) : isfinite a = true ∧ isfinite b = true := by
  induction a generalizing b with
  | nil =>
    cases b with
    | nil => exact ⟨rfl, rfl⟩
    | cons d ds => simp at hl
  | cons c cs ih =>
    cases b with
    | nil => simp at hl
    | cons d ds =>
      have hl' : cs.length = ds.length := by simpa using hl
      have hv : vadd (c :: cs) (d :: ds) = (c + d) :: vadd cs ds := rfl
      rw [hv] at h
      simp only [isfinite, List.all_cons, Bool.and_eq_true] at h ⊢
      obtain ⟨i1, i2⟩ := ih ds hl' h.2
      have hcd : c.isFinite = true ∧ d.isFinite = true := by
        have h1 := h.1
        cases c <;> cases d <;> first | exact ⟨rfl, rfl⟩ | exact absurd h1 Bool.false_ne_true
      exact ⟨⟨hcd.1, i1⟩, ⟨hcd.2, i2⟩⟩

/-- With `exp` positive on finite arguments, `S` is positive in every reachable
Cox state whose `coef` is finite. -/
theorem coxReach_pos (exp log : Double → Double) (w : ℕ) (s : List Double) (hw : w ≤ 32767)
    (hexp : ∀ d, d.isFinite = true → Double.lt 0 (exp d) = true)
    (h : CoxReach exp log w s) :
    isfinite ((s.drop 2).take w) = true → Double.lt 0 (s.getD (2 + w) 0) = true := by
  induction h with
  | first init x previous t hinit hx hp e =>
    subst hx
    obtain ⟨hfx, -⟩ := cox_transition_ok_first exp log init x previous t
      (cox_numRows_initial init hinit) e
    rw [cox_transition_first_row exp log init x previous hfx hinit hw] at e
    obtain ⟨hl, h0, h1, hz⟩ := coxSeed_facts x.length previous hw hp
    generalize (coxSeed x.length previous).mStorage = m at e hl h0 h1 hz
    have et : coxRow exp log m x.length x = t := Except.ok.inj e
    subst et
    obtain ⟨-, -, -, r3, r4, -⟩ := coxRow_reads exp log m x.length x hl rfl
    intro hc
    rw [r3] at hc
    rw [r4, hz _ (by omega), zero_add]
    exact hexp _ (isFinite_dot _ _ hc hfx)
  | next s x previous t hr e ih =>
    obtain ⟨hs, -, -⟩ := coxReach_state exp log w s hw hr
    obtain ⟨hfx, hxl⟩ := cox_transition_ok_state exp log s x previous t w hs e
    subst hxl
    rw [cox_transition_next exp log s x previous hfx hs] at e
    have et : coxRow exp log s x.length x = t := Except.ok.inj e
    subst et
    obtain ⟨-, -, -, r3, r4, -⟩ := coxRow_reads exp log s x.length x hs.2.1 rfl
    intro hc
    rw [r3] at hc
    rw [r4]
    exact double_pos_add _ _ (ih hc) (hexp _ (isFinite_dot _ _ hc hfx))
  | merge a b M hra hrb e iha ihb =>
    obtain ⟨⟨-, hla, h1a, -⟩, -, -⟩ := coxReach_state exp log w a hw hra
    obtain ⟨⟨-, hlb, h1b, -⟩, -, -⟩ := coxReach_state exp log w b hw hrb
    obtain ⟨m, hadd, hml, -, -, m2, m3, -⟩ :=
      cox_add_reads a b w hla hlb (by rw [h1a, Double.toNat_natCast])
        (by rw [h1b, Double.toNat_natCast])
    rw [hadd] at e
    have eM : ({ mStorage := m, boundWidth := w } : CoxPropHazardsTransitionState) = M :=
      Except.ok.inj e
    subst eM
    intro hc
    have hc' : isfinite (vadd ((a.drop 2).take w) ((b.drop 2).take w)) = true := by
      rw [← m2]; exact hc
    obtain ⟨fa, fb⟩ := isfinite_of_vadd _ _
      (by simp only [List.length_take, List.length_drop, hla, hlb]) hc'
    show Double.lt 0 (m.getD (2 + w) 0) = true
    rw [m3]
    exact double_pos_add _ _ (iha fa) (ihb fb)

/-! ## Lemmas: weighted moments -/

theorem sum_sum_mul_mul (w : ℕ) (v f : ℕ → ℚ) :
    ∑ i ∈ Finset.range w, ∑ j ∈ Finset.range w, v i * v j * (f i * f j)
      = (∑ i ∈ Finset.range w, v i * f i) ^ 2 := by
  rw [sq, Finset.sum_mul_sum]
  refine Finset.sum_congr rfl (fun i _ => Finset.sum_congr rfl (fun j _ => ?_))
  ring

theorem sum_lin_add (w : ℕ) (v h x : ℕ → ℚ) (e : ℚ) :
    ∑ i ∈ Finset.range w, v i * (h i + e * x i)
      = ∑ i ∈ Finset.range w, v i * h i + e * ∑ i ∈ Finset.range w, v i * x i := by
  rw [Finset.mul_sum, ← Finset.sum_add_distrib]
  refine Finset.sum_congr rfl (fun i _ => ?_)
  ring

theorem sum_quad_add (w : ℕ) (v x : ℕ → ℚ) (V : ℕ → ℕ → ℚ) (e : ℚ) :
    ∑ i ∈ Finset.range w, ∑ j ∈ Finset.range w, v i * v j * (V i j + x i * x j * e)
      = ∑ i ∈ Finset.range w, ∑ j ∈ Finset.range w, v i * v j * V i j
        + e * (∑ i ∈ Finset.range w, v i * x i) ^ 2 := by
  rw [← sum_sum_mul_mul, Finset.mul_sum, ← Finset.sum_add_distrib]
  refine Finset.sum_congr rfl (fun i _ => ?_)
  rw [Finset.mul_sum, ← Finset.sum_add_distrib]
  refine Finset.sum_congr rfl (fun j _ => ?_)
  ring

theorem sum_quad_hess (w : ℕ) (v h : ℕ → ℚ) (V G : ℕ → ℕ → ℚ) (c d : ℚ) :
    ∑ i ∈ Finset.range w, ∑ j ∈ Finset.range w,
        v i * v j * (G i j + (h i * h j / c - V i j / d))
      = ∑ i ∈ Finset.range w, ∑ j ∈ Finset.range w, v i * v j * G i j
        + ((∑ i ∈ Finset.range w, v i * h i) ^ 2 / c
          - (∑ i ∈ Finset.range w, ∑ j ∈ Finset.range w, v i * v j * V i j) / d) := by
  rw [← sum_sum_mul_mul, Finset.sum_div, Finset.sum_div, ← Finset.sum_sub_distrib,
    ← Finset.sum_add_distrib]
  refine Finset.sum_congr rfl (fun i _ => ?_)
  rw [Finset.sum_div, Finset.sum_div, ← Finset.sum_sub_distrib, ← Finset.sum_add_distrib]
  refine Finset.sum_congr rfl (fun j _ => ?_)
  ring

theorem sum_quad_sum (w : ℕ) (v : ℕ → ℚ) (A B : ℕ → ℕ → ℚ) :
    ∑ i ∈ Finset.range w, ∑ j ∈ Finset.range w, v i * v j * (A i j + B i j)
      = ∑ i ∈ Finset.range w, ∑ j ∈ Finset.range w, v i * v j * A i j
        + ∑ i ∈ Finset.range w, ∑ j ∈ Finset.range w, v i * v j * B i j := by
  rw [← Finset.sum_add_distrib]
  refine Finset.sum_congr rfl (fun i _ => ?_)
  rw [← Finset.sum_add_distrib]
  refine Finset.sum_congr rfl (fun j _ => ?_)
  ring

theorem sum_lin_sum (w : ℕ) (v a b : ℕ → ℚ) :
    ∑ i ∈ Finset.range w, v i * (a i + b i)
      = ∑ i ∈ Finset.range w, v i * a i + ∑ i ∈ Finset.range w, v i * b i := by
  rw [← Finset.sum_add_distrib]
  exact Finset.sum_congr rfl (fun i _ => by ring)

/-- One more weighted observation keeps the Cauchy-Schwarz inequality of the
weighted moments. -/
theorem moment_step (S e L a Q : ℚ) (hS : 0 ≤ S) (he : 0 < e) (hQ : 0 ≤ Q)
    (hLQ : L ^ 2 ≤ S * Q) : (L + e * a) ^ 2 ≤ (S + e) * (Q + e * a ^ 2) := by
  have key : 0 ≤ S * a ^ 2 - 2 * a * L + Q := by
    rcases eq_or_lt_of_le hS with h0 | hpos
    · have hL : L = 0 := by
        have : L ^ 2 ≤ 0 := by rw [← h0] at hLQ; simpa using hLQ
        exact pow_eq_zero_iff (two_ne_zero) |>.mp (le_antisymm this (sq_nonneg L))
      rw [← h0, hL]
      simpa using hQ
    · have h1 : 0 ≤ S * (S * a ^ 2 - 2 * a * L + Q) := by
        have : S * (S * a ^ 2 - 2 * a * L + Q) = (S * a - L) ^ 2 + (S * Q - L ^ 2) := by ring
        rw [this]
        have := sq_nonneg (S * a - L)
        linarith
      exact nonneg_of_mul_nonneg_right h1 hpos
  have : (S + e) * (Q + e * a ^ 2) - (L + e * a) ^ 2
      = (S * Q - L ^ 2) + e * (S * a ^ 2 - 2 * a * L + Q) := by ring
  have h2 : 0 ≤ e * (S * a ^ 2 - 2 * a * L + Q) := mul_nonneg he.le key
  linarith

theorem hess_step (S L Q : ℚ) (hS : 0 < S) (hLQ : L ^ 2 ≤ S * Q) :
    L ^ 2 / (S * S) - Q / S ≤ 0 := by
  have : L ^ 2 / (S * S) - Q / S = (L ^ 2 - S * Q) / (S * S) := by
    field_simp
    ring
  rw [this]
  exact div_nonpos_of_nonpos_of_nonneg (by linarith) (mul_pos hS hS).le

theorem moment_merge (Sa Sb La Lb Qa Qb : ℚ) (hSa : 0 ≤ Sa) (hSb : 0 ≤ Sb) (hQa : 0 ≤ Qa)
    (hQb : 0 ≤ Qb) (ha : La ^ 2 ≤ Sa * Qa) (hb : Lb ^ 2 ≤ Sb * Qb) :
    (La + Lb) ^ 2 ≤ (Sa + Sb) * (Qa + Qb) := by
  have hT : 0 ≤ Sa * Qb + Sb * Qa := by positivity
  have h1 : La ^ 2 * Lb ^ 2 ≤ (Sa * Qa) * (Sb * Qb) :=
    mul_le_mul ha hb (sq_nonneg _) (by positivity)
  have h2 : (2 * La * Lb) ^ 2 ≤ (Sa * Qb + Sb * Qa) ^ 2 := by
    have := sq_nonneg (Sa * Qb - Sb * Qa)
    nlinarith
  have h3 : 2 * La * Lb ≤ Sa * Qb + Sb * Qa := by
    by_contra hc
    push_neg at hc
    nlinarith
  nlinarith

/-! ## Lemmas: the moments of reachable Cox states -/

theorem coxMoment_zero (w : ℕ) (m : List Double) (hz : ∀ k, 2 + w ≤ k → m.getD k 0 = 0) :
    CoxMoment w m := by
  refine ⟨0, fun _ => 0, fun _ _ => 0, fun _ _ => 0, hz _ (by omega),
    fun i _ => hz _ (by omega), fun i j _ _ => hz _ (by omega), fun i j _ _ => hz _ (by omega),
    le_refl _, fun v => ?_⟩
  simp

theorem coxMoment_add (w : ℕ) (a b m : List Double)
    (hg : ∀ k, k < 4 + 3 * w + 2 * (w * w) → m.getD k 0 = a.getD k 0 +
      (if k = 0 then (((b.getD 0 0).toNat : ℕ) : Double) else if k = 1 then 0 else b.getD k 0))
    (ha : CoxMoment w a) (hb : CoxMoment w b) : CoxMoment w m := by
  obtain ⟨Sa, ha1, Va, Ga, eSa, eha, eVa, eGa, pSa, qa⟩ := ha
  obtain ⟨Sb, hb1, Vb, Gb, eSb, ehb, eVb, eGb, pSb, qb⟩ := hb
  have hk : ∀ k, 2 ≤ k → k < 4 + 3 * w + 2 * (w * w) → m.getD k 0 = a.getD k 0 + b.getD k 0 := by
    intro k h2 hlt
    rw [hg k hlt, if_neg (by omega), if_neg (by omega)]
  refine ⟨Sa + Sb, fun i => ha1 i + hb1 i, fun i j => Va i j + Vb i j,
    fun i j => Ga i j + Gb i j, ?_, ?_, ?_, ?_, add_nonneg pSa pSb, fun v => ?_⟩
  · rw [hk _ (by omega) (by omega), eSa, eSb, Double.finite_add_finite]
  · intro i hi
    rw [hk _ (by omega) (by omega), eha i hi, ehb i hi, Double.finite_add_finite]
  · intro i j hi hj
    have := index_lt_sq w i j hi hj
    rw [hk _ (by omega) (by omega), eVa i j hi hj, eVb i j hi hj, Double.finite_add_finite]
  · intro i j hi hj
    have := index_lt_sq w i j hi hj
    rw [hk _ (by omega) (by omega), eGa i j hi hj, eGb i j hi hj, Double.finite_add_finite]
  · obtain ⟨a1, a2, a3⟩ := qa v
    obtain ⟨b1, b2, b3⟩ := qb v
    rw [sum_quad_sum, sum_quad_sum, sum_lin_sum]
    exact ⟨add_nonneg a1 b1, moment_merge _ _ _ _ _ _ pSa pSb a1 b1 a2 b2, by linarith⟩

/-- One row of the Cox transition, with a finite `coef`, a finite row and a
positive finite `exp`, keeps the moment invariant. -/
theorem coxMoment_coxRow (exp log : Double → Double) (m : List Double) (w : ℕ)
    (xq cq : List ℚ) (hexp : ∀ q : ℚ, ∃ e : ℚ, 0 < e ∧ exp (Double.finite q) = Double.finite e)
    (hm : m.length = 4 + 3 * w + 2 * (w * w)) (hx : xq.length = w)
    (hc : (m.drop 2).take w = cq.map Double.finite) (hM : CoxMoment w m) :
    CoxMoment w (coxRow exp log m w (xq.map Double.finite)) := by
  obtain ⟨S, h, V, G, eS, eh, eV, eG, pS, q⟩ := hM
  have hxl : (xq.map Double.finite).length = w := by rw [List.length_map, hx]
  obtain ⟨-, -, -, -, r4, r5, r6, -, r8, -⟩ :=
    coxRow_reads exp log m w (xq.map Double.finite) hm hxl
  rw [hc, dot_finite] at r4 r5 r6
  obtain ⟨e, he, hexpq⟩ := hexp (dotQ cq xq)
  rw [hexpq] at r4 r5 r6
  generalize coxRow exp log m w (xq.map Double.finite) = r at r4 r5 r6 r8 ⊢
  have hSe : S + e ≠ 0 := by linarith
  have hSe2 : (S + e) * (S + e) ≠ 0 := mul_ne_zero hSe hSe
  have lH : ((m.drop (3 + w)).take w).length = w := by
    simp only [List.length_take, List.length_drop, hm]; omega
  have lV : ((m.drop (4 + 3 * w)).take (w * w)).length = w * w := by
    simp only [List.length_take, List.length_drop, hm]; omega
  have lG : ((m.drop (4 + 3 * w + w * w)).take (w * w)).length = w * w := by
    simp only [List.length_take, List.length_drop, hm]; omega
  have lo : (outer (xq.map Double.finite)).length = w * w := by rw [length_outer, hxl]
  have lH1 : ((r.drop (3 + w)).take w).length = w := by
    rw [r5, length_vadd, lH, List.length_map, hxl, min_self]
  have lV1 : ((r.drop (4 + 3 * w)).take (w * w)).length = w * w := by
    rw [r6, length_vadd, lV, List.length_map, lo, min_self]
  have e1 : r.getD (2 + w) 0 = Double.finite (S + e) := by
    rw [r4, eS, Double.finite_add_finite]
  have e2 : ∀ i, i < w → r.getD (3 + w + i) 0 = Double.finite (h i + e * xq.getD i 0) := by
    intro i hi
    rw [← getD_take_drop r (3 + w) w i hi, r5,
      getD_vadd _ _ _ (by omega) (by rw [List.length_map, hxl]; exact hi),
      getD_take_drop _ _ _ _ hi, eh i hi, getD_map_lt _ _ _ (by omega), getD_map_finite,
      Double.finite_mul_finite, Double.finite_add_finite]
  have e3 : ∀ i j, i < w → j < w → r.getD (4 + 3 * w + (i + j * w)) 0
      = Double.finite (V i j + xq.getD i 0 * xq.getD j 0 * e) := by
    intro i j hi hj
    have hidx := index_lt_sq w i j hi hj
    have ho := getD_outer (xq.map Double.finite) i j (by omega) (by omega)
    rw [hxl] at ho
    rw [← getD_take_drop r (4 + 3 * w) (w * w) _ hidx, r6,
      getD_vadd _ _ _ (by omega) (by rw [List.length_map, lo]; exact hidx),
      getD_take_drop _ _ _ _ hidx, eV i j hi hj, getD_map_lt _ _ _ (by omega), ho,
      getD_map_finite, getD_map_finite, Double.finite_mul_finite, Double.finite_mul_finite,
      Double.finite_add_finite]
  have e4 : ∀ i j, i < w → j < w → r.getD (4 + 3 * w + w * w + (i + j * w)) 0
      = Double.finite (G i j
        + ((h i + e * xq.getD i 0) * (h j + e * xq.getD j 0) / ((S + e) * (S + e))
          - (V i j + xq.getD i 0 * xq.getD j 0 * e) / (S + e))) := by
    intro i j hi hj
    have hidx := index_lt_sq w i j hi hj
    have ho := getD_outer ((r.drop (3 + w)).take w) i j (by omega) (by omega)
    rw [lH1, getD_take_drop _ _ _ _ hi, getD_take_drop _ _ _ _ hj, e2 i hi, e2 j hj,
      Double.finite_mul_finite] at ho
    have hv : ((r.drop (4 + 3 * w)).take (w * w)).getD (i + j * w) 0
        = Double.finite (V i j + xq.getD i 0 * xq.getD j 0 * e) := by
      rw [getD_take_drop _ _ _ _ hidx, e3 i j hi hj]
    rw [← getD_take_drop r (4 + 3 * w + w * w) (w * w) _ hidx, r8,
      getD_vadd _ _ _ (by omega)
        (by rw [List.length_zipWith, List.length_map, List.length_map, length_outer, lH1, lV1,
              min_self]; exact hidx),
      getD_take_drop _ _ _ _ hidx, eG i j hi hj,
      getD_zipWith_lt _ _ _ _ (by rw [List.length_map, length_outer, lH1]; exact hidx)
        (by rw [List.length_map, lV1]; exact hidx),
      getD_map_lt _ _ _ (by rw [length_outer, lH1]; exact hidx),
      getD_map_lt _ _ _ (by rw [lV1]; exact hidx), ho, hv, e1]
    simp only [Double.finite_mul_finite, Double.finite_div_finite _ _ hSe2,
      Double.finite_div_finite _ _ hSe, Double.finite_sub_finite, Double.finite_add_finite]
  refine ⟨S + e, fun i => h i + e * xq.getD i 0,
    fun i j => V i j + xq.getD i 0 * xq.getD j 0 * e,
    fun i j => G i j
      + ((h i + e * xq.getD i 0) * (h j + e * xq.getD j 0) / ((S + e) * (S + e))
        - (V i j + xq.getD i 0 * xq.getD j 0 * e) / (S + e)),
    e1, e2, e3, e4, by linarith, fun v => ?_⟩
  obtain ⟨q1, q2, q3⟩ := q v
  have hL := sum_lin_add w v h (fun i => xq.getD i 0) e
  have hQ := sum_quad_add w v (fun i => xq.getD i 0) V e
  have hG := sum_quad_hess w v (fun i => h i + e * xq.getD i 0)
    (fun i j => V i j + xq.getD i 0 * xq.getD j 0 * e) G ((S + e) * (S + e)) (S + e)
  simp only [] at hL hQ hG ⊢
  have hstep := moment_step S e _ (∑ i ∈ Finset.range w, v i * xq.getD i 0) _ pS he q1 q2
  rw [hG, hL, hQ]
  refine ⟨add_nonneg q1 (mul_nonneg he.le (sq_nonneg _)), hstep, ?_⟩
  have := hess_step (S + e) _ _ (by linarith) hstep
  linarith

/-- With `exp` finite and positive on finite arguments, every reachable Cox
state whose `coef` is finite satisfies the moment invariant. -/
theorem coxReach_moment (exp log : Double → Double) (w : ℕ) (s : List Double) (hw : w ≤ 32767)
    (hexp : ∀ q : ℚ, ∃ e : ℚ, 0 < e ∧ exp (Double.finite q) = Double.finite e)
    (h : CoxReach exp log w s) :
    isfinite ((s.drop 2).take w) = true → CoxMoment w s := by
  induction h with
  | first init x previous t hinit hx hp e =>
    subst hx
    obtain ⟨hfx, -⟩ := cox_transition_ok_first exp log init x previous t
      (cox_numRows_initial init hinit) e
    rw [cox_transition_first_row exp log init x previous hfx hinit hw] at e
    obtain ⟨hl, h0, h1, hz⟩ := coxSeed_facts x.length previous hw hp
    generalize (coxSeed x.length previous).mStorage = m at e hl h0 h1 hz
    have et : coxRow exp log m x.length x = t := Except.ok.inj e
    subst et
    obtain ⟨-, -, -, r3, -⟩ := coxRow_reads exp log m x.length x hl rfl
    intro hc
    rw [r3] at hc
    obtain ⟨cq, hcq⟩ := exists_map_finite _ hc
    obtain ⟨xq, rfl⟩ := exists_map_finite x hfx
    rw [List.length_map] at hl hz hcq ⊢
    exact coxMoment_coxRow exp log m xq.length xq cq hexp hl rfl hcq
      (coxMoment_zero _ m hz)
  | next s x previous t hr e ih =>
    obtain ⟨hs, -, -⟩ := coxReach_state exp log w s hw hr
    obtain ⟨hfx, hxl⟩ := cox_transition_ok_state exp log s x previous t w hs e
    subst hxl
    rw [cox_transition_next exp log s x previous hfx hs] at e
    have et : coxRow exp log s x.length x = t := Except.ok.inj e
    subst et
    obtain ⟨-, -, -, r3, -⟩ := coxRow_reads exp log s x.length x hs.2.1 rfl
    intro hc
    rw [r3] at hc
    have hM := ih hc
    have hl := hs.2.1
    obtain ⟨cq, hcq⟩ := exists_map_finite _ hc
    obtain ⟨xq, rfl⟩ := exists_map_finite x hfx
    rw [List.length_map] at hl hM hcq ⊢
    exact coxMoment_coxRow exp log s xq.length xq cq hexp hl rfl hcq hM
  | merge a b M hra hrb e iha ihb =>
    obtain ⟨⟨-, hla, h1a, -⟩, -, -⟩ := coxReach_state exp log w a hw hra
    obtain ⟨⟨-, hlb, h1b, -⟩, -, -⟩ := coxReach_state exp log w b hw hrb
    obtain ⟨m, hadd, hml, hg⟩ :=
      getD_cox_add a b w hla hlb (by rw [h1a, Double.toNat_natCast])
        (by rw [h1b, Double.toNat_natCast])
    rw [hadd] at e
    have eM : ({ mStorage := m, boundWidth := w } : CoxPropHazardsTransitionState) = M :=
      Except.ok.inj e
    subst eM
    intro hc
    have m2 := cox_add_view a b m _ 2 w (hml.trans hla) hla hlb (by omega) (by omega) hg
    have hc' : isfinite (vadd ((a.drop 2).take w) ((b.drop 2).take w)) = true := by
      rw [← m2]; exact hc
    obtain ⟨fa, fb⟩ := isfinite_of_vadd _ _
      (by simp only [List.length_take, List.length_drop, hla, hlb]) hc'
    exact coxMoment_add w a b m hg (iha fa) (ihb fb)

theorem isfinite_of_getD (l : List Double)
    (h : ∀ k, k < l.length → (l.getD k 0).isFinite = true) : isfinite l = true := by
  unfold isfinite
  rw [List.all_eq_true]
  intro d hd
  obtain ⟨k, hk, rfl⟩ := List.getElem_of_mem hd
  have := h k hk
  rwa [List.getD_eq_getElem _ _ hk] at this

theorem div_add_mod_index (w k : ℕ) (hk : k < w * w) :
    k % w < w ∧ k / w < w ∧ k % w + k / w * w = k := by
  have hw : 0 < w := by
    rcases Nat.eq_zero_or_pos w with h | h
    · subst h; simp at hk
    · exact h
  refine ⟨Nat.mod_lt _ hw, Nat.div_lt_of_lt_mul hk, ?_⟩
  rw [Nat.mul_comm]
  exact Nat.mod_add_div k w

/-- The quadratic form of a matrix stored column by column, as a double sum
over the indices. -/
theorem dotProduct_mulVec_eq (w : ℕ) (g : List ℚ) (v : Fin w → ℚ) :
    Matrix.dotProduct v ((matrixOfList w g).mulVec v)
      = ∑ i ∈ Finset.range w, ∑ j ∈ Finset.range w,
          (if h : i < w then v ⟨i, h⟩ else 0) * (if h : j < w then v ⟨j, h⟩ else 0)
            * g.getD (i + j * w) 0 := by
  rw [Finset.sum_range]
  simp only [Matrix.dotProduct, Matrix.mulVec, matrixOfList]
  refine Finset.sum_congr rfl (fun i _ => ?_)
  rw [Finset.sum_range, Finset.mul_sum]
  refine Finset.sum_congr rfl (fun j _ => ?_)
  rw [dif_pos i.isLt, dif_pos j.isLt]
  simp only [Fin.eta]
  ring

/-! ## Rounded arithmetic with no rounding is the exact arithmetic -/

theorem rounded_addBlock_id (s : List Double) (off : ℕ) (v : List Double) :
    Rounded.addBlock id s off v = addBlock s off v := by
  apply ext_getD
  · simp [Rounded.addBlock]
  · intro k hk
    have hk2 : k < s.length := by simpa [Rounded.addBlock] using hk
    rw [Rounded.addBlock, getD_map_range _ _ _ hk2, getD_addBlock _ _ _ _ hk2]
    split
    · rfl
    · exact (add_zero _).symm

theorem rounded_accumulate_id (state : LinRegrTransitionState) (y : Double) (x : List Double) :
    Rounded.accumulate id state y x = state.accumulate y x := by
  simp only [Rounded.accumulate, LinRegrTransitionState.accumulate, rounded_addBlock_id,
    List.map_id, id]

theorem rounded_linregr_transition_id (args0 : List Double) (y : Double) (x : List Double) :
    Rounded.linregr_transition id args0 y x = linregr_transition args0 y x := by
  simp only [Rounded.linregr_transition, linregr_transition, rounded_accumulate_id]

/-- With the identity for the rounding, the aggregate in rounded arithmetic is
`linregr_fold`. -/
theorem rounded_linregr_fold_id (init : List Double) (rows : List (Double × List Double)) :
    Rounded.linregr_fold id init rows = linregr_fold init rows := by
  simp only [Rounded.linregr_fold, linregr_fold, rounded_linregr_transition_id]

theorem rounded_sumProducts_id (terms : List (Double × Double)) (acc : Double) :
    terms.foldl (fun acc t => id (acc + id (t.1 * t.2))) acc
      = acc + (terms.map (fun t => t.1 * t.2)).sum := by
  induction terms generalizing acc with
  | nil => exact (add_zero _).symm
  | cons t ts ih =>
    rw [List.foldl_cons, ih, List.map_cons, List.sum_cons]
    exact add_assoc _ _ _

theorem rounded_dot_id (a b : List Double) : Rounded.dot id a b = dot a b := by
  rw [Rounded.dot, Rounded.sumProducts, rounded_sumProducts_id, zero_add, dot,
    ← List.map_uncurry_zip_eq_zipWith]
  rfl

theorem rounded_matVec_id (w : ℕ) (m v : List Double) :
    Rounded.matVec id w m v = matVec w m v := by
  simp only [Rounded.matVec, matVec, Rounded.sumProducts, rounded_sumProducts_id, zero_add,
    List.map_map]
  rfl

theorem rounded_linregr_final_stat_id (sqrt : Double → Double) (variance : Double) (w : ℕ)
    (inverse_of_X_transp_X coef : List Double) (i : ℕ) :
    Rounded.linregr_final_stat id sqrt variance w inverse_of_X_transp_X coef i
      = linregr_final_stat sqrt variance w inverse_of_X_transp_X coef i := rfl

/-- With the identity for the rounding, the final function in rounded arithmetic
is `linregr_final`. -/
theorem rounded_linregr_final_id (pseudoInverse : ℕ → List Double → List Double)
    (conditionNo : ℕ → List Double → Double) (sqrt : Double → Double) (args0 : List Double) :
    Rounded.linregr_final id pseudoInverse conditionNo sqrt args0
      = linregr_final pseudoInverse conditionNo sqrt args0 := by
  have h : Rounded.linregr_final_stat id sqrt = linregr_final_stat sqrt := rfl
  simp only [Rounded.linregr_final, linregr_final, rounded_dot_id, rounded_matVec_id, h, id]

/-- The rounding at a few values: `0.3` and `1/3` (53 significant bits), a
number that is a binary64 number already, `2 ^ 64 - 1` (rounded up to `2 ^ 64`),
a tie (`2 ^ 53 + 1`, rounded to the even neighbour `2 ^ 53`), the subnormal
range (half of the smallest positive number is rounded to 0, three halves of it
to twice it) and the overflow threshold. -/
theorem round64_values :
    Double.round64 (Double.finite (3 / 10))
      = Double.finite (5404319552844595 / 18014398509481984) ∧
    Double.round64 (Double.finite (1 / 3))
      = Double.finite (6004799503160661 / 18014398509481984) ∧
    Double.round64 (Double.finite (5404319552844595 / 18014398509481984))
      = Double.finite (5404319552844595 / 18014398509481984) ∧
    Double.round64 (Double.finite 18446744073709551615) = Double.finite 18446744073709551616 ∧
    Double.round64 (Double.finite 9007199254740993) = Double.finite 9007199254740992 ∧
    Double.round64 (Double.finite (Double.pow2 (-1075))) = 0 ∧
    Double.round64 (Double.finite (3 * Double.pow2 (-1075)))
      = Double.finite (2 * Double.pow2 (-1074)) ∧
    Double.round64 (Double.finite (Double.pow2 1024 - Double.pow2 970)) = Double.posInf ∧
    Double.round64 (Double.finite (Double.pow2 1024 - Double.pow2 970 - 1))
      = Double.finite (Double.pow2 1024 - Double.pow2 971) ∧
    Double.round64 (Double.finite (-(Double.pow2 1024))) = Double.negInf ∧
    Double.round64 Double.nan = Double.nan := by
  decide!

/-! ## Claims -/

/-- C1. On success the linear transition is pure accumulation. For an initial
state (all zeros) and a row of at most 65535 features, or for a state of the
width of the row, and a finite `y` and finite `x`, `linregr_transition` returns
a state with one more row, `y_sum` increased by `y`, `y_square_sum` by `y * y`,
`X_transp_Y` by `x * y`, `X_transp_X` by `x * trans(x)` (entry by entry, the
empty vector and matrix of an initial state reading as zero), and of width
`x.size()`. -/
theorem linregr_transition_accumulates (s : List Double) (y : Double) (x : List Double)
    (hy : y.isFinite = true) (hx : isfinite x = true)
    (hs : (IsInitialState s ∧ x.length ≤ 65535) ∨ IsLinRegrState s x.length) :
    ∃ t, linregr_transition s y x = .ok t ∧
      (ofArray t).numRows = (ofArray s).numRows + 1 ∧
      (ofArray t).y_sum = (ofArray s).y_sum + y ∧
      (ofArray t).y_square_sum = (ofArray s).y_square_sum + y * y ∧
      (ofArray t).widthOfX = x.length ∧
      (ofArray t).X_transp_Y.length = x.length ∧
      (ofArray t).X_transp_X.length = x.length * x.length ∧
      (∀ i, i < x.length →
        (ofArray t).X_transp_Y_at i = (ofArray s).X_transp_Y_at i + x.getD i 0 * y) ∧
      (∀ i j, i < x.length → j < x.length →
        (ofArray t).X_transp_X_at i j
          = (ofArray s).X_transp_X_at i j + x.getD i 0 * x.getD j 0) := by
  rcases hs with ⟨hinit, hw⟩ | hs
  · obtain ⟨hn, hys, hyy, hxty, hxtx⟩ := reads_initial s hinit
    refine ⟨_, linregr_transition_first s y x hy hx hn hw, ?_⟩
    obtain ⟨r0, r2, r3, r4, r5, r6, r7, r8⟩ :=
      reads_step (initializeState x.length).mStorage x.length y x hw rfl (by simp)
        (by rw [getD_initializeState _ _ hw]; simp)
    refine ⟨?_, ?_, ?_, r4, r5, r6, ?_, ?_⟩
    · rw [numRows_ofArray, r0, hn, getD_initializeState _ _ hw]
      simp [Double.zero_eq_finite, Double.one_eq_finite]
    · rw [r2, hys, getD_initializeState _ _ hw]; simp
    · rw [r3, hyy, getD_initializeState _ _ hw]; simp
    · intro i hi
      rw [r7 i hi, hxty, getD_initializeState _ _ hw, if_neg (by omega)]
    · intro i j hi hj
      rw [r8 i j hi hj, hxtx, getD_initializeState _ _ hw, if_neg (by omega)]
  · refine ⟨_, linregr_transition_next s y x hy hx hs, ?_⟩
    obtain ⟨hw, hl, h1, n, hn, h0⟩ := hs
    obtain ⟨r0, r2, r3, r4, r5, r6, r7, r8⟩ := reads_step s x.length y x hw rfl hl h1
    obtain ⟨q7, q8⟩ := reads_state s x.length ⟨hw, hl, h1, n, hn, h0⟩
    refine ⟨?_, r2, r3, r4, r5, r6, ?_, ?_⟩
    · rw [numRows_ofArray, r0, numRows_ofArray, h0]
      have : ((n : ℕ) : Double) + 1 = ((n + 1 : ℕ) : Double) := by
        simp [Double.natCast_eq_finite, Double.one_eq_finite]
      rw [this, Double.toNat_natCast, Double.toNat_natCast]
    · intro i hi
      rw [r7 i hi, q7 i hi]
    · intro i j hi hj
      rw [r8 i j hi hj, q8 i j hi hj]

/-- C1 at a concrete input: the second row `(5, [1, 2])` folded into the state
that holds the row `(3, [1, 1])`. -/
theorem linregr_transition_accumulates_witness :
    ∃ t, linregr_transition ([1, 2, 3, 9, 3, 3, 1, 1, 1, 1].map Double.finite)
        (Double.finite 5) [Double.finite 1, Double.finite 2] = .ok t ∧
      (ofArray t).numRows = (ofArray ([1, 2, 3, 9, 3, 3, 1, 1, 1, 1].map Double.finite)).numRows + 1 ∧
      (ofArray t).y_sum = Double.finite 8 ∧
      (ofArray t).widthOfX = 2 := by
  obtain ⟨t, h, h0, h2, -, h4, -⟩ :=
    linregr_transition_accumulates ([1, 2, 3, 9, 3, 3, 1, 1, 1, 1].map Double.finite)
      (Double.finite 5) [Double.finite 1, Double.finite 2] (by decide) (by decide)
      (Or.inr ⟨by decide, by decide, by decide!, 1, by decide, by decide!⟩)
  refine ⟨t, h, h0, ?_, h4⟩
  rw [h2]
  decide!

/-- C2. Partition invariance of the linear aggregate: for two lists of finite
rows whose vectors all have the same length `w`, each list possibly empty,
merging (with `linregr_merge_states`) the folds of `linregr_transition` over the
two lists from the initial state is folding over their concatenation: the two
computations fail alike or return the same state array. When `w` is at most
65535 all the folds succeed; `linregr_final` on the merged state is then
`linregr_final` on the state of the single pass. -/
theorem linregr_partition_invariance (init : List Double) (w : ℕ)
    (l1 l2 : List (Double × List Double)) (hinit : IsInitialState init)
    (h1 : GoodRows w l1) (h2 : GoodRows w l2) :
    (linregr_fold init l1).bind
        (fun a => (linregr_fold init l2).bind (fun b => linregr_merge_states a b))
      = linregr_fold init (l1 ++ l2) ∧
    (w ≤ 65535 →
      ∃ a b c, linregr_fold init l1 = .ok a ∧ linregr_fold init l2 = .ok b ∧
        linregr_fold init (l1 ++ l2) = .ok c ∧ linregr_merge_states a b = .ok c ∧
        ∀ pseudoInverse conditionNo sqrt,
          (linregr_merge_states a b).bind (linregr_final pseudoInverse conditionNo sqrt)
            = linregr_final pseudoInverse conditionNo sqrt c) := by
  have hn : (ofArray init).numRows = 0 := (reads_initial init hinit).1
  have key : w ≤ 65535 → ∃ a b c, linregr_fold init l1 = .ok a ∧ linregr_fold init l2 = .ok b ∧
      linregr_fold init (l1 ++ l2) = .ok c ∧ linregr_merge_states a b = .ok c := by
    intro hw
    cases l1 with
    | nil =>
      cases l2 with
      | nil =>
        refine ⟨init, init, init, rfl, rfl, rfl, ?_⟩
        simp [linregr_merge_states, hn]
      | cons r rs =>
        obtain ⟨e, -⟩ := linregr_fold_initial w r rs init hn hw h2
        refine ⟨init, _, _, rfl, e, by simpa using e, ?_⟩
        simp [linregr_merge_states, hn]
    | cons r rs =>
      obtain ⟨e1, s1⟩ := linregr_fold_initial w r rs init hn hw h1
      cases l2 with
      | nil =>
        refine ⟨_, init, _, e1, rfl, by simpa using e1, ?_⟩
        have hna := isLinRegrState_numRows _ w s1
        simp [linregr_merge_states, hn, hna]
      | cons r2 rs2 =>
        obtain ⟨e2, s2⟩ := linregr_fold_initial w r2 rs2 init hn hw h2
        have h12 : GoodRows w (r :: rs ++ r2 :: rs2) := by
          intro q hq
          rcases List.mem_append.mp hq with hq | hq
          · exact h1 q hq
          · exact h2 q hq
        obtain ⟨e3, -⟩ := linregr_fold_initial w r (rs ++ r2 :: rs2) init hn hw h12
        refine ⟨_, _, _, e1, e2, e3, ?_⟩
        rw [linregr_merge_states_eq _ _ w s1 s2, merge_accumulated w _ _ hw h1 h2]
        rfl
  constructor
  · by_cases hw : w ≤ 65535
    · obtain ⟨a, b, c, ha, hb, hc, hm⟩ := key hw
      rw [ha, hb, hc]
      exact hm
    · have hgt : 65535 < w := by omega
      cases l1 with
      | nil =>
        cases l2 with
        | nil =>
          show linregr_merge_states init init = .ok init
          simp [linregr_merge_states, hn]
        | cons r rs =>
          rw [List.nil_append, linregr_fold_too_wide w r rs init hn hgt h2]
          rfl
      | cons r rs =>
        have h12 : GoodRows w (r :: (rs ++ l2)) := by
          intro q hq
          rcases List.mem_cons.mp hq with hq | hq
          · exact h1 q (hq ▸ List.mem_cons_self _ _)
          · rcases List.mem_append.mp hq with hq | hq
            · exact h1 q (List.mem_cons_of_mem _ hq)
            · exact h2 q hq
        rw [List.cons_append, linregr_fold_too_wide w r rs init hn hgt h1,
          linregr_fold_too_wide w r (rs ++ l2) init hn hgt h12]
        rfl
  · intro hw
    obtain ⟨a, b, c, ha, hb, hc, hm⟩ := key hw
    refine ⟨a, b, c, ha, hb, hc, hm, ?_⟩
    intro p q r
    rw [hm]
    rfl

/-- C2 at a concrete input: the shards `[(3, [1, 1])]` and `[(5, [1, 2])]`. -/
theorem linregr_partition_invariance_witness :
    (linregr_fold [0, 0, 0, 0, 0] [(Double.finite 3, [Double.finite 1, Double.finite 1])]).bind
        (fun a =>
          (linregr_fold [0, 0, 0, 0, 0]
            [(Double.finite 5, [Double.finite 1, Double.finite 2])]).bind
            (fun b => linregr_merge_states a b))
      = linregr_fold [0, 0, 0, 0, 0] ([(Double.finite 3, [Double.finite 1, Double.finite 1])] ++
          [(Double.finite 5, [Double.finite 1, Double.finite 2])]) ∧
    linregr_fold [0, 0, 0, 0, 0] ([(Double.finite 3, [Double.finite 1, Double.finite 1])] ++
        [(Double.finite 5, [Double.finite 1, Double.finite 2])])
      = .ok ([2, 2, 8, 34, 8, 13, 2, 3, 3, 5].map Double.finite) :=
  ⟨(linregr_partition_invariance [0, 0, 0, 0, 0] 2
      [(Double.finite 3, [Double.finite 1, Double.finite 1])]
      [(Double.finite 5, [Double.finite 1, Double.finite 2])]
      ⟨by decide, by decide⟩
      (by intro r hr; simp only [List.mem_singleton] at hr; subst hr; decide)
      (by intro r hr; simp only [List.mem_singleton] at hr; subst hr; decide)).1,
    by decide!⟩

/-- C3. Merge identity for the linear model: for an initial state `I` (no
rows, all zeros, of any size) and any state array `A` (whose only way of having
no rows is to be an initial state itself), `linregr_merge_states I A` returns
`A`, and `linregr_merge_states A I` returns without error a state that stands
for the same accumulator as `A`: the array `A` itself when `A` holds rows. No
relation between the sizes of `I` and `A` is assumed. -/
theorem linregr_merge_identity (A I : List Double) (hI : IsInitialState I)
    (hA : (ofArray A).numRows = 0 → IsInitialState A) :
    linregr_merge_states I A = .ok A ∧
      ∃ r, linregr_merge_states A I = .ok r ∧ accumulator r = accumulator A ∧
        ((ofArray A).numRows ≠ 0 → r = A) := by
  have hn : (ofArray I).numRows = 0 := (reads_initial I hI).1
  refine ⟨linregr_merge_states_left_initial I A hn, ?_⟩
  by_cases h : (ofArray A).numRows = 0
  · refine ⟨I, linregr_merge_states_left_initial A I h, ?_, fun hh => absurd h hh⟩
    rw [accumulator_initial I hI, accumulator_initial A (hA h)]
  · exact ⟨A, linregr_merge_states_right_initial A I h hn, rfl, fun _ => rfl⟩

/-- C3 at a concrete input: a state of width 2 with one row and the initial
state of five zeros. -/
theorem linregr_merge_identity_witness :
    linregr_merge_states [0, 0, 0, 0, 0] ([1, 2, 3, 9, 3, 3, 1, 1, 1, 1].map Double.finite)
        = .ok ([1, 2, 3, 9, 3, 3, 1, 1, 1, 1].map Double.finite) ∧
      ∃ r, linregr_merge_states ([1, 2, 3, 9, 3, 3, 1, 1, 1, 1].map Double.finite) [0, 0, 0, 0, 0]
          = .ok r ∧
        accumulator r = accumulator ([1, 2, 3, 9, 3, 3, 1, 1, 1, 1].map Double.finite) ∧
        ((ofArray ([1, 2, 3, 9, 3, 3, 1, 1, 1, 1].map Double.finite)).numRows ≠ 0 →
          r = [1, 2, 3, 9, 3, 3, 1, 1, 1, 1].map Double.finite) :=
  linregr_merge_identity ([1, 2, 3, 9, 3, 3, 1, 1, 1, 1].map Double.finite) [0, 0, 0, 0, 0]
    ⟨by decide, by decide⟩ (fun h => absurd h (by decide!))

/-- C4. Merge commutativity for the linear model: for two states reachable by
folding rows (initial states included), `linregr_merge_states A B` and
`linregr_merge_states B A` both fail with the incompatible-state error, or both
succeed with states that stand for the same accumulator: the same array as soon
as one of the two holds rows. -/
theorem linregr_merge_comm (A B : List Double) (hA : LinRegrReachable A)
    (hB : LinRegrReachable B) :
    (linregr_merge_states A B = .error .logic_error ∧
        linregr_merge_states B A = .error .logic_error) ∨
      ∃ r1 r2, linregr_merge_states A B = .ok r1 ∧ linregr_merge_states B A = .ok r2 ∧
        accumulator r1 = accumulator r2 ∧
        ((ofArray A).numRows ≠ 0 ∨ (ofArray B).numRows ≠ 0 → r1 = r2) := by
  rcases linRegrReachable_cases A hA with ha | ⟨wa, ha⟩
  · have hna : (ofArray A).numRows = 0 := (reads_initial A ha).1
    rcases linRegrReachable_cases B hB with hb | ⟨wb, hb⟩
    · have hnb : (ofArray B).numRows = 0 := (reads_initial B hb).1
      right
      refine ⟨B, A, linregr_merge_states_left_initial A B hna,
        linregr_merge_states_left_initial B A hnb, ?_, ?_⟩
      · rw [accumulator_initial A ha, accumulator_initial B hb]
      · rintro (h | h)
        · exact absurd hna h
        · exact absurd hnb h
    · have hnb := isLinRegrState_numRows B wb hb
      right
      exact ⟨B, B, linregr_merge_states_left_initial A B hna,
        linregr_merge_states_right_initial B A hnb hna, rfl, fun _ => rfl⟩
  · have hna := isLinRegrState_numRows A wa ha
    rcases linRegrReachable_cases B hB with hb | ⟨wb, hb⟩
    · have hnb : (ofArray B).numRows = 0 := (reads_initial B hb).1
      right
      exact ⟨A, A, linregr_merge_states_right_initial A B hna hnb,
        linregr_merge_states_left_initial B A hnb, rfl, fun _ => rfl⟩
    · by_cases hw : wa = wb
      · subst hw
        right
        refine ⟨_, _, linregr_merge_states_eq A B wa ha hb,
          linregr_merge_states_eq B A wa hb ha, ?_, fun _ => ?_⟩
        · rw [vadd_comm]
        · rw [vadd_comm]
      · left
        exact ⟨linregr_merge_states_mismatch A B wa wb ha hb hw,
          linregr_merge_states_mismatch B A wb wa hb ha (Ne.symm hw)⟩

/-- C4 at a concrete input: the states of the shards `[(3, [1, 1])]` and
`[(5, [1, 2])]`. -/
theorem linregr_merge_comm_witness :
    (linregr_merge_states ([1, 2, 3, 9, 3, 3, 1, 1, 1, 1].map Double.finite)
          ([1, 2, 5, 25, 5, 10, 1, 2, 2, 4].map Double.finite) = .error .logic_error ∧
        linregr_merge_states ([1, 2, 5, 25, 5, 10, 1, 2, 2, 4].map Double.finite)
          ([1, 2, 3, 9, 3, 3, 1, 1, 1, 1].map Double.finite) = .error .logic_error) ∨
      ∃ r1 r2, linregr_merge_states ([1, 2, 3, 9, 3, 3, 1, 1, 1, 1].map Double.finite)
          ([1, 2, 5, 25, 5, 10, 1, 2, 2, 4].map Double.finite) = .ok r1 ∧
        linregr_merge_states ([1, 2, 5, 25, 5, 10, 1, 2, 2, 4].map Double.finite)
          ([1, 2, 3, 9, 3, 3, 1, 1, 1, 1].map Double.finite) = .ok r2 ∧
        accumulator r1 = accumulator r2 ∧
        ((ofArray ([1, 2, 3, 9, 3, 3, 1, 1, 1, 1].map Double.finite)).numRows ≠ 0 ∨
          (ofArray ([1, 2, 5, 25, 5, 10, 1, 2, 2, 4].map Double.finite)).numRows ≠ 0 →
            r1 = r2) :=
  linregr_merge_comm _ _
    ⟨[0, 0, 0, 0, 0], [(Double.finite 3, [Double.finite 1, Double.finite 1])],
      ⟨by decide, by decide⟩, by decide!⟩
    ⟨[0, 0, 0, 0, 0], [(Double.finite 5, [Double.finite 1, Double.finite 2])],
      ⟨by decide, by decide⟩, by decide!⟩

/-- C5. Merge associativity for the linear model: for three states reachable
by folding rows (initial states included), `Merge(Merge(A, B), C)` and
`Merge(A, Merge(B, C))` both fail with the incompatible-state error or both
succeed with the same state array. -/
theorem linregr_merge_assoc (A B C : List Double) (hA : LinRegrReachable A)
    (hB : LinRegrReachable B) (hC : LinRegrReachable C) :
    ((linregr_merge_states A B).bind (fun ab => linregr_merge_states ab C)
        = .error .logic_error ∧
      (linregr_merge_states B C).bind (fun bc => linregr_merge_states A bc)
        = .error .logic_error) ∨
    ∃ r, (linregr_merge_states A B).bind (fun ab => linregr_merge_states ab C) = .ok r ∧
      (linregr_merge_states B C).bind (fun bc => linregr_merge_states A bc) = .ok r :=
  linregr_merge_assoc_valid A B C (linRegrReachable_cases A hA) (linRegrReachable_cases B hB)
    (linRegrReachable_cases C hC)

/-- C5 at a concrete input: the states of the shards `[(3, [1, 1])]`,
`[(5, [1, 2])]` and of the empty shard. -/
theorem linregr_merge_assoc_witness :
    ((linregr_merge_states ([1, 2, 3, 9, 3, 3, 1, 1, 1, 1].map Double.finite)
          ([1, 2, 5, 25, 5, 10, 1, 2, 2, 4].map Double.finite)).bind
        (fun ab => linregr_merge_states ab [0, 0, 0, 0, 0]) = .error .logic_error ∧
      (linregr_merge_states ([1, 2, 5, 25, 5, 10, 1, 2, 2, 4].map Double.finite)
          [0, 0, 0, 0, 0]).bind
        (fun bc => linregr_merge_states ([1, 2, 3, 9, 3, 3, 1, 1, 1, 1].map Double.finite) bc)
        = .error .logic_error) ∨
    ∃ r, (linregr_merge_states ([1, 2, 3, 9, 3, 3, 1, 1, 1, 1].map Double.finite)
          ([1, 2, 5, 25, 5, 10, 1, 2, 2, 4].map Double.finite)).bind
        (fun ab => linregr_merge_states ab [0, 0, 0, 0, 0]) = .ok r ∧
      (linregr_merge_states ([1, 2, 5, 25, 5, 10, 1, 2, 2, 4].map Double.finite)
          [0, 0, 0, 0, 0]).bind
        (fun bc => linregr_merge_states ([1, 2, 3, 9, 3, 3, 1, 1, 1, 1].map Double.finite) bc)
        = .ok r :=
  linregr_merge_assoc _ _ _
    ⟨[0, 0, 0, 0, 0], [(Double.finite 3, [Double.finite 1, Double.finite 1])],
      ⟨by decide, by decide⟩, by decide!⟩
    ⟨[0, 0, 0, 0, 0], [(Double.finite 5, [Double.finite 1, Double.finite 2])],
      ⟨by decide, by decide⟩, by decide!⟩
    ⟨[0, 0, 0, 0, 0], [], ⟨by decide, by decide⟩, rfl⟩

/-- C6. Width-mismatch rejection: the states `A` and `B` that the transition
function builds from non-empty lists of finite rows of `w1` and of `w2` features
(both at most 65535) are merged with the incompatible-state error exactly when
`w1 ≠ w2`; when `w1 = w2` the merge succeeds, the merged `widthOfX` is that
width, and `numRows`, `y_sum`, `y_square_sum`, `X_transp_Y` and `X_transp_X`
are the sums of those of `A` and `B`. The size test stands for a width test
because `arraySize` is injective on `0 .. 65535`. -/
theorem linregr_merge_width_mismatch (initA initB : List Double) (w1 w2 : ℕ)
    (rowsA rowsB : List (Double × List Double))
    (hIA : IsInitialState initA) (hIB : IsInitialState initB)
    (hw1 : w1 ≤ 65535) (hw2 : w2 ≤ 65535)
    (hA : GoodRows w1 rowsA) (hB : GoodRows w2 rowsB) (hneA : rowsA ≠ []) (hneB : rowsB ≠ []) :
    ∃ A B, linregr_fold initA rowsA = .ok A ∧ linregr_fold initB rowsB = .ok B ∧
      (linregr_merge_states A B = .error .logic_error ↔ w1 ≠ w2) ∧
      (w1 = w2 → ∃ r, linregr_merge_states A B = .ok r ∧
        (ofArray r).widthOfX = w1 ∧
        (ofArray r).numRows = (ofArray A).numRows + (ofArray B).numRows ∧
        (ofArray r).y_sum = (ofArray A).y_sum + (ofArray B).y_sum ∧
        (ofArray r).y_square_sum = (ofArray A).y_square_sum + (ofArray B).y_square_sum ∧
        (ofArray r).X_transp_Y = vadd (ofArray A).X_transp_Y (ofArray B).X_transp_Y ∧
        (ofArray r).X_transp_X = vadd (ofArray A).X_transp_X (ofArray B).X_transp_X) ∧
      (∀ a b, a ≤ 65535 → b ≤ 65535 → arraySize a = arraySize b → a = b) := by
  obtain ⟨rA, rsA, rfl⟩ := List.exists_cons_of_ne_nil hneA
  obtain ⟨rB, rsB, rfl⟩ := List.exists_cons_of_ne_nil hneB
  obtain ⟨eA, sA⟩ := linregr_fold_initial w1 rA rsA initA (reads_initial initA hIA).1 hw1 hA
  obtain ⟨eB, sB⟩ := linregr_fold_initial w2 rB rsB initB (reads_initial initB hIB).1 hw2 hB
  refine ⟨_, _, eA, eB, ?_, ?_, fun a b ha hb h => arraySize_injective a b ha hb h⟩
  · constructor
    · intro h hw
      subst hw
      rw [linregr_merge_states_eq _ _ w1 sA sB] at h
      cases h
    · intro hw
      exact linregr_merge_states_mismatch _ _ w1 w2 sA sB hw
  · intro hw
    subst hw
    exact ⟨_, linregr_merge_states_eq _ _ w1 sA sB, reads_merge _ _ w1 sA sB⟩

/-- C6 at a concrete input: a shard of width 2 and a shard of width 1. -/
theorem linregr_merge_width_mismatch_witness :
    ∃ A B, linregr_fold [0, 0, 0, 0, 0] [(Double.finite 3, [Double.finite 1, Double.finite 1])]
        = .ok A ∧
      linregr_fold [0, 0, 0, 0, 0] [(Double.finite 5, [Double.finite 2])] = .ok B ∧
      (linregr_merge_states A B = .error .logic_error ↔ 2 ≠ 1) := by
  obtain ⟨A, B, hA, hB, h, -⟩ :=
    linregr_merge_width_mismatch [0, 0, 0, 0, 0] [0, 0, 0, 0, 0] 2 1
      [(Double.finite 3, [Double.finite 1, Double.finite 1])]
      [(Double.finite 5, [Double.finite 2])]
      ⟨by decide, by decide⟩ ⟨by decide, by decide⟩ (by decide) (by decide)
      (by intro r hr; simp only [List.mem_singleton] at hr; subst hr; decide)
      (by intro r hr; simp only [List.mem_singleton] at hr; subst hr; decide)
      (by simp) (by simp)
  exact ⟨A, B, hA, hB, h⟩

/-- C7. Non-finite rejection by the linear transition: for every state array,
a call with a non-finite `y` or with a non-finite entry in `x` fails with
`std::invalid_argument`, whatever the length of `x` (the check comes before the
width limit and before `initialize`); the call returns no state, so the state
the caller holds is the one it passed. -/
theorem linregr_transition_nonfinite (s : List Double) (y : Double) (x : List Double)
    (h : y.isFinite = false ∨ isfinite x = false) :
    linregr_transition s y x = .error .invalid_argument := by
  rcases h with h | h
  · simp [linregr_transition, h]
  · cases hy : y.isFinite <;> simp [linregr_transition, h, hy]

/-- C7 at a concrete input: a row whose second feature is `nan`. -/
theorem linregr_transition_nonfinite_witness :
    linregr_transition [0, 0, 0, 0, 0] (Double.finite 1) [Double.finite 1, Double.nan]
      = .error .invalid_argument :=
  linregr_transition_nonfinite _ _ _ (Or.inr (by decide))

/-- C9. Width limit on the first call: for a state without rows and a finite
`y` and `x`, `linregr_transition` fails with `std::domain_error` exactly when
`x` has more than 65535 entries, and otherwise returns a state of
`arraySize(x.size())` entries whose `widthOfX` is `x.size()`. A successful call
on a state that holds rows leaves `widthOfX` as it was. -/
theorem linregr_transition_width_limit (s : List Double) (y : Double) (x : List Double)
    (hy : y.isFinite = true) (hx : isfinite x = true) :
    ((ofArray s).numRows = 0 →
      (linregr_transition s y x = .error .domain_error ↔ x.length > 65535) ∧
      (x.length ≤ 65535 → ∃ t, linregr_transition s y x = .ok t ∧
        (ofArray t).widthOfX = x.length ∧ t.length = arraySize x.length)) ∧
    ((ofArray s).numRows ≠ 0 → ∀ t, linregr_transition s y x = .ok t →
      (ofArray t).widthOfX = (ofArray s).widthOfX) := by
  constructor
  · intro hn
    constructor
    · constructor
      · intro h
        by_contra hl
        rw [linregr_transition_first s y x hy hx hn (by omega)] at h
        cases h
      · intro hl
        simp [linregr_transition, hy, hx, hn, hl, bind, Except.bind]
    · intro hl
      refine ⟨_, linregr_transition_first s y x hy hx hn hl, ?_, by simp⟩
      exact (reads_step (initializeState x.length).mStorage x.length y x hl rfl (by simp)
        (by rw [getD_initializeState _ _ hl]; simp)).2.2.2.1
  · intro hn t ht
    by_cases hl : x.length = (ofArray s).boundWidth
    · have e : linregr_transition s y x = .ok (accumulate (ofArray s) y x).mStorage := by
        simp [linregr_transition, hy, hx, hn, hl, bind, Except.bind, pure, Except.pure]
      rw [e] at ht
      have ht' : (accumulate (ofArray s) y x).mStorage = t := Except.ok.inj ht
      rw [← ht', widthOfX_ofArray, widthOfX_ofArray]
      congr 1
      by_cases h1 : 1 < s.length
      · have := getD_accumulate s (ofArray s).boundWidth y x 1 h1 hl
        have e4 : ¬ (4 ≤ 1 ∧ 1 < 4 + (ofArray s).boundWidth) := by omega
        have e5 : ¬ (4 + (ofArray s).boundWidth + (ofArray s).boundWidth % 2 ≤ 1 ∧
            1 < 4 + (ofArray s).boundWidth + (ofArray s).boundWidth % 2
              + (ofArray s).boundWidth * (ofArray s).boundWidth) := by omega
        rw [if_neg (by omega), if_neg (by omega), if_neg (by omega), if_neg e4, if_neg e5]
          at this
        exact this
      · rw [getD_eq_zero_of_le _ 1 (by simp [ofArray]; omega),
          getD_eq_zero_of_le s 1 (by omega)]
    · exfalso
      simp [linregr_transition, hy, hx, hn, hl, bind, Except.bind, pure, Except.pure] at ht

/-- C9 at a concrete input: the first row `(3, [1, 1])`. -/
theorem linregr_transition_width_limit_witness :
    ((ofArray [0, 0, 0, 0, 0]).numRows = 0 →
      (linregr_transition [0, 0, 0, 0, 0] (Double.finite 3) [Double.finite 1, Double.finite 1]
          = .error .domain_error ↔ [Double.finite 1, Double.finite 1].length > 65535) ∧
      ([Double.finite 1, Double.finite 1].length ≤ 65535 →
        ∃ t, linregr_transition [0, 0, 0, 0, 0] (Double.finite 3)
            [Double.finite 1, Double.finite 1] = .ok t ∧
          (ofArray t).widthOfX = [Double.finite 1, Double.finite 1].length ∧
          t.length = arraySize [Double.finite 1, Double.finite 1].length)) ∧
    ((ofArray [0, 0, 0, 0, 0]).numRows ≠ 0 → ∀ t,
      linregr_transition [0, 0, 0, 0, 0] (Double.finite 3) [Double.finite 1, Double.finite 1]
        = .ok t → (ofArray t).widthOfX = (ofArray [0, 0, 0, 0, 0]).widthOfX) :=
  linregr_transition_width_limit [0, 0, 0, 0, 0] (Double.finite 3)
    [Double.finite 1, Double.finite 1] (by decide) (by decide)

/-- C8 fails as stated: on the row `[1, nan]` the Cox transition raises
`std::domain_error`, not the `std::invalid_argument` that the linear transition
raises on the same row. -/
theorem cox_prop_hazards_step_transition_nonfinite_counterexample :
    linregr_transition [0, 0, 0, 0, 0] (Double.finite 1) [Double.finite 1, Double.nan]
        = .error .invalid_argument ∧
      cox_prop_hazards_step_transition (fun d => d) (fun d => d) [0, 0, 0, 0, 0]
        [Double.finite 1, Double.nan] none = .error .domain_error ∧
      cox_prop_hazards_step_transition (fun d => d) (fun d => d) [0, 0, 0, 0, 0]
        [Double.finite 1, Double.nan] none ≠ .error .invalid_argument := by
  decide

/-- C8, amended. For every Cox state array, every previous state (or none) and
whatever `std::exp` and `std::log` compute, `cox_prop_hazards_step_transition`
called with an `x` that has a non-finite entry fails with `std::domain_error`;
the call returns no state, so the state the caller holds is the one it passed. -/
theorem cox_prop_hazards_step_transition_nonfinite (exp log : Double → Double)
    (s x : List Double) (previous : Option (List Double)) (h : isfinite x = false) :
    cox_prop_hazards_step_transition exp log s x previous = .error .domain_error := by
  simp [cox_prop_hazards_step_transition, h]

/-- C8, amended, at a concrete input: a row whose second feature is `posInf`. -/
theorem cox_prop_hazards_step_transition_nonfinite_witness :
    cox_prop_hazards_step_transition (fun d => d) (fun d => d) [0, 0, 0, 0, 0]
      [Double.finite 1, Double.posInf] (some [0, 0, 0, 0, 0]) = .error .domain_error :=
  cox_prop_hazards_step_transition_nonfinite _ _ _ _ _ (by decide)

/-- C10. Closed form of the linear regression, in exact arithmetic: for a
dataset of finite rows `(y, x)` of width `w` (at most 65535; not the empty
dataset of width 0) in which `y = x . beta` in every row for one vector `beta`,
with `X^T X` nonsingular and with `pseudoInverse` returning a Moore-Penrose
pseudo-inverse of `X^T X`, folding the rows succeeds and `linregr_final` on the
result returns `coef = beta`, `ess = tss` and `r2 = 1`. -/
theorem linregr_final_closed_form (init : List Double) (w : ℕ) (rows : List (ℚ × List ℚ))
    (β : List ℚ) (pseudoInverse : ℕ → List Double → List Double)
    (conditionNo : ℕ → List Double → Double) (sqrt : Double → Double)
    (hinit : IsInitialState init) (hw : w ≤ 65535) (hne : rows ≠ [] ∨ 0 < w)
    (hβ : β.length = w) (hrows : ∀ r ∈ rows, r.2.length = w ∧ r.1 = dotQ r.2 β)
    (hdet : (matrixOfList w (gramList w rows)).det ≠ 0)
    (hP : ∃ P : List ℚ,
      pseudoInverse w ((gramList w rows).map Double.finite) = P.map Double.finite ∧
      IsMoorePenrose (matrixOfList w (gramList w rows)) (matrixOfList w P)) :
    ∃ A res, linregr_fold init (toDoubleRows rows) = .ok A ∧
      linregr_final pseudoInverse conditionNo sqrt A = .ok res ∧
      res.coef = β.map Double.finite ∧ res.ess = res.tss ∧ res.r2 = 1 := by
  have hrne : rows ≠ [] := by
    rcases hne with h | h
    · exact h
    · intro e
      subst e
      exact hdet (gram_nil_det w h)
  obtain ⟨r, rs, rfl⟩ := List.exists_cons_of_ne_nil hrne
  have hlen : ∀ q ∈ r :: rs, q.2.length = w := fun q hq => (hrows q hq).1
  have hgood := goodRows_toDoubleRows w (r :: rs) hlen
  obtain ⟨efold, hst⟩ :=
    linregr_fold_initial w (Double.finite r.1, r.2.map Double.finite) (toDoubleRows rs) init
      (reads_initial init hinit).1 hw hgood
  obtain ⟨hn, hys, hyy, hxty, hxtx⟩ := reads_accumulated w (r :: rs) hw hlen hst
  have hbw := isLinRegrState_boundWidth _ w hst
  obtain ⟨P, hPeq, hMP⟩ := hP
  have hcoef := coef_eq_beta w (r :: rs) β P hβ hrows hdet hMP
  have hdot := dotQ_xtyList w (r :: rs) β hβ hrows
  have hn0 : (((r :: rs).length : ℕ) : ℚ) ≠ 0 := by
    simp only [List.length_cons]; positivity
  have eR : (Double.finite r.1, r.2.map Double.finite) :: toDoubleRows rs
      = toDoubleRows (r :: rs) := rfl
  rw [eR] at efold hbw
  generalize vadd (initializeState w).mStorage (sumDelta w (toDoubleRows (r :: rs))) = A
    at efold hbw hn hys hyy hxty hxtx
  have hmv : matVec w (P.map Double.finite) ((xtyList w (r :: rs)).map Double.finite)
      = β.map Double.finite := by
    rw [matVec_finite, hcoef]
  have hclamp := clamp_equal
    ((List.map (fun q => q.1 * q.1) (r :: rs)).sum
      - (List.map (fun q => q.1) (r :: rs)).sum * (List.map (fun q => q.1) (r :: rs)).sum
        / (((r :: rs).length : ℕ) : ℚ))
  have key : ∃ res, linregr_final pseudoInverse conditionNo sqrt A = .ok res ∧
      res.coef = β.map Double.finite ∧ res.ess = res.tss ∧ res.r2 = 1 := by
    simp only [linregr_final, hxtx, hxty, hbw, hys, hyy, hn, hPeq, hmv, isfinite_map_finite,
      Bool.not_true, Bool.or_self, Bool.false_eq_true, if_false, dot_finite, hdot,
      Double.natCast_eq_finite, Double.finite_mul_finite, Double.finite_div_finite _ _ hn0,
      Double.finite_sub_finite]
    refine ⟨_, rfl, rfl, hclamp.1, ?_⟩
    dsimp only
    rw [hclamp.1]
    exact hclamp.2
  obtain ⟨res, h1, h2, h3, h4⟩ := key
  exact ⟨A, res, efold, h1, h2, h3, h4⟩

/-- C10 at the concrete input of the claim: the five points of `y = 2 x + 1`
with rows `(1, x)` give `coef = [1, 2]`, `ess = tss` and `r2 = 1`. -/
theorem linregr_final_closed_form_witness :
    ∃ A res,
      linregr_fold [0, 0, 0, 0, 0]
        (toDoubleRows [(1, [1, 0]), (3, [1, 1]), (5, [1, 2]), (7, [1, 3]), (9, [1, 4])])
          = .ok A ∧
      linregr_final (fun _ _ => [3 / 5, -1 / 5, -1 / 5, 1 / 10].map Double.finite)
        (fun _ _ => 0) (fun d => d) A = .ok res ∧
      res.coef = [1, 2].map Double.finite ∧ res.ess = res.tss ∧ res.r2 = 1 :=
  linregr_final_closed_form [0, 0, 0, 0, 0] 2
    [(1, [1, 0]), (3, [1, 1]), (5, [1, 2]), (7, [1, 3]), (9, [1, 4])] [1, 2]
    (fun _ _ => [3 / 5, -1 / 5, -1 / 5, 1 / 10].map Double.finite) (fun _ _ => 0) (fun d => d)
    ⟨by decide, by decide⟩ (by decide) (Or.inl (by simp)) rfl
    (by decide!)
    (by decide!)
    ⟨[3 / 5, -1 / 5, -1 / 5, 1 / 10], rfl, by decide!, by decide!, by decide!, by decide!⟩

/-- C11 fails as stated in binary64 arithmetic. Three rows with `x = [1]` and
the same `y`, the binary64 number nearest to `0.3`
(`5404319552844595 / 2 ^ 54`): the sums are `y_sum = 0.8999999999999999` and
`y_square_sum = 0.27`, and `y_square_sum - y_sum * y_sum / 3` is computed as
`2 ^ (-54)`, not 0. With the binary64 number nearest to `1/3` for the
pseudo-inverse of `X^T X = [3]`, `ess` is negative and set to 0, so
`linregr_final` returns `r2 = 0 / tss = 0`, not 1. -/
theorem linregr_final_degenerate_variance_counterexample :
    Double.round64 (Double.finite (3 / 10))
      = Double.finite (5404319552844595 / 18014398509481984) ∧
    (Rounded.linregr_fold Double.round64 [0, 0, 0, 0, 0]
        [(Double.finite (5404319552844595 / 18014398509481984), [1]),
          (Double.finite (5404319552844595 / 18014398509481984), [1]),
          (Double.finite (5404319552844595 / 18014398509481984), [1])]).bind
      (fun A =>
        (Rounded.linregr_final Double.round64
          (fun _ _ => [Double.finite (6004799503160661 / 18014398509481984)])
          (fun _ _ => 1) (fun d => d) A).map
          (fun res => (res.tss, res.r2)))
      = .ok (Double.finite (1 / 18014398509481984), 0) ∧
    Double.finite (1 / 18014398509481984) ≠ 0 ∧
    (0 : Double) ≠ 1 := by
  decide!

/-- C11, amended: in exact arithmetic. Degenerate variance: for a non-empty
dataset of finite rows of one width `w` (at most 65535) in which every `y` is
the same value `c`, folding the rows succeeds and `linregr_final` on the
result, whatever the decomposition returns, has `tss = 0` and returns
`r2 = 1`. -/
theorem linregr_final_degenerate_variance (init : List Double) (w : ℕ)
    (rows : List (ℚ × List ℚ)) (c : ℚ) (pseudoInverse : ℕ → List Double → List Double)
    (conditionNo : ℕ → List Double → Double) (sqrt : Double → Double)
    (hinit : IsInitialState init) (hw : w ≤ 65535) (hne : rows ≠ [])
    (hrows : ∀ r ∈ rows, r.2.length = w ∧ r.1 = c) :
    ∃ A res, linregr_fold init (toDoubleRows rows) = .ok A ∧
      linregr_final pseudoInverse conditionNo sqrt A = .ok res ∧
      res.tss = 0 ∧ res.r2 = 1 := by
  obtain ⟨r, rs, rfl⟩ := List.exists_cons_of_ne_nil hne
  have hlen : ∀ q ∈ r :: rs, q.2.length = w := fun q hq => (hrows q hq).1
  have hgood := goodRows_toDoubleRows w (r :: rs) hlen
  obtain ⟨efold, hst⟩ :=
    linregr_fold_initial w (Double.finite r.1, r.2.map Double.finite) (toDoubleRows rs) init
      (reads_initial init hinit).1 hw hgood
  obtain ⟨hn, hys, hyy, hxty, hxtx⟩ := reads_accumulated w (r :: rs) hw hlen hst
  have eR : (Double.finite r.1, r.2.map Double.finite) :: toDoubleRows rs
      = toDoubleRows (r :: rs) := rfl
  rw [eR] at efold
  generalize vadd (initializeState w).mStorage (sumDelta w (toDoubleRows (r :: rs))) = A
    at efold hn hys hyy hxty hxtx
  obtain ⟨s1, s2⟩ := sum_map_const_fst (r :: rs) c (fun q hq => (hrows q hq).2)
  have hn0 : (((r :: rs).length : ℕ) : ℚ) ≠ 0 := by
    simp only [List.length_cons]; positivity
  obtain ⟨res, hres, -, htss, -, hr2, -⟩ :=
    linregr_final_fields pseudoInverse conditionNo sqrt A
      (by rw [hxtx]; exact isfinite_map_finite _) (by rw [hxty]; exact isfinite_map_finite _)
  have hzero : (ofArray A).y_square_sum
      - (ofArray A).y_sum * (ofArray A).y_sum / ((ofArray A).numRows : Double) = 0 := by
    rw [hys, hyy, hn, Double.natCast_eq_finite, Double.finite_mul_finite,
      Double.finite_div_finite _ _ hn0, Double.finite_sub_finite, s1, s2, Double.zero_eq_finite]
    congr 1
    field_simp
    ring
  have ht : res.tss = 0 := by
    rw [htss, hzero]
    rfl
  refine ⟨A, res, efold, hres, ht, ?_⟩
  rw [hr2, ht]
  rfl

/-- C11, amended, at a concrete input: three rows with `y = 4`. -/
theorem linregr_final_degenerate_variance_witness :
    ∃ A res,
      linregr_fold [0, 0, 0, 0, 0] (toDoubleRows [(4, [1, 0]), (4, [1, 1]), (4, [1, 5])])
        = .ok A ∧
      linregr_final (fun _ _ => [0, 0, 0, 0]) (fun _ _ => 0) (fun d => d) A = .ok res ∧
      res.tss = 0 ∧ res.r2 = 1 :=
  linregr_final_degenerate_variance [0, 0, 0, 0, 0] 2 [(4, [1, 0]), (4, [1, 1]), (4, [1, 5])] 4
    (fun _ _ => [0, 0, 0, 0]) (fun _ _ => 0) (fun d => d) ⟨by decide, by decide⟩ (by decide)
    (by simp) (by decide!)

/-- C12 fails on the code. On the state of the two rows `(0, [1])`, `(0, [1])`
(with the pseudo-inverse `[1/2]` of `X^T X = [2]`) the coefficient has
`tStats = 0`, for which the two-sided Student-t p-value is 1, and
`linregr_final` returns the p-value 0: the vector `pValues` is allocated,
filled with zeros, and never written. -/
theorem linregr_final_pValues_failing_input :
    (linregr_fold [0, 0, 0, 0, 0] (toDoubleRows [(0, [1]), (0, [1])])).bind
        (fun A =>
          (linregr_final (fun _ _ => [Double.finite (1 / 2)]) (fun _ _ => 0) (fun d => d) A).map
            (fun res => (res.tStats, res.pValues)))
      = .ok ([0], [0]) ∧
    ([0] : List Double) ≠ [1] := by
  decide!

/-- C13 fails on the code. On the state of the two rows `(0, [1, 0, 0])`,
`(2, [1, 0, 0])` (with the pseudo-inverse of `X^T X`), `rowCount = 2`,
`width = 3` and `rss = 2`: `linregr_final` divides by the difference of the
unsigned 64-bit integers, `2 ^ 64 - 1`, and not by the integer `2 - 3`, which
would give `-2`. -/
theorem linregr_final_variance_failing_input :
    (linregr_fold [0, 0, 0, 0, 0] (toDoubleRows [(0, [1, 0, 0]), (2, [1, 0, 0])])).bind
        (fun A =>
          (linregr_final
              (fun _ _ => [1 / 2, 0, 0, 0, 0, 0, 0, 0, 0].map Double.finite) (fun _ _ => 0)
              (fun d => d) A).map
            (fun res => (res.rss, res.variance,
              res.rss / Double.finite ((((ofArray A).numRows : ℤ) - ((ofArray A).widthOfX : ℤ) : ℤ) : ℚ))))
      = .ok (Double.finite 2, Double.finite (2 / (2 ^ 64 - 1)), Double.finite (-2)) ∧
    Double.finite (2 / (2 ^ 64 - 1)) ≠ Double.finite (-2) := by
  decide!

/-- C14. The t-statistic rule: for every state that `linregr_final` accepts
(finite `X_transp_X` and `X_transp_Y`), and every index `i` below the width,
with `P` the pseudo-inverse the decomposition returns: `stdErr(i)` is 0 if
`P(i, i) < 0` and `sqrt(variance * P(i, i))` otherwise; `tStats(i)` is 0 when
`coef(i) == 0` and `stdErr(i) == 0`, and `coef(i) / stdErr(i)` otherwise. So
the quotient is only taken when `coef(i)` and `stdErr(i)` are not both zero. -/
theorem linregr_final_tstat_rule (pseudoInverse : ℕ → List Double → List Double)
    (conditionNo : ℕ → List Double → Double) (sqrt : Double → Double) (A : List Double)
    (h1 : isfinite (ofArray A).X_transp_X = true) (h2 : isfinite (ofArray A).X_transp_Y = true) :
    ∃ res, linregr_final pseudoInverse conditionNo sqrt A = .ok res ∧
      ∀ i, i < (ofArray A).widthOfX →
        res.stdErr.getD i 0 =
          (if Double.lt ((pseudoInverse (ofArray A).boundWidth (ofArray A).X_transp_X).getD
                (i + i * (ofArray A).boundWidth) 0) 0 then 0
            else sqrt (res.variance *
              (pseudoInverse (ofArray A).boundWidth (ofArray A).X_transp_X).getD
                (i + i * (ofArray A).boundWidth) 0)) ∧
        (res.coef.getD i 0 = 0 ∧ res.stdErr.getD i 0 = 0 → res.tStats.getD i 0 = 0) ∧
        (¬ (res.coef.getD i 0 = 0 ∧ res.stdErr.getD i 0 = 0) →
          res.tStats.getD i 0 = res.coef.getD i 0 / res.stdErr.getD i 0) := by
  obtain ⟨res, hres, -, -, -, -, -, -, hse, hts, -⟩ :=
    linregr_final_fields pseudoInverse conditionNo sqrt A h1 h2
  refine ⟨res, hres, ?_⟩
  intro i hi
  have hse_i : res.stdErr.getD i 0 =
      (linregr_final_stat sqrt res.variance (ofArray A).boundWidth
        (pseudoInverse (ofArray A).boundWidth (ofArray A).X_transp_X) res.coef i).1 := by
    rw [hse]
    simp only [List.getD_eq_getElem?_getD, List.getElem?_map, List.getElem?_range hi,
      Option.map_some', Option.getD_some]
  have hts_i : res.tStats.getD i 0 =
      (linregr_final_stat sqrt res.variance (ofArray A).boundWidth
        (pseudoInverse (ofArray A).boundWidth (ofArray A).X_transp_X) res.coef i).2 := by
    rw [hts]
    simp only [List.getD_eq_getElem?_getD, List.getElem?_map, List.getElem?_range hi,
      Option.map_some', Option.getD_some]
  have hstat : res.tStats.getD i 0 =
      (if (Double.eq (res.coef.getD i 0) 0 && Double.eq (res.stdErr.getD i 0) 0) = true then 0
        else res.coef.getD i 0 / res.stdErr.getD i 0) := by
    rw [hts_i, hse_i]
    rfl
  refine ⟨by rw [hse_i]; rfl, ?_, ?_⟩
  · rintro ⟨hc, hs⟩
    rw [hstat, if_pos]
    rw [Bool.and_eq_true]
    exact ⟨(double_eq_zero_iff _).mpr hc, (double_eq_zero_iff _).mpr hs⟩
  · intro hne
    rw [hstat, if_neg]
    rw [Bool.and_eq_true]
    rintro ⟨hc, hs⟩
    exact hne ⟨(double_eq_zero_iff _).mp hc, (double_eq_zero_iff _).mp hs⟩

/-- C14 at a concrete input: the state of the rows `(0, [1])`, `(0, [1])`. -/
theorem linregr_final_tstat_rule_witness :
    ∃ res, linregr_final (fun _ _ => [Double.finite (1 / 2)]) (fun _ _ => 0) (fun d => d)
        ([2, 1, 0, 0, 0, 0, 2].map Double.finite) = .ok res ∧
      res.tStats.getD 0 0 = 0 := by
  obtain ⟨res, hres, h⟩ :=
    linregr_final_tstat_rule (fun _ _ => [Double.finite (1 / 2)]) (fun _ _ => 0) (fun d => d)
      ([2, 1, 0, 0, 0, 0, 2].map Double.finite) (by decide) (by decide)
  refine ⟨res, hres, ?_⟩
  have e : linregr_final (fun _ _ => [Double.finite (1 / 2)]) (fun _ _ => 0) (fun d => d)
      ([2, 1, 0, 0, 0, 0, 2].map Double.finite)
      = .ok { coef := [0], r2 := 1, stdErr := [0], tStats := [0], pValues := [0],
              conditionNo := 0, ess := 0, tss := 0, rss := 0, variance := 0 } := by decide!
  rw [e] at hres
  cases hres
  exact (h 0 (by decide!)).2.1 ⟨rfl, rfl⟩

/-- C15. Per-row effect of the Cox transition: for every Cox state array `s`
that holds rows (`rowCount > 0`), every finite `x` of the state's width, and
whatever previous state is passed, with `xc = coef . x` and `s = exp xc`,
`cox_prop_hazards_step_transition` returns a state with `rowCount + 1` rows,
the same width and `coef`, `S' = S + s`, `H' = H + s x`, `V' = V + (x x^T) s`,
`grad' = grad + (x - H'/S')`, `hessian' = hessian + ((H' H'^T)/(S' S') - V'/S')`
and `logLikelihood' = logLikelihood + (xc - log S')`: the last three updates
read the already updated `H'`, `S'` and `V'`. -/
theorem cox_prop_hazards_step_transition_row (exp log : Double → Double)
    (s x : List Double) (previous : Option (List Double))
    (hs : IsCoxState s x.length) (hx : isfinite x = true) :
    ∃ t, cox_prop_hazards_step_transition exp log s x previous = .ok t ∧
      (CoxPropHazardsTransitionState.ofArray t).numRows
        = (CoxPropHazardsTransitionState.ofArray s).numRows + 1 ∧
      (CoxPropHazardsTransitionState.ofArray t).widthOfX
        = (CoxPropHazardsTransitionState.ofArray s).widthOfX ∧
      (CoxPropHazardsTransitionState.ofArray t).coef
        = (CoxPropHazardsTransitionState.ofArray s).coef ∧
      (CoxPropHazardsTransitionState.ofArray t).S
        = (CoxPropHazardsTransitionState.ofArray s).S
          + exp (dot (CoxPropHazardsTransitionState.ofArray s).coef x) ∧
      (CoxPropHazardsTransitionState.ofArray t).H
        = vadd (CoxPropHazardsTransitionState.ofArray s).H
            (x.map (exp (dot (CoxPropHazardsTransitionState.ofArray s).coef x) * ·)) ∧
      (CoxPropHazardsTransitionState.ofArray t).V
        = vadd (CoxPropHazardsTransitionState.ofArray s).V
            ((outer x).map (· * exp (dot (CoxPropHazardsTransitionState.ofArray s).coef x))) ∧
      (CoxPropHazardsTransitionState.ofArray t).grad
        = vadd (CoxPropHazardsTransitionState.ofArray s).grad
            (List.zipWith (· - ·) x
              ((CoxPropHazardsTransitionState.ofArray t).H.map
                (· / (CoxPropHazardsTransitionState.ofArray t).S))) ∧
      (CoxPropHazardsTransitionState.ofArray t).hessian
        = vadd (CoxPropHazardsTransitionState.ofArray s).hessian
            (List.zipWith (· - ·)
              ((outer (CoxPropHazardsTransitionState.ofArray t).H).map
                (· / ((CoxPropHazardsTransitionState.ofArray t).S
                  * (CoxPropHazardsTransitionState.ofArray t).S)))
              ((CoxPropHazardsTransitionState.ofArray t).V.map
                (· / (CoxPropHazardsTransitionState.ofArray t).S))) ∧
      (CoxPropHazardsTransitionState.ofArray t).logLikelihood
        = (CoxPropHazardsTransitionState.ofArray s).logLikelihood
          + (dot (CoxPropHazardsTransitionState.ofArray s).coef x
            - log (CoxPropHazardsTransitionState.ofArray t).S) := by
  refine ⟨_, cox_transition_next exp log s x previous hx hs, ?_⟩
  have ht := isCoxState_coxRow exp log s x.length x rfl hs
  obtain ⟨hw, hl, h1, n, hn, h0⟩ := hs
  obtain ⟨r0, r1, r2, r3, r4, r5, r6, r7, r8, r9⟩ := coxRow_reads exp log s x.length x hl rfl
  rw [cox_ofArray_of_width _ _ ht.2.2.1, cox_ofArray_of_width _ _ h1]
  refine ⟨?_, ?_, r3, r4, r5, r6, r7, r8, r9⟩
  · show ((coxRow exp log s x.length x).getD 0 0).toNat = (s.getD 0 0).toNat + 1
    have e : (n : Double) + 1 = ((n + 1 : ℕ) : Double) := by
      simp [Double.natCast_eq_finite, Double.one_eq_finite]
    rw [r1, h0, e, Double.toNat_natCast, Double.toNat_natCast]
  · show ((coxRow exp log s x.length x).getD 1 0).toNat = (s.getD 1 0).toNat
    rw [r2]

/-- C15 at a concrete input: the state of width 1 with `rowCount = 1`,
`coef = [2]`, `S = 3`, `H = [1]`, `grad = [5]`, `logLikelihood = 7`, `V = [4]`
and `hessian = [6]`, the row `[3]`, and the identity in place of `exp` and
`log`, so that `xc = s = 6`. -/
theorem cox_prop_hazards_step_transition_row_witness :
    ∃ t, cox_prop_hazards_step_transition (fun d => d) (fun d => d)
        ([1, 1, 2, 3, 1, 5, 7, 4, 6].map Double.finite) [Double.finite 3] none = .ok t ∧
      (CoxPropHazardsTransitionState.ofArray t).numRows = 2 ∧
      (CoxPropHazardsTransitionState.ofArray t).coef = [Double.finite 2] ∧
      (CoxPropHazardsTransitionState.ofArray t).S = Double.finite 9 ∧
      (CoxPropHazardsTransitionState.ofArray t).H = [Double.finite 19] ∧
      (CoxPropHazardsTransitionState.ofArray t).V = [Double.finite 58] ∧
      (CoxPropHazardsTransitionState.ofArray t).grad = [Double.finite (5 + (3 - 19 / 9))] ∧
      (CoxPropHazardsTransitionState.ofArray t).hessian
        = [Double.finite (6 + (361 / 81 - 58 / 9))] ∧
      (CoxPropHazardsTransitionState.ofArray t).logLikelihood = Double.finite (7 + (6 - 9)) := by
  obtain ⟨t, h, h0, -, h2, h3, h4, h5, h6, h7, h8⟩ :=
    cox_prop_hazards_step_transition_row (fun d => d) (fun d => d)
      ([1, 1, 2, 3, 1, 5, 7, 4, 6].map Double.finite) [Double.finite 3] none
      ⟨by decide, by decide, by decide!, 1, by decide, by decide!⟩ (by decide)
  refine ⟨t, h, ?_, ?_, ?_, ?_, ?_, ?_, ?_, ?_⟩
  · rw [h0]; decide!
  · rw [h2]; decide!
  · rw [h3]; decide!
  · rw [h4]; decide!
  · rw [h5]; decide!
  · rw [h6, h4, h3]; decide!
  · rw [h7, h4, h3, h5]; decide!
  · rw [h8, h3]; decide!

/-- C16. Coefficient carry-over in the Cox transition: for an initial state
(all zeros, no rows), a finite `x` of at most 32767 features (the widths for
which `arraySize` does not leave the range of `int`) and a previous state `P`
of the layout size whose width is `len(x)`, the first call of
`cox_prop_hazards_step_transition` returns a state with `coef = P.coef`,
`rowCount = 1`, width `len(x)`, and the intra-iteration fields of one row folded
into zeros: `S = exp (P.coef . x)`, `H = S x`, `V = (x x^T) S`,
`grad = x - H/S`, `hessian = (H H^T)/(S S) - V/S`,
`logLikelihood = P.coef . x - log S`. The returned array is the same for every
previous state of that size with the same width entry and the same `coef`,
whatever its `rowCount`, `S`, `H`, `V`, `grad`, `hessian` and `logLikelihood`. -/
theorem cox_prop_hazards_step_transition_carry_over (exp log : Double → Double)
    (init x P : List Double) (hinit : IsInitialState init) (hx : isfinite x = true)
    (hw : x.length ≤ 32767)
    (hP : P.length = 4 + 3 * x.length + 2 * (x.length * x.length))
    (hPw : (CoxPropHazardsTransitionState.ofArray P).widthOfX = x.length) :
    ∃ t, cox_prop_hazards_step_transition exp log init x (some P) = .ok t ∧
      (CoxPropHazardsTransitionState.ofArray t).coef
        = (CoxPropHazardsTransitionState.ofArray P).coef ∧
      (CoxPropHazardsTransitionState.ofArray t).numRows = 1 ∧
      (CoxPropHazardsTransitionState.ofArray t).widthOfX = x.length ∧
      (CoxPropHazardsTransitionState.ofArray t).S
        = exp (dot (CoxPropHazardsTransitionState.ofArray P).coef x) ∧
      (CoxPropHazardsTransitionState.ofArray t).H
        = x.map ((CoxPropHazardsTransitionState.ofArray t).S * ·) ∧
      (CoxPropHazardsTransitionState.ofArray t).V
        = (outer x).map (· * (CoxPropHazardsTransitionState.ofArray t).S) ∧
      (CoxPropHazardsTransitionState.ofArray t).grad
        = List.zipWith (· - ·) x
            ((CoxPropHazardsTransitionState.ofArray t).H.map
              (· / (CoxPropHazardsTransitionState.ofArray t).S)) ∧
      (CoxPropHazardsTransitionState.ofArray t).hessian
        = List.zipWith (· - ·)
            ((outer (CoxPropHazardsTransitionState.ofArray t).H).map
              (· / ((CoxPropHazardsTransitionState.ofArray t).S
                * (CoxPropHazardsTransitionState.ofArray t).S)))
            ((CoxPropHazardsTransitionState.ofArray t).V.map
              (· / (CoxPropHazardsTransitionState.ofArray t).S)) ∧
      (CoxPropHazardsTransitionState.ofArray t).logLikelihood
        = dot (CoxPropHazardsTransitionState.ofArray P).coef x
          - log (CoxPropHazardsTransitionState.ofArray t).S ∧
      ∀ Q : List Double, Q.length = P.length → Q.getD 1 0 = P.getD 1 0 →
        (CoxPropHazardsTransitionState.ofArray Q).coef
          = (CoxPropHazardsTransitionState.ofArray P).coef →
        cox_prop_hazards_step_transition exp log init x (some Q) = .ok t := by
  have hPw' : (P.getD 1 0).toNat = x.length := hPw
  have hl : (coxSeed x.length (some P)).mStorage.length
      = 4 + 3 * x.length + 2 * (x.length * x.length) := by
    rw [length_coxSeed, cox_arraySize_eq _ hw]
  have hg := fun k => getD_coxSeed x.length (some P) k hw
  have h0 : (coxSeed x.length (some P)).mStorage.getD 0 0 = 0 := by
    rw [hg]
    show (if 0 = 1 ∨ (2 ≤ 0 ∧ 0 < 2 + x.length) then P.getD 0 0 else 0) = 0
    rw [if_neg (by omega)]
  have h1 : (coxSeed x.length (some P)).mStorage.getD 1 0 = P.getD 1 0 := by
    rw [hg]
    show (if 1 = 1 ∨ (2 ≤ 1 ∧ 1 < 2 + x.length) then P.getD 1 0 else 0) = _
    rw [if_pos (by omega)]
  have hz : ∀ k, 2 + x.length ≤ k → (coxSeed x.length (some P)).mStorage.getD k 0 = 0 := by
    intro k hk
    rw [hg]
    show (if k = 1 ∨ (2 ≤ k ∧ k < 2 + x.length) then P.getD k 0 else 0) = 0
    rw [if_neg (by omega)]
  have hc := coxSeed_coef x.length P hw (by omega)
  obtain ⟨-, -, r2, r3, -⟩ := coxRow_reads exp log _ x.length x hl rfl
  obtain ⟨f0, f1, f2, f3, f4, f5, f6⟩ := cox_first_row_reads exp log _ x.length x hl rfl h0 hz
  have hQ : ∀ Q : List Double, Q.length = P.length → Q.getD 1 0 = P.getD 1 0 →
      (CoxPropHazardsTransitionState.ofArray Q).coef
        = (CoxPropHazardsTransitionState.ofArray P).coef →
      cox_prop_hazards_step_transition exp log init x (some Q)
        = .ok (coxRow exp log (coxSeed x.length (some P)).mStorage x.length x) := by
    intro Q hQl hQ1 hQc
    have hQw : (Q.getD 1 0).toNat = x.length := by rw [hQ1, hPw']
    rw [cox_ofArray_of_toNat Q _ hQw, cox_ofArray_of_toNat P _ hPw'] at hQc
    rw [cox_transition_first_row exp log init x (some Q) hx hinit hw,
      coxSeed_some_congr x.length P Q hw hQ1 hQc]
  refine ⟨_, cox_transition_first_row exp log init x (some P) hx hinit hw, ?_⟩
  generalize (coxSeed x.length (some P)).mStorage = m at h1 hc r2 r3 f0 f1 f2 f3 f4 f5 f6 hQ ⊢
  rw [cox_ofArray_of_toNat _ x.length (by rw [r2, h1, hPw'])]
  rw [cox_ofArray_of_toNat P _ hPw'] at hQ ⊢
  refine ⟨r3.trans hc, ?_, ?_, ?_, ?_, ?_, f4, f5, ?_, hQ⟩
  · show ((coxRow exp log m x.length x).getD 0 0).toNat = 1
    rw [f0, Double.one_eq_finite]
    simp
  · show ((coxRow exp log m x.length x).getD 1 0).toNat = x.length
    rw [r2, h1, hPw']
  · exact f1.trans (by rw [hc]; rfl)
  · show ((coxRow exp log m x.length x).drop (3 + x.length)).take x.length
      = x.map ((coxRow exp log m x.length x).getD (2 + x.length) 0 * ·)
    rw [f2, f1]
  · show ((coxRow exp log m x.length x).drop (4 + 3 * x.length)).take (x.length * x.length)
      = (outer x).map (· * (coxRow exp log m x.length x).getD (2 + x.length) 0)
    rw [f3, f1]
  · exact f6.trans (by rw [hc]; rfl)

/-- C16 at a concrete input: the row `[3]`, the previous state of width 1 with
`coef = [2]` (its `rowCount` is 7 and its other fields are 9), `exp d = d + 1`
and `log d = d`: then `xc = 6` and `S = 7`. The previous state with the same
`coef` and zeros elsewhere gives the same array. -/
theorem cox_prop_hazards_step_transition_carry_over_witness :
    ∃ t, cox_prop_hazards_step_transition (fun d => d + 1) (fun d => d) [0, 0, 0, 0, 0]
        [Double.finite 3] (some ([7, 1, 2, 9, 9, 9, 9, 9, 9].map Double.finite)) = .ok t ∧
      (CoxPropHazardsTransitionState.ofArray t).coef = [Double.finite 2] ∧
      (CoxPropHazardsTransitionState.ofArray t).numRows = 1 ∧
      (CoxPropHazardsTransitionState.ofArray t).widthOfX = 1 ∧
      (CoxPropHazardsTransitionState.ofArray t).S = Double.finite 7 ∧
      (CoxPropHazardsTransitionState.ofArray t).H = [Double.finite 21] ∧
      (CoxPropHazardsTransitionState.ofArray t).V = [Double.finite 63] ∧
      (CoxPropHazardsTransitionState.ofArray t).grad = [Double.finite 0] ∧
      (CoxPropHazardsTransitionState.ofArray t).hessian = [Double.finite 0] ∧
      (CoxPropHazardsTransitionState.ofArray t).logLikelihood = Double.finite (-1) ∧
      cox_prop_hazards_step_transition (fun d => d + 1) (fun d => d) [0, 0, 0, 0, 0]
        [Double.finite 3] (some ([0, 1, 2, 0, 0, 0, 0, 0, 0].map Double.finite)) = .ok t := by
  obtain ⟨t, h, h1, h2, h3, h4, h5, h6, h7, h8, h9, hQ⟩ :=
    cox_prop_hazards_step_transition_carry_over (fun d => d + 1) (fun d => d) [0, 0, 0, 0, 0]
      [Double.finite 3] ([7, 1, 2, 9, 9, 9, 9, 9, 9].map Double.finite)
      ⟨by decide, by decide⟩ (by decide) (by decide) (by decide) (by decide!)
  refine ⟨t, h, ?_, h2, h3, ?_, ?_, ?_, ?_, ?_, ?_, ?_⟩
  · rw [h1]; decide!
  · rw [h4]; decide!
  · rw [h5, h4]; decide!
  · rw [h6, h4]; decide!
  · rw [h7, h5, h4]; decide!
  · rw [h8, h5, h6, h4]; decide!
  · rw [h9, h4]; decide!
  · exact hQ _ (by decide) (by decide!) (by decide!)

/-- C18 fails as stated: for the state `A` of width 1 that holds one row and
the initial state `I` of five zeros (`rowCount = 0`, all sums zero),
`operator+=` raises `std::logic_error` in both orders: the sizes and the widths
of the two states differ, and `operator+=` has no branch for a state without
rows. -/
theorem cox_merge_identity_counterexample :
    (CoxPropHazardsTransitionState.add
        (CoxPropHazardsTransitionState.ofArray ([1, 1, 2, 3, 1, 5, 7, 4, 6].map Double.finite))
        (CoxPropHazardsTransitionState.ofArray [0, 0, 0, 0, 0])).map (fun r => r.mStorage)
      = .error .logic_error ∧
    (CoxPropHazardsTransitionState.add
        (CoxPropHazardsTransitionState.ofArray [0, 0, 0, 0, 0])
        (CoxPropHazardsTransitionState.ofArray ([1, 1, 2, 3, 1, 5, 7, 4, 6].map Double.finite))).map
        (fun r => r.mStorage)
      = .error .logic_error := by
  decide!

/-- C18, amended. For every Cox state `A` of width `w` that holds rows:
`operator+=` with an initial state `I` (all zeros, as the database hands it to
the first call) raises `std::logic_error` in both orders; the neutral element
is the zero state `Z` of the size and the width of `A` (width entry `w`, every
other entry 0, so `rowCount = 0`, `coef = 0` and all sums zero), for which
`A += Z` and `Z += A` both return `A` without error. -/
theorem cox_merge_identity (A I Z : List Double) (w : ℕ) (hA : IsCoxState A w)
    (hI : IsInitialState I) (hZl : Z.length = A.length) (hZw : Z.getD 1 0 = (w : Double))
    (hZ : ∀ k, k < Z.length → k ≠ 1 → Z.getD k 0 = 0) :
    CoxPropHazardsTransitionState.add (CoxPropHazardsTransitionState.ofArray A)
        (CoxPropHazardsTransitionState.ofArray I) = .error .logic_error ∧
      CoxPropHazardsTransitionState.add (CoxPropHazardsTransitionState.ofArray I)
        (CoxPropHazardsTransitionState.ofArray A) = .error .logic_error ∧
      CoxPropHazardsTransitionState.add (CoxPropHazardsTransitionState.ofArray A)
        (CoxPropHazardsTransitionState.ofArray Z)
          = .ok (CoxPropHazardsTransitionState.ofArray A) ∧
      CoxPropHazardsTransitionState.add (CoxPropHazardsTransitionState.ofArray Z)
        (CoxPropHazardsTransitionState.ofArray A)
          = .ok (CoxPropHazardsTransitionState.ofArray A) := by
  obtain ⟨hw, hl, h1, n, hn, h0⟩ := hA
  have hAw : (A.getD 1 0).toNat = w := by rw [h1, Double.toNat_natCast]
  have hZw' : (Z.getD 1 0).toNat = w := by rw [hZw, Double.toNat_natCast]
  have hI1 : (I.getD 1 0).toNat = 0 := by rw [getD_of_all_zero I hI.2, Double.toNat_zero]
  have hIl := hI.1
  have hcond : A.length ≠ I.length ∨ w ≠ 0 := by
    by_cases h : w = 0
    · subst h; left; omega
    · exact Or.inr h
  have hcond' : I.length ≠ A.length ∨ 0 ≠ w := by
    rcases hcond with h | h
    · exact Or.inl (fun e => h e.symm)
    · exact Or.inr (fun e => h e.symm)
  refine ⟨?_, ?_, ?_, ?_⟩
  · simp only [CoxPropHazardsTransitionState.add, CoxPropHazardsTransitionState.widthOfX,
      CoxPropHazardsTransitionState.ofArray, hAw, hI1, hcond, if_true]
  · simp only [CoxPropHazardsTransitionState.add, CoxPropHazardsTransitionState.widthOfX,
      CoxPropHazardsTransitionState.ofArray, hAw, hI1, hcond', if_true]
  · obtain ⟨m, hadd, hml, hg⟩ := getD_cox_add A Z w hl (hZl.trans hl) hAw hZw'
    rw [hadd, cox_ofArray_of_toNat A w hAw]
    have hm : m = A := by
      apply ext_getD _ _ hml
      intro k hk
      rw [hg k (by omega)]
      by_cases hk0 : k = 0
      · have e : ((0 : ℕ) : Double) = 0 := by
          simp [Double.natCast_eq_finite, Double.zero_eq_finite]
        rw [if_pos hk0, hZ 0 (by omega) (by omega), Double.toNat_zero, e, add_zero]
      · by_cases hk1 : k = 1
        · rw [if_neg hk0, if_pos hk1, add_zero]
        · rw [if_neg hk0, if_neg hk1, hZ k (by omega) hk1, add_zero]
    rw [hm]
  · obtain ⟨m, hadd, hml, hg⟩ := getD_cox_add Z A w (hZl.trans hl) hl hZw' hAw
    rw [hadd, cox_ofArray_of_toNat A w hAw]
    have hm : m = A := by
      apply ext_getD _ _ (hml.trans hZl)
      intro k hk
      rw [hg k (by omega)]
      by_cases hk0 : k = 0
      · rw [if_pos hk0, hk0, hZ 0 (by omega) (by omega), h0, Double.toNat_natCast, zero_add]
      · by_cases hk1 : k = 1
        · rw [if_neg hk0, if_pos hk1, add_zero, hk1, hZw, h1]
        · rw [if_neg hk0, if_neg hk1, hZ k (by omega) hk1, zero_add]
    rw [hm]

/-- C18, amended, at a concrete input: the state of width 1 with one row,
`coef = [2]`, `S = 3`, `H = [1]`, `grad = [5]`, `logLikelihood = 7`, `V = [4]`,
`hessian = [6]`; the initial state of five zeros; the zero state of width 1. -/
theorem cox_merge_identity_witness :
    CoxPropHazardsTransitionState.add
        (CoxPropHazardsTransitionState.ofArray ([1, 1, 2, 3, 1, 5, 7, 4, 6].map Double.finite))
        (CoxPropHazardsTransitionState.ofArray [0, 0, 0, 0, 0]) = .error .logic_error ∧
      CoxPropHazardsTransitionState.add (CoxPropHazardsTransitionState.ofArray [0, 0, 0, 0, 0])
        (CoxPropHazardsTransitionState.ofArray ([1, 1, 2, 3, 1, 5, 7, 4, 6].map Double.finite))
          = .error .logic_error ∧
      CoxPropHazardsTransitionState.add
        (CoxPropHazardsTransitionState.ofArray ([1, 1, 2, 3, 1, 5, 7, 4, 6].map Double.finite))
        (CoxPropHazardsTransitionState.ofArray ([0, 1, 0, 0, 0, 0, 0, 0, 0].map Double.finite))
          = .ok (CoxPropHazardsTransitionState.ofArray
              ([1, 1, 2, 3, 1, 5, 7, 4, 6].map Double.finite)) ∧
      CoxPropHazardsTransitionState.add
        (CoxPropHazardsTransitionState.ofArray ([0, 1, 0, 0, 0, 0, 0, 0, 0].map Double.finite))
        (CoxPropHazardsTransitionState.ofArray ([1, 1, 2, 3, 1, 5, 7, 4, 6].map Double.finite))
          = .ok (CoxPropHazardsTransitionState.ofArray
              ([1, 1, 2, 3, 1, 5, 7, 4, 6].map Double.finite)) :=
  cox_merge_identity ([1, 1, 2, 3, 1, 5, 7, 4, 6].map Double.finite) [0, 0, 0, 0, 0]
    ([0, 1, 0, 0, 0, 0, 0, 0, 0].map Double.finite) 1
    ⟨by decide, by decide, by decide!, 1, by decide, by decide!⟩ ⟨by decide, by decide⟩
    (by decide) (by decide!) (by decide!)

/-- C19, evaluated at the failing input: two states of width 1 that share
`coef = [2]` (one row and two rows). `operator+=` succeeds and sums `rowCount`,
`S`, `H`, `grad`, `logLikelihood`, `V` and `hessian`, but it sums `coef` as
well: the merged `coef` is `[4]`, not the shared `[2]`. -/
theorem cox_merge_coef_failing_input :
    (CoxPropHazardsTransitionState.ofArray ([1, 1, 2, 3, 1, 5, 7, 4, 6].map Double.finite)).coef
        = [Double.finite 2] ∧
      (CoxPropHazardsTransitionState.ofArray ([2, 1, 2, 1, 1, 1, 1, 1, 1].map Double.finite)).coef
        = [Double.finite 2] ∧
      (CoxPropHazardsTransitionState.add
          (CoxPropHazardsTransitionState.ofArray ([1, 1, 2, 3, 1, 5, 7, 4, 6].map Double.finite))
          (CoxPropHazardsTransitionState.ofArray
            ([2, 1, 2, 1, 1, 1, 1, 1, 1].map Double.finite))).map
        (fun r => (r.numRows, [r.coef, [r.S], r.H, r.grad, [r.logLikelihood], r.V, r.hessian]))
        = .ok (3, [[Double.finite 4], [Double.finite 4], [Double.finite 2], [Double.finite 6],
            [Double.finite 8], [Double.finite 5], [Double.finite 7]]) ∧
      [Double.finite 4] ≠ [Double.finite 2] := by
  decide!

/-- C20 fails as stated: with no previous state (`coef = 0`, so that
`exp (coef . x) = 1` for every row) and the shards `[[1]]` and `[[3]]`, the
fold over both rows ends with `grad = [1]` and `hessian = [-1]`, while the merge
of the two shard folds has `grad = [0]` and `hessian = [0]`: every row's
update of `grad` and `hessian` reads the running `H`, `S` and `V` of its own
fold. -/
theorem cox_partition_invariance_counterexample :
    (cox_fold (fun _ => 1) (fun _ => 0) [0, 0, 0, 0, 0]
        ([[Double.finite 1]] ++ [[Double.finite 3]]) none).map
      (fun t => ((CoxPropHazardsTransitionState.ofArray t).grad,
        (CoxPropHazardsTransitionState.ofArray t).hessian))
      = .ok ([Double.finite 1], [Double.finite (-1)]) ∧
    (cox_fold (fun _ => 1) (fun _ => 0) [0, 0, 0, 0, 0] [[Double.finite 1]] none).bind
      (fun a =>
        (cox_fold (fun _ => 1) (fun _ => 0) [0, 0, 0, 0, 0] [[Double.finite 3]] none).bind
          (fun b =>
            (CoxPropHazardsTransitionState.add (CoxPropHazardsTransitionState.ofArray a)
              (CoxPropHazardsTransitionState.ofArray b)).map
              (fun r => (r.grad, r.hessian))))
      = .ok ([Double.finite 0], [Double.finite 0]) ∧
    ([Double.finite 1], [Double.finite (-1)]) ≠ ([Double.finite 0], [Double.finite 0]) := by
  decide!

/-- C20, amended. For an initial state, two non-empty lists `l1`, `l2` of
finite rows of one width `w` (at most 32767) and one previous state for all
folds (none, or a state of the layout size with width `w`, which seeds `coef`):
the folds of `cox_prop_hazards_step_transition` over `l1 ++ l2`, `l1` and `l2`
succeed, `operator+=` on the two shard folds succeeds, and the merged state
agrees with the single-pass fold in `rowCount`, `S`, `H` and `V`. Its `grad`,
`hessian` and `logLikelihood` are the sums of the shard values (not the
single-pass values). -/
theorem cox_partition_invariance (exp log : Double → Double) (init : List Double) (w : ℕ)
    (l1 l2 : List (List Double)) (previous : Option (List Double))
    (hinit : IsInitialState init) (hw : w ≤ 32767) (h1 : l1 ≠ []) (h2 : l2 ≠ [])
    (hr1 : ∀ x ∈ l1, isfinite x = true ∧ x.length = w)
    (hr2 : ∀ x ∈ l2, isfinite x = true ∧ x.length = w)
    (hp : ∀ P, previous = some P →
      P.length = 4 + 3 * w + 2 * (w * w) ∧ P.getD 1 0 = (w : Double)) :
    ∃ A12 A1 A2 M, cox_fold exp log init (l1 ++ l2) previous = .ok A12 ∧
      cox_fold exp log init l1 previous = .ok A1 ∧
      cox_fold exp log init l2 previous = .ok A2 ∧
      CoxPropHazardsTransitionState.add (CoxPropHazardsTransitionState.ofArray A1)
        (CoxPropHazardsTransitionState.ofArray A2) = .ok M ∧
      M.numRows = (CoxPropHazardsTransitionState.ofArray A12).numRows ∧
      M.S = (CoxPropHazardsTransitionState.ofArray A12).S ∧
      M.H = (CoxPropHazardsTransitionState.ofArray A12).H ∧
      M.V = (CoxPropHazardsTransitionState.ofArray A12).V ∧
      M.grad = vadd (CoxPropHazardsTransitionState.ofArray A1).grad
        (CoxPropHazardsTransitionState.ofArray A2).grad ∧
      M.hessian = vadd (CoxPropHazardsTransitionState.ofArray A1).hessian
        (CoxPropHazardsTransitionState.ofArray A2).hessian ∧
      M.logLikelihood = (CoxPropHazardsTransitionState.ofArray A1).logLikelihood
        + (CoxPropHazardsTransitionState.ofArray A2).logLikelihood := by
  have h1s : (coxSeed w previous).mStorage.getD 1 0 = (w : Double) := by
    cases previous with
    | none => rw [getD_coxSeed_none w 1 (by omega), if_pos rfl]
    | some P => rw [getD_one_coxSeed_some w P (by omega)]; exact (hp P rfl).2
  have hl : (coxSeed w previous).mStorage.length = 4 + 3 * w + 2 * (w * w) := by
    rw [length_coxSeed, cox_arraySize_eq _ hw]
  have h0 : (coxSeed w previous).mStorage.getD 0 0 = 0 := by
    rw [getD_coxSeed w previous 0 hw]
    cases previous with
    | none => exact if_neg (by omega)
    | some p => exact if_neg (by omega)
  have hz : ∀ k, 2 + w ≤ k → (coxSeed w previous).mStorage.getD k 0 = 0 := by
    intro k hk
    rw [getD_coxSeed w previous k hw]
    cases previous with
    | none => exact if_neg (by omega)
    | some p => exact if_neg (by omega)
  obtain ⟨x1, t1, rfl⟩ := List.exists_cons_of_ne_nil h1
  obtain ⟨x2, t2, rfl⟩ := List.exists_cons_of_ne_nil h2
  have hr12 : ∀ y ∈ x1 :: (t1 ++ x2 :: t2), isfinite y = true ∧ y.length = w := by
    intro y hy
    rw [← List.cons_append] at hy
    rcases List.mem_append.mp hy with h | h
    · exact hr1 y h
    · exact hr2 y h
  obtain ⟨e12, -⟩ := cox_fold_initial exp log w x1 (t1 ++ x2 :: t2) init previous hinit hw
    hr12 h1s
  obtain ⟨e1, -⟩ := cox_fold_initial exp log w x1 t1 init previous hinit hw hr1 h1s
  obtain ⟨e2, -⟩ := cox_fold_initial exp log w x2 t2 init previous hinit hw hr2 h1s
  rw [← List.cons_append] at e12
  obtain ⟨M, hadd, p⟩ := cox_partition_pure exp log w (x1 :: t1) (x2 :: t2)
    (coxSeed w previous).mStorage hl h0 h1s hz (fun x hx => (hr1 x hx).2)
    (fun x hx => (hr2 x hx).2)
  obtain ⟨p1, p2, p3, p4, -, p6, p7, p8⟩ := p
  exact ⟨_, _, _, M, e12, e1, e2, hadd, p1, p2, p3, p4, p6, p7, p8⟩

/-- C20, amended, at a concrete input: the shards `[[1]]` and `[[3]]` of
width 1, the previous state of width 1 with `coef = [2]`, and the identity in
place of `exp` and `log`. -/
theorem cox_partition_invariance_witness :
    ∃ A12 A1 A2 M,
      cox_fold (fun d => d) (fun d => d) [0, 0, 0, 0, 0]
        ([[Double.finite 1]] ++ [[Double.finite 3]])
        (some ([7, 1, 2, 9, 9, 9, 9, 9, 9].map Double.finite)) = .ok A12 ∧
      cox_fold (fun d => d) (fun d => d) [0, 0, 0, 0, 0] [[Double.finite 1]]
        (some ([7, 1, 2, 9, 9, 9, 9, 9, 9].map Double.finite)) = .ok A1 ∧
      cox_fold (fun d => d) (fun d => d) [0, 0, 0, 0, 0] [[Double.finite 3]]
        (some ([7, 1, 2, 9, 9, 9, 9, 9, 9].map Double.finite)) = .ok A2 ∧
      CoxPropHazardsTransitionState.add (CoxPropHazardsTransitionState.ofArray A1)
        (CoxPropHazardsTransitionState.ofArray A2) = .ok M ∧
      M.numRows = (CoxPropHazardsTransitionState.ofArray A12).numRows ∧
      M.S = (CoxPropHazardsTransitionState.ofArray A12).S ∧
      M.H = (CoxPropHazardsTransitionState.ofArray A12).H ∧
      M.V = (CoxPropHazardsTransitionState.ofArray A12).V ∧
      M.grad = vadd (CoxPropHazardsTransitionState.ofArray A1).grad
        (CoxPropHazardsTransitionState.ofArray A2).grad ∧
      M.hessian = vadd (CoxPropHazardsTransitionState.ofArray A1).hessian
        (CoxPropHazardsTransitionState.ofArray A2).hessian ∧
      M.logLikelihood = (CoxPropHazardsTransitionState.ofArray A1).logLikelihood
        + (CoxPropHazardsTransitionState.ofArray A2).logLikelihood :=
  cox_partition_invariance (fun d => d) (fun d => d) [0, 0, 0, 0, 0] 1
    [[Double.finite 1]] [[Double.finite 3]]
    (some ([7, 1, 2, 9, 9, 9, 9, 9, 9].map Double.finite))
    ⟨by decide, by decide⟩ (by decide) (by decide) (by decide)
    (by intro x hx; simp only [List.mem_singleton] at hx; subst hx; exact ⟨by decide, by decide⟩)
    (by intro x hx; simp only [List.mem_singleton] at hx; subst hx; exact ⟨by decide, by decide⟩)
    (by intro P h; cases h; exact ⟨by decide, by decide!⟩)

/-- C21. The Cox final step: `cox_prop_hazards_step_final` returns null for
every state array without rows, of any length (the all-zero array the database
creates included). For a state array of the layout size for its width
`w` that holds rows and whose `grad` and `hessian` are finite, it returns a
state with `coef' = coef - hessian.inverse() * grad` (step size 1) and with
`rowCount`, the width, `S`, `H`, `grad`, `logLikelihood`, `V` and `hessian`
unchanged. When the finite `hessian` is an invertible matrix and `inverse`
returns its inverse, `coef'` is `coef - hessian^{-1} grad` entry by entry. -/
theorem cox_prop_hazards_step_final_update (inverse : ℕ → List Double → List Double)
    (A : List Double) :
    ((CoxPropHazardsTransitionState.ofArray A).numRows = 0 →
      cox_prop_hazards_step_final inverse A = .ok none) ∧
    (∀ w : ℕ, A.length = 4 + 3 * w + 2 * (w * w) →
      (CoxPropHazardsTransitionState.ofArray A).widthOfX = w →
      (CoxPropHazardsTransitionState.ofArray A).numRows ≠ 0 →
      isfinite (CoxPropHazardsTransitionState.ofArray A).grad = true →
      isfinite (CoxPropHazardsTransitionState.ofArray A).hessian = true →
      ∃ t, cox_prop_hazards_step_final inverse A = .ok (some t) ∧
        (CoxPropHazardsTransitionState.ofArray t).coef
          = List.zipWith (· - ·) (CoxPropHazardsTransitionState.ofArray A).coef
              (matVec w (inverse w (CoxPropHazardsTransitionState.ofArray A).hessian)
                (CoxPropHazardsTransitionState.ofArray A).grad) ∧
        (CoxPropHazardsTransitionState.ofArray t).numRows
          = (CoxPropHazardsTransitionState.ofArray A).numRows ∧
        (CoxPropHazardsTransitionState.ofArray t).widthOfX = w ∧
        (CoxPropHazardsTransitionState.ofArray t).S
          = (CoxPropHazardsTransitionState.ofArray A).S ∧
        (CoxPropHazardsTransitionState.ofArray t).H
          = (CoxPropHazardsTransitionState.ofArray A).H ∧
        (CoxPropHazardsTransitionState.ofArray t).grad
          = (CoxPropHazardsTransitionState.ofArray A).grad ∧
        (CoxPropHazardsTransitionState.ofArray t).logLikelihood
          = (CoxPropHazardsTransitionState.ofArray A).logLikelihood ∧
        (CoxPropHazardsTransitionState.ofArray t).V
          = (CoxPropHazardsTransitionState.ofArray A).V ∧
        (CoxPropHazardsTransitionState.ofArray t).hessian
          = (CoxPropHazardsTransitionState.ofArray A).hessian ∧
        ∀ c g h hinv : List ℚ,
          (CoxPropHazardsTransitionState.ofArray A).coef = c.map Double.finite →
          (CoxPropHazardsTransitionState.ofArray A).grad = g.map Double.finite →
          (CoxPropHazardsTransitionState.ofArray A).hessian = h.map Double.finite →
          (matrixOfList w h).det ≠ 0 →
          inverse w (h.map Double.finite) = hinv.map Double.finite →
          matrixOfList w hinv = (matrixOfList w h)⁻¹ →
          ∀ i (hi : i < w),
            (CoxPropHazardsTransitionState.ofArray t).coef.getD i 0
              = Double.finite (c.getD i 0
                - ((matrixOfList w h)⁻¹.mulVec (fun j : Fin w => g.getD j 0)) ⟨i, hi⟩)) := by
  refine ⟨cox_final_null inverse A, ?_⟩
  intro w hl hw hn hg hh
  have hw' : (A.getD 1 0).toNat = w := hw
  refine ⟨_, cox_final_some inverse A w hw' hn hh hg, ?_⟩
  have hlc : ((A.drop 2).take w).length = w := by
    simp only [List.length_take, List.length_drop, hl]; omega
  rw [cox_ofArray_of_toNat A w hw']
  simp only [CoxPropHazardsTransitionState.coef, CoxPropHazardsTransitionState.grad,
    CoxPropHazardsTransitionState.hessian, CoxPropHazardsTransitionState.S,
    CoxPropHazardsTransitionState.H, CoxPropHazardsTransitionState.V,
    CoxPropHazardsTransitionState.logLikelihood]
  set nc := List.zipWith (fun a b => a - b) ((A.drop 2).take w)
      (matVec w (inverse w ((A.drop (4 + 3 * w + w * w)).take (w * w)))
        ((A.drop (3 + 2 * w)).take w)) with hnc
  have hlen : nc.length = w := by
    rw [hnc, List.length_zipWith, hlc, length_matVec, min_self]
  have h1 : ((writeBlock A 2 nc).getD 1 0).toNat = w := by
    rw [getD_writeBlock_disjoint _ _ _ _ (Or.inl (by omega)), hw']
  rw [cox_ofArray_of_toNat _ w h1]
  simp only [CoxPropHazardsTransitionState.coef, CoxPropHazardsTransitionState.grad,
    CoxPropHazardsTransitionState.hessian, CoxPropHazardsTransitionState.S,
    CoxPropHazardsTransitionState.H, CoxPropHazardsTransitionState.V,
    CoxPropHazardsTransitionState.logLikelihood]
  have hcoef : ((writeBlock A 2 nc).drop 2).take w = nc := by
    have := take_drop_writeBlock_same A 2 nc (by omega)
    rw [hlen] at this
    exact this
  refine ⟨hcoef, ?_, h1, ?_, ?_, ?_, ?_, ?_, ?_, ?_⟩
  · show ((writeBlock A 2 nc).getD 0 0).toNat = (A.getD 0 0).toNat
    rw [getD_writeBlock_disjoint _ _ _ _ (Or.inl (by omega))]
  · exact getD_writeBlock_disjoint _ _ _ _ (Or.inr (by omega))
  · exact take_drop_writeBlock_disjoint _ _ _ _ _ (Or.inr (by omega))
  · exact take_drop_writeBlock_disjoint _ _ _ _ _ (Or.inr (by omega))
  · exact getD_writeBlock_disjoint _ _ _ _ (Or.inr (by omega))
  · exact take_drop_writeBlock_disjoint _ _ _ _ _ (Or.inr (by omega))
  · exact take_drop_writeBlock_disjoint _ _ _ _ _ (Or.inr (by omega))
  · intro c g h hinv hc hgq hhq _ hinvq hM i hi
    have hcl : c.length = w := by
      have := congrArg List.length hc
      rw [hlc, List.length_map] at this
      exact this.symm
    rw [hcoef, hnc, hc, hgq, hhq, hinvq, matVec_finite,
      getD_zipWith_sub_finite _ _ i (by omega) (by simp; omega)]
    congr 2
    have hi2 : i < (List.range w).length := by simpa using hi
    rw [List.getD_eq_getElem _ _ (by simpa using hi), List.getElem_map, List.getElem_range,
      list_sum_range, Finset.sum_range (fun j => hinv.getD (i + j * w) 0 * g.getD j 0), ← hM]
    rfl

/-- C21 at two concrete inputs. The all-zero array of five entries, as the
database creates it: the result is null. The state of width 1 with one row,
`coef = [3]`, `grad = [4]` and `hessian = [2]` (the other fields are 9), with
`[1/2]` for the inverse of the hessian: the returned `coef` is `3 - 4/2 = 1`. -/
theorem cox_prop_hazards_step_final_update_witness :
    cox_prop_hazards_step_final (fun _ _ => [Double.finite (1 / 2)]) [0, 0, 0, 0, 0]
      = .ok none ∧
    ∃ t, cox_prop_hazards_step_final (fun _ _ => [Double.finite (1 / 2)])
        ([1, 1, 3, 9, 9, 4, 9, 9, 2].map Double.finite) = .ok (some t) ∧
      (CoxPropHazardsTransitionState.ofArray t).coef = [Double.finite 1] ∧
      (CoxPropHazardsTransitionState.ofArray t).numRows = 1 ∧
      (CoxPropHazardsTransitionState.ofArray t).hessian = [Double.finite 2] := by
  refine ⟨(cox_prop_hazards_step_final_update (fun _ _ => [Double.finite (1 / 2)])
    [0, 0, 0, 0, 0]).1 (by decide!), ?_⟩
  obtain ⟨t, ht, hc, hn, -, -, -, -, -, -, hh, -⟩ :=
    (cox_prop_hazards_step_final_update (fun _ _ => [Double.finite (1 / 2)])
      ([1, 1, 3, 9, 9, 4, 9, 9, 2].map Double.finite)).2 1 (by decide) (by decide!)
      (by decide!) (by decide) (by decide)
  refine ⟨t, ht, ?_, ?_, ?_⟩
  · rw [hc]; decide!
  · rw [hn]; decide!
  · rw [hh]; decide!

/-- C22, evaluated at the failing input: two rows `[1]` and `[2]` folded from
the initial state with `coef = [3]` and `timeDeath = 5` on both calls (the
identity stands for `exp`, so the weights are 3 and 6). The sums `exp_coef_x`,
`x_exp_coef_x` and `x_xTrans_exp_coef_x` are 9, `[15]` and `[27]` as claimed,
but the transition executes `state.coef += coef` on every row: the state's
`coef` is `[6]`, not `[3]`. After the first row alone it is `[3]`. -/
theorem intermediate_cox_coef_failing_input :
    ((intermediate_cox_prop_hazards_step_transition (fun d => d) [0, 0, 0, 0, 0]
        [Double.finite 1] (Double.finite 5) [Double.finite 3] none).bind
      (fun s => intermediate_cox_prop_hazards_step_transition (fun d => d) s
        [Double.finite 2] (Double.finite 5) [Double.finite 3] none)).map
      (fun t =>
        ((IntermediateCoxPropHazardsTransitionState.ofArray t).numRows,
          [(IntermediateCoxPropHazardsTransitionState.ofArray t).coef,
            [(IntermediateCoxPropHazardsTransitionState.ofArray t).exp_coef_x],
            (IntermediateCoxPropHazardsTransitionState.ofArray t).x_exp_coef_x,
            (IntermediateCoxPropHazardsTransitionState.ofArray t).x_xTrans_exp_coef_x]))
      = .ok (2, [[Double.finite 6], [Double.finite 9], [Double.finite 15], [Double.finite 27]]) ∧
    (intermediate_cox_prop_hazards_step_transition (fun d => d) [0, 0, 0, 0, 0]
        [Double.finite 1] (Double.finite 5) [Double.finite 3] none).map
      (fun t => (IntermediateCoxPropHazardsTransitionState.ofArray t).coef)
      = .ok [Double.finite 3] ∧
    [Double.finite 6] ≠ [Double.finite 3] := by
  decide!

/-- C25. Normal equations, in exact arithmetic: for every non-empty dataset of
finite rows `(y, x)` of one width `w` (at most 65535), `X^T X` singular or not,
with `pseudoInverse` returning the Moore-Penrose pseudo-inverse of `X^T X`,
folding the rows succeeds and the `coef` that `linregr_final` returns for the
folded state satisfies `(X^T X) coef = X^T y`: it is a least-squares solution. -/
theorem linregr_final_normal_equations (init : List Double) (w : ℕ)
    (rows : List (ℚ × List ℚ)) (pseudoInverse : ℕ → List Double → List Double)
    (conditionNo : ℕ → List Double → Double) (sqrt : Double → Double)
    (hinit : IsInitialState init) (hw : w ≤ 65535) (hne : rows ≠ [])
    (hrows : ∀ r ∈ rows, r.2.length = w)
    (hP : ∃ P : List ℚ,
      pseudoInverse w ((gramList w rows).map Double.finite) = P.map Double.finite ∧
      IsMoorePenrose (matrixOfList w (gramList w rows)) (matrixOfList w P)) :
    ∃ A res, ∃ c : List ℚ, linregr_fold init (toDoubleRows rows) = .ok A ∧
      linregr_final pseudoInverse conditionNo sqrt A = .ok res ∧
      res.coef = c.map Double.finite ∧
      (matrixOfList w (gramList w rows)).mulVec (fun j : Fin w => c.getD j 0)
        = fun i : Fin w => (xtyList w rows).getD i 0 := by
  obtain ⟨r, rs, rfl⟩ := List.exists_cons_of_ne_nil hne
  have hgood := goodRows_toDoubleRows w (r :: rs) hrows
  obtain ⟨efold, hst⟩ :=
    linregr_fold_initial w (Double.finite r.1, r.2.map Double.finite) (toDoubleRows rs) init
      (reads_initial init hinit).1 hw hgood
  obtain ⟨-, -, -, hxty, hxtx⟩ := reads_accumulated w (r :: rs) hw hrows hst
  have hbw := isLinRegrState_boundWidth _ w hst
  obtain ⟨P, hPeq, hMP⟩ := hP
  have eR : (Double.finite r.1, r.2.map Double.finite) :: toDoubleRows rs
      = toDoubleRows (r :: rs) := rfl
  rw [eR] at efold hbw
  generalize vadd (initializeState w).mStorage (sumDelta w (toDoubleRows (r :: rs))) = A
    at efold hbw hxty hxtx
  obtain ⟨res, hres, hcoef, -⟩ :=
    linregr_final_fields pseudoInverse conditionNo sqrt A
      (by rw [hxtx]; exact isfinite_map_finite _) (by rw [hxty]; exact isfinite_map_finite _)
  rw [hbw, hxtx, hPeq, hxty, matVec_finite] at hcoef
  exact ⟨A, res, _, efold, hres, hcoef, normal_equations w (r :: rs) P hMP.1⟩

/-- C25 at a concrete input with a singular `X^T X`: the rows `(1, [1, 1])` and
`(3, [1, 1])`, for which `X^T X` is the matrix of entries 2, `X^T y = [4, 4]`,
and the pseudo-inverse of `X^T X` is the matrix of entries `1/8`. -/
theorem linregr_final_normal_equations_witness :
    ∃ A res, ∃ c : List ℚ,
      linregr_fold [0, 0, 0, 0, 0] (toDoubleRows [(1, [1, 1]), (3, [1, 1])]) = .ok A ∧
      linregr_final (fun _ _ => [1 / 8, 1 / 8, 1 / 8, 1 / 8].map Double.finite) (fun _ _ => 0)
        (fun d => d) A = .ok res ∧
      res.coef = c.map Double.finite ∧
      (matrixOfList 2 (gramList 2 [(1, [1, 1]), (3, [1, 1])])).mulVec
          (fun j : Fin 2 => c.getD j 0)
        = fun i : Fin 2 => (xtyList 2 [(1, [1, 1]), (3, [1, 1])]).getD i 0 :=
  linregr_final_normal_equations [0, 0, 0, 0, 0] 2 [(1, [1, 1]), (3, [1, 1])]
    (fun _ _ => [1 / 8, 1 / 8, 1 / 8, 1 / 8].map Double.finite) (fun _ _ => 0) (fun d => d)
    ⟨by decide, by decide⟩ (by decide) (by decide)
    (by intro r hr; simp only [List.mem_cons, List.mem_singleton, List.not_mem_nil,
          or_false] at hr
        rcases hr with h | h <;> subst h <;> rfl)
    ⟨[1 / 8, 1 / 8, 1 / 8, 1 / 8], rfl, by
      have hG : matrixOfList 2 (gramList 2 [(1, [1, 1]), (3, [1, 1])])
          = Matrix.of ![![2, 2], ![2, 2]] := by
        ext i j
        fin_cases i <;> fin_cases j <;> decide!
      have hQ : matrixOfList 2 [1 / 8, 1 / 8, 1 / 8, 1 / 8]
          = Matrix.of ![![1 / 8, 1 / 8], ![1 / 8, 1 / 8]] := by
        ext i j
        fin_cases i <;> fin_cases j <;> decide!
      rw [hG, hQ]
      refine ⟨?_, ?_, ?_, ?_⟩ <;>
      · ext i j
        fin_cases i <;> fin_cases j <;>
          simp [Matrix.mul_apply, Fin.sum_univ_two, Matrix.transpose_apply] <;> norm_num⟩

/-- C24. Symmetry: the matrix `X_transp_X` of every linear-regression state
reachable from an initial state by calls of `linregr_transition` and
`linregr_merge_states` is symmetric, and so are the matrices `V` and `hessian`
of every Cox state of a width up to 32767 reachable from an initial (or reset)
state by calls of `cox_prop_hazards_step_transition` and `operator+=`. -/
theorem symmetry_invariant (exp log : Double → Double) (w : ℕ) (s c : List Double)
    (hs : LinRegrReach s) (hw : w ≤ 32767) (hc : CoxReach exp log w c) :
    IsSymmetric (ofArray s).widthOfX (ofArray s).X_transp_X ∧
      IsSymmetric (CoxPropHazardsTransitionState.ofArray c).widthOfX
        (CoxPropHazardsTransitionState.ofArray c).V ∧
      IsSymmetric (CoxPropHazardsTransitionState.ofArray c).widthOfX
        (CoxPropHazardsTransitionState.ofArray c).hessian := by
  constructor
  · rcases linRegrReach_state s hs with hi | ⟨v, hst, hsym⟩
    · intro i j hi' _
      have h0 : (ofArray s).widthOfX = 0 := by
        rw [widthOfX_ofArray, getD_of_all_zero s hi.2, Double.toNat_zero]
      omega
    · have hb := isLinRegrState_boundWidth s v hst
      have hwd : (ofArray s).widthOfX = v := hb
      rw [hwd]
      intro i j hi hj
      obtain ⟨-, q⟩ := reads_state s v hst
      have q1 := q i j hi hj
      have q2 := q j i hj hi
      simp only [X_transp_X_at, hb] at q1 q2
      rw [q1, q2, hsym i j hi hj]
  · obtain ⟨hst, sV, sG⟩ := coxReach_state exp log w c hw hc
    have h1 : (c.getD 1 0).toNat = w := by rw [hst.2.2.1, Double.toNat_natCast]
    rw [cox_widthOfX_ofArray, h1, cox_ofArray_of_toNat c w h1]
    exact ⟨sV, sG⟩

/-- C24 at a concrete input: the linear-regression state after the row
`(3, [1, 2])` and the Cox state after the row `[1, 2]` (no previous state,
`exp (0) = 1`). -/
theorem symmetry_invariant_witness :
    IsSymmetric (ofArray ([1, 2, 3, 9, 3, 6, 1, 2, 2, 4].map Double.finite)).widthOfX
        (ofArray ([1, 2, 3, 9, 3, 6, 1, 2, 2, 4].map Double.finite)).X_transp_X ∧
      IsSymmetric
        (CoxPropHazardsTransitionState.ofArray
          ([1, 2, 0, 0, 1, 1, 2, 0, 0, 0, 1, 2, 2, 4, 0, 0, 0, 0].map Double.finite)).widthOfX
        (CoxPropHazardsTransitionState.ofArray
          ([1, 2, 0, 0, 1, 1, 2, 0, 0, 0, 1, 2, 2, 4, 0, 0, 0, 0].map Double.finite)).V ∧
      IsSymmetric
        (CoxPropHazardsTransitionState.ofArray
          ([1, 2, 0, 0, 1, 1, 2, 0, 0, 0, 1, 2, 2, 4, 0, 0, 0, 0].map Double.finite)).widthOfX
        (CoxPropHazardsTransitionState.ofArray
          ([1, 2, 0, 0, 1, 1, 2, 0, 0, 0, 1, 2, 2, 4, 0, 0, 0, 0].map Double.finite)).hessian :=
  symmetry_invariant (fun _ => 1) (fun _ => 0) 2
    ([1, 2, 3, 9, 3, 6, 1, 2, 2, 4].map Double.finite)
    ([1, 2, 0, 0, 1, 1, 2, 0, 0, 0, 1, 2, 2, 4, 0, 0, 0, 0].map Double.finite)
    (LinRegrReach.transition [0, 0, 0, 0, 0] _ (Double.finite 3)
      [Double.finite 1, Double.finite 2] (LinRegrReach.initial _ ⟨by decide, by decide⟩)
      (by decide!))
    (by decide)
    (CoxReach.first [0, 0, 0, 0, 0] [Double.finite 1, Double.finite 2] none _
      ⟨by decide, by decide⟩ (by decide) (by intro P h; cases h) (by decide!))

/-- C26 fails as stated in three cases, each a first call on the row `[1]`
with a previous state of width 1.
When the `coef` taken over is not finite (`[NaN]`, with `exp (NaN) = NaN`):
`S = NaN`.
When `exp` underflows (`coef = [-800]`; the binary64 `std::exp (-800)` is 0):
`S = 0`, and the quotients by it make `grad` and `hessian` NaN.
When `S * S` underflows (`coef = [-400]`; the binary64 `std::exp (-400)` is
`8533054255549901 / 2 ^ 630`): `S` is positive, but the binary64 product
`S * S` is 0. -/
theorem cox_S_positive_counterexample :
    (cox_prop_hazards_step_transition
        (fun d => if d = Double.nan then Double.nan else 1)
        (fun _ => 0) [0, 0, 0, 0, 0] [Double.finite 1]
        (some [1, 1, Double.nan, 1, 1, 0, 0, 1, 0])).map
      (fun t => (CoxPropHazardsTransitionState.ofArray t).S)
      = .ok Double.nan ∧
    Double.lt 0 Double.nan = false ∧
    (cox_prop_hazards_step_transition
        (fun d => if d = Double.finite (-800) then 0 else 1)
        (fun _ => 0) [0, 0, 0, 0, 0] [Double.finite 1]
        (some [1, 1, Double.finite (-800), 1, 1, 0, 0, 1, 0])).map
      (fun t => ((CoxPropHazardsTransitionState.ofArray t).S,
        (CoxPropHazardsTransitionState.ofArray t).grad,
        (CoxPropHazardsTransitionState.ofArray t).hessian))
      = .ok (0, [Double.nan], [Double.nan]) ∧
    Double.lt 0 0 = false ∧
    (cox_prop_hazards_step_transition
        (fun d => if d = Double.finite (-400)
          then Double.finite (8533054255549901 / Double.pow2 630) else 1)
        (fun _ => 0) [0, 0, 0, 0, 0] [Double.finite 1]
        (some [1, 1, Double.finite (-400), 1, 1, 0, 0, 1, 0])).map
      (fun t => (Double.lt 0 (CoxPropHazardsTransitionState.ofArray t).S,
        Double.round64 ((CoxPropHazardsTransitionState.ofArray t).S
          * (CoxPropHazardsTransitionState.ofArray t).S)))
      = .ok (true, 0) := by
  decide!

/-- C26, amended. Division safety in the Cox transition, in exact arithmetic
and with `exp` positive on every finite argument: in every Cox state of a width
up to 32767 that is reachable from an initial (or reset) state by one or more
calls of the transition and by `operator+=`, and whose `coef` is finite,
`0 < S` and `0 < S * S`: the values that the transition divides by and takes
the logarithm of are positive. -/
theorem cox_S_positive (exp log : Double → Double) (w : ℕ) (s : List Double)
    (hw : w ≤ 32767) (hexp : ∀ d, d.isFinite = true → Double.lt 0 (exp d) = true)
    (h : CoxReach exp log w s)
    (hcoef : isfinite (CoxPropHazardsTransitionState.ofArray s).coef = true) :
    Double.lt 0 (CoxPropHazardsTransitionState.ofArray s).S = true ∧
      Double.lt 0 ((CoxPropHazardsTransitionState.ofArray s).S
        * (CoxPropHazardsTransitionState.ofArray s).S) = true := by
  obtain ⟨hst, -, -⟩ := coxReach_state exp log w s hw h
  have h1 : (s.getD 1 0).toNat = w := by rw [hst.2.2.1, Double.toNat_natCast]
  rw [cox_ofArray_of_toNat s w h1] at hcoef ⊢
  have hp := coxReach_pos exp log w s hw hexp h hcoef
  exact ⟨hp, double_pos_mul_self _ hp⟩

/-- C26, amended, at a concrete input: the Cox state after the rows `[1, 2]` and
`[3, 1]`, with no previous state and `1` for every `exp`: `S = 2`. -/
theorem cox_S_positive_witness :
    Double.lt 0 (CoxPropHazardsTransitionState.ofArray
        ([2, 2, 0, 0, 2, 4, 3, 1, -1 / 2, 0, 10, 5, 5, 5, -1, 1 / 2, 1 / 2, -1 / 4].map
          Double.finite)).S = true ∧
      Double.lt 0 ((CoxPropHazardsTransitionState.ofArray
        ([2, 2, 0, 0, 2, 4, 3, 1, -1 / 2, 0, 10, 5, 5, 5, -1, 1 / 2, 1 / 2, -1 / 4].map
          Double.finite)).S
        * (CoxPropHazardsTransitionState.ofArray
        ([2, 2, 0, 0, 2, 4, 3, 1, -1 / 2, 0, 10, 5, 5, 5, -1, 1 / 2, 1 / 2, -1 / 4].map
          Double.finite)).S) = true :=
  cox_S_positive (fun _ => 1) (fun _ => 0) 2 _ (by decide) (by intro d _; show Double.lt 0 1 = true; decide!)
    (CoxReach.next _ [Double.finite 3, Double.finite 1] none _
      (CoxReach.first [0, 0, 0, 0, 0] [Double.finite 1, Double.finite 2] none
        ([1, 2, 0, 0, 1, 1, 2, 0, 0, 0, 1, 2, 2, 4, 0, 0, 0, 0].map Double.finite)
        ⟨by decide, by decide⟩ (by decide) (by intro P h; cases h) (by decide!))
      (by decide!))
    (by decide)

/-- C27 fails as stated in two cases. When the `coef` taken over from the
previous state is not finite: the first call on the row `[1]` with the previous
state `[1, 1, NaN, 1, 1, 0, 0, 1, 0]` returns a state whose `hessian` is `[NaN]`,
not a matrix of numbers. At width 0: the call on the empty row returns a state
of width 0, whose `hessian` is the empty matrix, and the empty matrix is
positive definite. Here `exp` is 1 at every finite argument and, as in
IEEE 754, NaN at NaN, `+inf` at `+inf` and 0 at `-inf`. -/
theorem cox_hessian_negative_semidefinite_counterexample :
    cox_prop_hazards_step_transition
        (fun d => match d with
          | Double.finite _ => 1
          | Double.posInf => Double.posInf
          | Double.negInf => 0
          | Double.nan => Double.nan)
        (fun _ => 0) [0, 0, 0, 0, 0] [Double.finite 1]
        (some [1, 1, Double.nan, 1, 1, 0, 0, 1, 0])
      = .ok [1, 1, Double.nan, Double.nan, Double.nan, Double.nan, Double.nan, Double.nan,
          Double.nan] ∧
    (CoxPropHazardsTransitionState.ofArray
        [1, 1, Double.nan, Double.nan, Double.nan, Double.nan, Double.nan, Double.nan,
          Double.nan]).hessian = [Double.nan] ∧
    (¬ ∃ g : List ℚ, [Double.nan] = g.map Double.finite) ∧
    cox_prop_hazards_step_transition
        (fun d => match d with
          | Double.finite _ => 1
          | Double.posInf => Double.posInf
          | Double.negInf => 0
          | Double.nan => Double.nan)
        (fun _ => 0) [0, 0, 0, 0, 0] [] none
      = .ok [1, 0, 1, 0] ∧
    (CoxPropHazardsTransitionState.ofArray [1, 0, 1, 0]).hessian = [] ∧
    (matrixOfList 0 []).PosDef := by
  refine ⟨by decide!, by decide!, ?_, by decide!, by decide!, ?_, ?_⟩
  · rintro ⟨g, hg⟩
    cases g with
    | nil => cases hg
    | cons a t => cases hg
  · ext i
    exact Fin.elim0 i
  · intro x hx
    exact absurd (Subsingleton.elim x 0) hx

/-- C27, amended. Sign of the Cox hessian, in exact arithmetic: with `exp` finite and
positive on finite arguments, in every Cox state of a width up to 32767 that is
reachable from an initial (or reset) state by calls of the transition and by
`operator+=`, and whose `coef` is finite, the entries of `hessian` are finite
and its quadratic form is not positive in any direction (the matrix is negative
semidefinite); so, for a width of at least 1, the matrix handed to the
decomposition in `cox_prop_hazards_step_final` is not positive definite. -/
theorem cox_hessian_negative_semidefinite (exp log : Double → Double) (w : ℕ)
    (s : List Double) (hw : w ≤ 32767)
    (hexp : ∀ q : ℚ, ∃ e : ℚ, 0 < e ∧ exp (Double.finite q) = Double.finite e)
    (h : CoxReach exp log w s)
    (hcoef : isfinite (CoxPropHazardsTransitionState.ofArray s).coef = true) :
    ∃ g : List ℚ, (CoxPropHazardsTransitionState.ofArray s).hessian = g.map Double.finite ∧
      (∀ v : Fin w → ℚ, Matrix.dotProduct v ((matrixOfList w g).mulVec v) ≤ 0) ∧
      (0 < w → ¬ (matrixOfList w g).PosDef) := by
  obtain ⟨hst, -, -⟩ := coxReach_state exp log w s hw h
  have h1 : (s.getD 1 0).toNat = w := by rw [hst.2.2.1, Double.toNat_natCast]
  rw [cox_ofArray_of_toNat s w h1] at hcoef ⊢
  obtain ⟨S, hh, V, G, -, -, -, eG, -, q⟩ := coxReach_moment exp log w s hw hexp h hcoef
  have hl := hst.2.1
  have lG : ((s.drop (4 + 3 * w + w * w)).take (w * w)).length = w * w := by
    simp only [List.length_take, List.length_drop, hl]; omega
  have hfin : isfinite ((s.drop (4 + 3 * w + w * w)).take (w * w)) = true := by
    apply isfinite_of_getD
    intro k hk
    rw [lG] at hk
    obtain ⟨c1, c2, c3⟩ := div_add_mod_index w k hk
    rw [getD_take_drop _ _ _ _ hk, ← c3, eG _ _ c1 c2]
    rfl
  obtain ⟨g, hg⟩ := exists_map_finite _ hfin
  have hgG : ∀ i j, i < w → j < w → g.getD (i + j * w) 0 = G i j := by
    intro i j hi hj
    have e1 := eG i j hi hj
    rw [← getD_take_drop s _ (w * w) _ (index_lt_sq w i j hi hj), hg, getD_map_finite] at e1
    exact Double.finite.inj e1
  have hnsd : ∀ v : Fin w → ℚ, Matrix.dotProduct v ((matrixOfList w g).mulVec v) ≤ 0 := by
    intro v
    rw [dotProduct_mulVec_eq]
    have := (q (fun i => if h : i < w then v ⟨i, h⟩ else 0)).2.2
    refine le_trans (le_of_eq ?_) this
    refine Finset.sum_congr rfl (fun i hi => Finset.sum_congr rfl (fun j hj => ?_))
    rw [hgG i j (Finset.mem_range.mp hi) (Finset.mem_range.mp hj)]
  refine ⟨g, hg, hnsd, ?_⟩
  intro hw0 hpd
  have hne : (fun _ : Fin w => (1 : ℚ)) ≠ 0 := by
    intro e
    have := congrFun e ⟨0, hw0⟩
    simp at this
  have hpos := hpd.2 (fun _ => 1) hne
  rw [star_trivial] at hpos
  exact absurd (hnsd (fun _ => 1)) (not_le.mpr hpos)

/-- C27, amended, at a concrete input: the Cox state after the rows `[1, 2]` and
`[3, 1]`, with no previous state and `1` for every `exp`; its hessian is
`[[-1, 1/2], [1/2, -1/4]]`. -/
theorem cox_hessian_negative_semidefinite_witness :
    ∃ g : List ℚ,
      (CoxPropHazardsTransitionState.ofArray
        ([2, 2, 0, 0, 2, 4, 3, 1, -1 / 2, 0, 10, 5, 5, 5, -1, 1 / 2, 1 / 2, -1 / 4].map
          Double.finite)).hessian = g.map Double.finite ∧
      (∀ v : Fin 2 → ℚ, Matrix.dotProduct v ((matrixOfList 2 g).mulVec v) ≤ 0) ∧
      (0 < 2 → ¬ (matrixOfList 2 g).PosDef) :=
  cox_hessian_negative_semidefinite (fun _ => 1) (fun _ => 0) 2 _ (by decide)
    (fun _ => ⟨1, one_pos, rfl⟩)
    (CoxReach.next _ [Double.finite 3, Double.finite 1] none _
      (CoxReach.first [0, 0, 0, 0, 0] [Double.finite 1, Double.finite 2] none
        ([1, 2, 0, 0, 1, 1, 2, 0, 0, 0, 1, 2, 2, 4, 0, 0, 0, 0].map Double.finite)
        ⟨by decide, by decide⟩ (by decide) (by intro P h; cases h) (by decide!))
      (by decide!))
    (by decide)

end madlib
